import Mathlib

/-! # MARCXML utilities (`mxutil.c`, `mxtool.c`): a shallow embedding

The element tree `XmElem`, the field / subfield locator (`mxFindField`,
`mxFindSubfield`, `mxGetData` with their static helpers) and the record
summary `marc2bib` are transcribed from the C sources as executable Lean
functions.

Modelling conventions

* A C string (`char *`, NUL terminated) is a `String`; every `Char` stands
  for one `char` of the C string and the string holds no NUL.  A pointer
  that may be `NULL` (`text`, the result of `mxGetData`) is an `Option`.
* `int` arguments (`tag`, `tnum`, `snum`) are `Int`; counts of elements are
  `Nat` (they are bounded by the size of the tree, which is assumed to fit
  in an `int`).
* `assert` (compiled in, no `NDEBUG`) and an index past the end of a
  `subelem` array are the two ways a call can fail to return; they are the
  two values of `Fault`, and every function that can reach one of them
  returns in `Except Fault`.
-/

namespace MxUtil

/-! ## Data model (`mxutil.h`) -/

/-- Container for a generic XML element: `struct XmElem`.  `nattribs` and
`nsubs` are the lengths of the two lists. -/
inductive XmElem where
  | mk (tag : String) (text : Option String) (isBlank : Bool)
      (attrib : List (String × String)) (subelem : List XmElem)

namespace XmElem

/-- Field `tag`. -/
def tag : XmElem → String
  | mk t _ _ _ _ => t

/-- Field `text` (`none` is `NULL`). -/
def text : XmElem → Option String
  | mk _ t _ _ _ => t

/-- Field `isBlank`. -/
def isBlank : XmElem → Bool
  | mk _ _ b _ _ => b

/-- Field `attrib`: pairs `[0]` attribute name, `[1]` value. -/
def attrib : XmElem → List (String × String)
  | mk _ _ _ a _ => a

/-- Field `subelem`. -/
def subelem : XmElem → List XmElem
  | mk _ _ _ _ s => s

end XmElem

/-- Ways in which a call does not return: a failed `assert` (the process
aborts) or a read past the end of a `subelem` array. -/
inductive Fault where
  | assertion
  | outOfBounds
  deriving DecidableEq

/-! ## C library functions used by the sources -/

/-- C `isspace` in the "C" locale: space and `\t \n \v \f \r`. -/
def isspace (c : Char) : Bool :=
  c.toNat = 32 || (9 ≤ c.toNat && c.toNat ≤ 13)

/-- Leading white space is skipped by `strtol`. -/
def skipSpace : List Char → List Char
  | [] => []
  | c :: cs => if isspace c then skipSpace cs else c :: cs

/-- Value of the longest prefix of decimal digits, accumulated on `acc`. -/
def digitsVal : List Char → Nat → Nat
  | [], acc => acc
  | c :: cs, acc =>
    if 48 ≤ c.toNat ∧ c.toNat ≤ 57 then digitsVal cs (acc * 10 + (c.toNat - 48)) else acc

/-- C `strtol(s, NULL, 10)` with a 64-bit `long`: optional white space, an
optional sign, then digits; the value saturates at `LONG_MIN`/`LONG_MAX`;
no digits give 0. -/
def strtol (s : List Char) : Int :=
  let v : Int :=
    match skipSpace s with
    | '-' :: cs => - (digitsVal cs 0 : Int)
    | '+' :: cs => (digitsVal cs 0 : Int)
    | cs => (digitsVal cs 0 : Int)
  max (-(2 ^ 63)) (min v (2 ^ 63 - 1))

/-- Conversion of a `long` to a 32-bit `int` (two's complement wrap). -/
def toInt32 (v : Int) : Int := (v + 2 ^ 31) % 2 ^ 32 - 2 ^ 31

/-- C `atoi`, which is `(int) strtol(s, NULL, 10)`. -/
def atoi (s : String) : Int := toInt32 (strtol s.data)

/-- The `char` a C string points at, `*s`: its first character, or the
terminating NUL when the string is empty. -/
def cHead (s : String) : Char := s.data.headD (Char.ofNat 0)

/-- Promotion of a `char` to `int`, as in `(int)sub` and in the comparison
`*value == tag`. -/
def charToInt (c : Char) : Int := (c.toNat : Int)

/-! ## Field / subfield locator (`mxutil.c`) -/

/-- Static `findTag`: 1 when some attribute of `mrecp` is named `strToMatch`
and, for `"tag"`, its value parses to `tag`, or, for `"code"`, its first
character is the character `tag`. -/
def findTag (mrecp : XmElem) (tag : Int) (strToMatch : String) : Bool :=
  mrecp.attrib.any fun a =>
    (decide ("tag" = strToMatch) && decide (atoi a.2 = tag) && decide (strToMatch = a.1)) ||
    (decide ("code" = strToMatch) && decide (charToInt (cHead a.2) = tag) &&
      decide (strToMatch = a.1))

mutual
/-- Static `mxFindFieldAfterAssert`: the matches below `mrecp`, plus one when
`mrecp` itself has an attribute `tag` whose value parses to `tag`. -/
def mxFindFieldAfterAssert : XmElem → Int → Nat
  | .mk _ _ _ attrib subelem, tag =>
    let count := mxFindFieldAfterAssertSubs subelem tag
    if attrib.any (fun a => decide (atoi a.2 = tag) && decide ("tag" = a.1)) then count + 1
    else count
/-- The loop `for (i = 0; i < nsubs; i++) count += ...` of
`mxFindFieldAfterAssert`. -/
def mxFindFieldAfterAssertSubs : List XmElem → Int → Nat
  | [], _ => 0
  | e :: es, tag => mxFindFieldAfterAssert e tag + mxFindFieldAfterAssertSubs es tag
end

/-- Public `mxFindField`: asserts that the element is a record, then counts. -/
def mxFindField (mrecp : XmElem) (tag : Int) : Except Fault Nat :=
  if mrecp.tag = "record" then .ok (mxFindFieldAfterAssert mrecp tag)
  else .error Fault.assertion

mutual
/-- Static `getSubCount`: the matches below `elem`, plus one when `elem`
itself has an attribute `code` whose first character is `sub`. -/
def getSubCount : XmElem → Char → Nat
  | .mk _ _ _ attrib subelem, sub =>
    let count := getSubCountSubs subelem sub
    if attrib.any (fun a => decide ("code" = a.1) && decide (cHead a.2 = sub)) then count + 1
    else count
/-- The loop over the subelements in `getSubCount`. -/
def getSubCountSubs : List XmElem → Char → Nat
  | [], _ => 0
  | e :: es, sub => getSubCount e sub + getSubCountSubs es sub
end

/-- The `for` loop of `findNthAttrib` from child index `i` on, with the
remaining children `subs` and the running `tagCount`: the index at which the
loop breaks, or `nsubs` when it runs to the end. -/
def findNthAttribLoop (tag tnum : Int) (strToMatch : String) :
    List XmElem → Nat → Int → Nat
  | [], i, _ => i
  | e :: es, i, tagCount =>
    let tagCount := if findTag e tag strToMatch then tagCount + 1 else tagCount
    if tagCount = tnum then i else findNthAttribLoop tag tnum strToMatch es (i + 1) tagCount

/-- Static `findNthAttrib`: position of the child holding the `tnum`-th
match. -/
def findNthAttrib (mrecp : XmElem) (tag tnum : Int) (strToMatch : String) : Nat :=
  findNthAttribLoop tag tnum strToMatch mrecp.subelem 0 0

/-- The array read `(*mrecp->subelem)[i]`. -/
def subelemAt (mrecp : XmElem) (i : Nat) : Except Fault XmElem :=
  match mrecp.subelem[i]? with
  | some e => .ok e
  | none => .error Fault.outOfBounds

/-- Public `mxFindSubfield`. -/
def mxFindSubfield (mrecp : XmElem) (tag tnum : Int) (sub : Char) : Except Fault Nat := do
  let maxRange ← mxFindField mrecp tag
  if tnum < 1 ∨ tnum > (maxRange : Int) then
    return 0
  let i := findNthAttrib mrecp tag tnum "tag"
  let child ← subelemAt mrecp i
  return getSubCount child sub

/-- Public `mxGetData`; `none` is the `NULL` result. -/
def mxGetData (mrecp : XmElem) (tag tnum : Int) (sub : Char) (snum : Int) :
    Except Fault (Option String) :=
  if mrecp.tag = "record" then do
    let maxTnumRange ← mxFindField mrecp tag
    if tnum < 1 ∨ tnum > (maxTnumRange : Int) then
      return none
    if 0 ≤ tag ∧ tag ≤ 9 then
      let tagChildLocation := findNthAttrib mrecp tag tnum "tag"
      let targetChild ← subelemAt mrecp tagChildLocation
      return targetChild.text
    let maxSnumRange ← mxFindSubfield mrecp tag tnum sub
    if snum < 1 ∨ snum > (maxSnumRange : Int) then
      return none
    let tagChildLocation := findNthAttrib mrecp tag tnum "tag"
    let targetTagChild ← subelemAt mrecp tagChildLocation
    let subChildLocation := findNthAttrib targetTagChild (charToInt sub) snum "code"
    let targetSubChild ← subelemAt targetTagChild subChildLocation
    return targetSubChild.text
  else .error Fault.assertion


/-! ## Record summary (`mxtool.h`, `mxtool.c`) -/

/-- The four strings of `typedef char *BibData[4]`, named by
`enum BIBFIELD`. -/
structure BibData where
  AUTHOR : String
  TITLE : String
  PUBINFO : String
  CALLNUM : String
  deriving DecidableEq

/-- The `printf` argument `(p == NULL ? "" : p)`. -/
def orEmpty (p : Option String) : String :=
  match p with
  | none => ""
  | some s => s

/-- Block "get author info" of `marc2bib`: the value stored in
`bdata[AUTHOR]`. -/
def marc2bibAuthor (mrec : XmElem) : Except Fault String := do
  let author ← mxGetData mrec 100 1 'a' 1
  let author ← match author with
    | none => mxGetData mrec 130 1 'a' 1
    | some s => pure (some s)
  match author with
  | some s => return s
  | none => return "na"

/-- Block "get Title info" of `marc2bib`: the value stored in
`bdata[TITLE]`. -/
def marc2bibTitle (mrec : XmElem) : Except Fault String := do
  let title1 ← mxGetData mrec 245 1 'a' 1
  let title2 ← mxGetData mrec 245 1 'p' 1
  let title3 ← mxGetData mrec 245 1 'b' 1
  if title1 ≠ none ∨ title2 ≠ none ∨ title3 ≠ none then
    return orEmpty title1 ++ orEmpty title2 ++ orEmpty title3
  else
    return "na"

/-- Block "get Publication info" of `marc2bib`: the value stored in
`bdata[PUBINFO]`. -/
def marc2bibPubinfo (mrec : XmElem) : Except Fault String := do
  let pub1 ← mxGetData mrec 260 1 'a' 1
  let pub2 ← mxGetData mrec 260 1 'b' 1
  let pub3 ← mxGetData mrec 260 1 'c' 1
  let pub4 ← mxGetData mrec 250 1 'a' 1
  if pub1 ≠ none ∨ pub2 ≠ none ∨ pub3 ≠ none ∨ pub4 ≠ none then
    return orEmpty pub1 ++ orEmpty pub2 ++ orEmpty pub3 ++ orEmpty pub4
  else
    return "na"

/-- Block "get Call number" of `marc2bib`: the value stored in
`bdata[CALLNUM]`.  The inner test reads `call3 != NULL || call2 != NULL`, as
in the source. -/
def marc2bibCallnum (mrec : XmElem) : Except Fault String := do
  let call1 ← mxGetData mrec 90 1 'a' 1
  let call2 ← mxGetData mrec 90 1 'b' 1
  if call1 ≠ none ∨ call2 ≠ none then
    return orEmpty call1 ++ orEmpty call2
  else
    let call3 ← mxGetData mrec 50 1 'a' 1
    let call4 ← mxGetData mrec 50 1 'b' 1
    if call3 ≠ none ∨ call2 ≠ none then
      return orEmpty call3 ++ orEmpty call4
    else
      return "na"

/-- Function `marc2bib`: its four blocks in source order; a fault in any
`mxGetData` call ends the whole call. -/
def marc2bib (mrec : XmElem) : Except Fault BibData := do
  let author ← marc2bibAuthor mrec
  let title ← marc2bibTitle mrec
  let pubinfo ← marc2bibPubinfo mrec
  let callnum ← marc2bibCallnum mrec
  return { AUTHOR := author, TITLE := title, PUBINFO := pubinfo, CALLNUM := callnum }

/-! ## Vocabulary of the specification -/

/-- The element carries an attribute named "tag" whose integer value is `n`. -/
def carriesTag (n : Int) (e : XmElem) : Bool :=
  e.attrib.any fun a => decide (a.1 = "tag") && decide (atoi a.2 = n)

/-- The element carries an attribute named "code" whose first character is
`c`. -/
def carriesCode (c : Char) (e : XmElem) : Bool :=
  e.attrib.any fun a => decide (a.1 = "code") && decide (cHead a.2 = c)

/-- The element carries an attribute with the given name. -/
def hasAttrib (name : String) (e : XmElem) : Bool :=
  e.attrib.any fun a => decide (a.1 = name)

mutual
/-- The elements strictly below `e`, in document order. -/
def descendants : XmElem → List XmElem
  | .mk _ _ _ _ subelem => descendantsSubs subelem
/-- The elements of the subtrees of a list of siblings, in document order. -/
def descendantsSubs : List XmElem → List XmElem
  | [] => []
  | e :: es => (e :: descendants e) ++ descendantsSubs es
end

/-- The element and everything below it, in document order. -/
def subtree (e : XmElem) : List XmElem := e :: descendants e

/-- Every element of the subtree of `e` that satisfies `p` is a direct child
of `e`: `e` itself does not satisfy `p`, and neither does anything strictly
below a child of `e`. -/
def matchesAreDirect (p : XmElem → Bool) (e : XmElem) : Bool :=
  !p e && e.subelem.all fun c => (descendants c).all fun d => !p d


/-- A record whose fields matching `tagNumber` are direct children: every
element of the record's tree that carries a "tag" attribute equal to
`tagNumber` is a direct child of the record. -/
def fieldsAreDirect (tagNumber : Int) (record : XmElem) : Bool :=
  matchesAreDirect (carriesTag tagNumber) record

/-- The elements carrying a "tag" attribute are direct children of the
record. -/
def tagsAreDirect (record : XmElem) : Bool :=
  matchesAreDirect (hasAttrib "tag") record

/-- The elements carrying a "code" attribute are direct children of fields,
that is, of direct children of the record that carry a "tag" attribute. -/
def codesAreInFields (record : XmElem) : Bool :=
  !hasAttrib "code" record &&
  record.subelem.all fun field =>
    !hasAttrib "code" field &&
    field.subelem.all fun s =>
      (!hasAttrib "code" s || hasAttrib "tag" field) &&
      (descendants s).all fun d => !hasAttrib "code" d

/-- The record of the specification's example: one field with tag 245
holding one subfield with code a and text "Design Patterns". -/
def designPatterns : XmElem :=
  .mk "record" none false []
    [.mk "datafield" none false [("tag", "245")]
      [.mk "subfield" (some "Design Patterns") false [("code", "a")] []]]

/-- A record with two control fields (tags 001 and 008) and one data field. -/
def controlRecord : XmElem :=
  .mk "record" none false []
    [.mk "controlfield" (some "ocm12345") false [("tag", "001")] [],
     .mk "controlfield" (some "850101s1995") false [("tag", "008")] [],
     .mk "datafield" none false [("tag", "245"), ("ind1", "1")]
      [.mk "subfield" (some "Design Patterns") false [("code", "ab")] [],
       .mk "subfield" (some "elements") false [("code", "b")] []]]

/-- A record whose field 245 holds, two levels down, another element with a
"tag" attribute equal to 245. -/
def nestedRecord : XmElem :=
  .mk "record" none false []
    [.mk "datafield" none false [("tag", "245")]
      [.mk "subfield" none false [("code", "a")]
        [.mk "inner" (some "x") false [("tag", "245")] []]],
     .mk "datafield" none false [("tag", "100")] []]

/-- An element that is not a record. -/
def notRecord : XmElem :=
  .mk "collection" none false [] [designPatterns]

/-- A data field element with the given tag value and subfields. -/
def datafield (tagValue : String) (subs : List XmElem) : XmElem :=
  .mk "datafield" none false [("tag", tagValue), ("ind1", " "), ("ind2", " ")] subs

/-- A subfield element with the given code and text. -/
def subfield (code text : String) : XmElem :=
  .mk "subfield" (some text) false [("code", code)] []

/-- A full bibliographic record. -/
def bookRecord : XmElem :=
  .mk "record" none false []
    [datafield "050" [subfield "a" "QA76.64", subfield "b" ".D47 1995"],
     datafield "100" [subfield "a" "Gamma, Erich."],
     datafield "245" [subfield "a" "Design patterns :", subfield "b" "elements of reusable software"],
     datafield "250" [subfield "a" "1st ed."],
     datafield "260" [subfield "a" "Reading :", subfield "b" "Addison-Wesley,", subfield "c" "1995."]]

/-- A record whose only author information is the uniform title in
field 130. -/
def uniformTitleRecord : XmElem :=
  .mk "record" none false []
    [datafield "130" [subfield "a" "Bible."],
     datafield "245" [subfield "p" "Genesis"]]

/-- A record with no bibliographic field at all. -/
def emptyRecord : XmElem := .mk "record" none false [] []

/-- A record whose title proper (245 a) is the two-letter text "na". -/
def naTitleRecord : XmElem :=
  .mk "record" none false []
    [datafield "245" [subfield "a" "na"]]

/-- A record whose local call number (090 a) is the two-letter text "na". -/
def naCallRecord : XmElem :=
  .mk "record" none false []
    [datafield "090" [subfield "a" "na"]]

/-- A record whose field 050 has subfield b only. -/
def lcItemOnlyRecord : XmElem :=
  .mk "record" none false []
    [datafield "050" [subfield "b" ".D47 1995"]]

/-- A record in the shape the locator is written for: tagged "record", the
elements carrying a "tag" attribute are its direct children, and the elements
carrying a "code" attribute are direct children of those. -/
def wellFormedRecord (record : XmElem) : Bool :=
  decide (record.tag = "record") && tagsAreDirect record && codesAreInFields record

/-- A record whose place of publication (260 a) is the two-letter text
"na". -/
def naPubRecord : XmElem :=
  .mk "record" none false []
    [datafield "260" [subfield "a" "na"]]

/-! ## Output streams and serialization (`mxutil.c`) -/

/-- An output stream (`FILE *` opened for writing): the text accepted so
far, the number of `fprintf` calls made on it, and, for every call number,
whether that call fails. -/
structure FILE where
  written : String
  calls : Nat
  fails : Nat → Bool

/-- C `fprintf` on a stream, with the formatted text as argument: a failing
call writes nothing and returns a negative value, a successful one appends
the text and returns its length. -/
def fprintf (stream : FILE) (s : String) : Int × FILE :=
  if stream.fails stream.calls then
    (-1, { stream with calls := stream.calls + 1 })
  else
    ((s.length : Int), { stream with written := stream.written ++ s, calls := stream.calls + 1 })

/-- How `printf` renders a `%s` argument with glibc: a null pointer is
printed as the six characters `(null)`. -/
def fmtS (p : Option String) : String :=
  match p with
  | none => "(null)"
  | some s => s

/-- Replacement of one character by libxml2 `xmlEncodeSpecialChars`. -/
def encodeSpecialChar (c : Char) : List Char :=
  if c = '<' then "&lt;".data
  else if c = '>' then "&gt;".data
  else if c = '&' then "&amp;".data
  else if c = Char.ofNat 34 then "&quot;".data
  else if c = '\r' then "&#13;".data
  else [c]

/-- The libxml2 function `xmlEncodeSpecialChars(NULL, input)`: `NULL` for a
`NULL` input, otherwise the input with the characters `<`, `>`, `&`, `"` and
carriage return replaced by entities. -/
def xmlEncodeSpecialChars (input : Option String) : Option String :=
  match input with
  | none => none
  | some s => some ⟨s.data.flatMap encodeSpecialChar⟩

/-- `EXIT_SUCCESS` of `stdlib.h`. -/
def EXIT_SUCCESS : Int := 0

/-- `EXIT_FAILURE` of `stdlib.h`. -/
def EXIT_FAILURE : Int := 1

/-- The loop `for (i = 0; i < depth; i++) fprintf(mxfile, "\t")`. -/
def printTabs : Nat → FILE → FILE
  | 0, mxfile => mxfile
  | n + 1, mxfile => printTabs n (fprintf mxfile "\t").2

/-- The attribute loop of `printElement`: nothing is written for an element
tagged "collection". -/
def printAttribs (tag : String) : List (String × String) → FILE → FILE
  | [], mxfile => mxfile
  | a :: rest, mxfile =>
    if tag ≠ "collection" then
      printAttribs tag rest (fprintf mxfile (" " ++ a.1 ++ "=\"" ++ a.2 ++ "\"")).2
    else printAttribs tag rest mxfile

mutual
/-- Function `printElement`: writes the element at the given depth and returns
the number of elements written, or -1 when the write of the opening tag
fails. -/
def printElement : XmElem → Nat → FILE → Int × FILE
  | .mk tag text _ attrib subelem, depth, mxfile =>
    let f1 := printTabs depth mxfile
    let opening := if tag ≠ "collection" then fprintf f1 ("<marc:" ++ tag) else (1, f1)
    if tag ≠ "collection" ∧ opening.1 < 1 then (-1, opening.2)
    else
      let numElements : Int := if tag ≠ "collection" then 1 else 0
      let f2 := printAttribs tag attrib opening.2
      let f3 := if tag ≠ "collection" then (fprintf f2 ">").2 else f2
      let f4 :=
        if 0 < subelem.length then
          if tag ≠ "collection" then (fprintf f3 "\n").2 else f3
        else
          (fprintf f3 (fmtS (xmlEncodeSpecialChars text) ++ "</marc:" ++ tag ++ ">\n")).2
      let kids := printSubelems subelem (depth + 1) f4
      let f5 :=
        if 0 < subelem.length ∧ tag ≠ "collection" then
          (fprintf (printTabs depth kids.2) ("</marc:" ++ tag ++ ">\n")).2
        else kids.2
      (numElements + kids.1, f5)
/-- The loop "print subelements" of `printElement`: the sum of the values
returned for the children, each printed at `depth`. -/
def printSubelems : List XmElem → Nat → FILE → Int × FILE
  | [], _, mxfile => (0, mxfile)
  | e :: es, depth, mxfile =>
    let r := printElement e depth mxfile
    let rs := printSubelems es depth r.2
    (r.1 + rs.1, rs.2)
end

/-- The XML declaration line. -/
def xmlDeclLine : String := "<?xml version=\"1.0\" encoding=\"UTF-8\"?>\n"

/-- The fixed comment line. -/
def commentLine : String := "<!-- Output by mxutil library ( Craig Lehmann ) -->\n"

/-- The namespace declarations that close the opening collection tag. -/
def namespaceDecls : String :=
  " xmlns:marc=\"http://www.loc.gov/MARC21/slim\"" ++
  " xmlns:xsi=\"http://www.w3.org/2001/XMLSchema-instance\"" ++
  " xsi:schemaLocation=\"http://www.loc.gov/MARC21/slim" ++
  " http://www.loc.gov/standards/marcxml/schema/MARC21slim.xsd\">\n"

/-- The closing collection tag written by `mxWriteFile`, `concat` and
`selects`. -/
def closingLine : String := "</marc:collection>\n"

/-- Function `mxWriteFile`; `none` is a `NULL` element. -/
def mxWriteFile (top : Option XmElem) (mxfile : FILE) : Int × FILE :=
  match top with
  | none => (-1, mxfile)
  | some e =>
    if e.tag = "collection" then
      let r := fprintf mxfile xmlDeclLine
      if r.1 < 1 then (-1, r.2)
      else
        let f1 := (fprintf r.2 commentLine).2
        let f2 := (fprintf f1 ("<marc:" ++ e.tag)).2
        let f3 := (fprintf f2 namespaceDecls).2
        let temp := printElement e 0 f3
        (temp.1, (fprintf temp.2 closingLine).2)
    else (-1, mxfile)

/-! ## Commands (`mxtool.c`) -/

/-- Static `printCollectionHeader`: 1 for a successful print, 0 when the
first write fails. -/
def printCollectionHeader (top : XmElem) (outfile : FILE) : Int × FILE :=
  let r := fprintf outfile xmlDeclLine
  if r.1 < 1 then (0, r.2)
  else
    let f1 := (fprintf r.2 commentLine).2
    let f2 := (fprintf f1 ("<marc:" ++ top.tag)).2
    (1, (fprintf f2 namespaceDecls).2)

/-- Function `concat`. -/
def concat (top1 top2 : XmElem) (outfile : FILE) : Int × FILE :=
  let h := printCollectionHeader top1 outfile
  if h.1 = 0 then (EXIT_FAILURE, h.2)
  else
    let t1 := printElement top1 0 h.2
    let t2 := printElement top2 0 t1.2
    let f := (fprintf t2.2 closingLine).2
    if t1.1 = EXIT_FAILURE ∨ t2.1 = EXIT_FAILURE then (EXIT_FAILURE, f)
    else (EXIT_SUCCESS, f)

/-- The two selection modes, `enum SELECTOR`. -/
inductive SELECTOR where
  | KEEP
  | DISCARD
  deriving DecidableEq

/-- Function `match` of `mxtool.c`: 1 when the regular expression matches the
data, else 0.  The POSIX matcher (`regcomp` followed by `regexec`) is the
parameter `regexec`, applied to the expression and the data. -/
def match_ (regexec : String → String → Bool) (data regex : String) : Int :=
  if regexec regex data then 1 else 0

/-- The character `pattern[i]` of a C string, for `i` up to its length: the
terminating NUL at the end. -/
def charAt (pattern : String) (i : Nat) : Char := pattern.data.getD i (Char.ofNat 0)

/-- The `switch (pattern[0])` of `selects`: the result of `match` on the
field the pattern selects, or `none` in the `default` case. -/
def switchMatch (regexec : String → String → Bool) (pattern : String) (bibinfo : BibData) :
    Option Int :=
  if charAt pattern 0 = 'a' then some (match_ regexec bibinfo.AUTHOR (pattern.drop 2))
  else if charAt pattern 0 = 't' then some (match_ regexec bibinfo.TITLE (pattern.drop 2))
  else if charAt pattern 0 = 'p' then some (match_ regexec bibinfo.PUBINFO (pattern.drop 2))
  else none

/-- The test that guards `printElement` inside the `switch`: `match(...)` in
the KEEP loop, `match(...) == 0` in the DISCARD loop. -/
def selected (sel : SELECTOR) (m : Option Int) : Bool :=
  match sel, m with
  | SELECTOR.KEEP, some v => decide (v ≠ 0)
  | SELECTOR.DISCARD, some v => decide (v = 0)
  | _, none => false

/-- The `for` loop of `selects` over the children still to visit.  The
result is `false` when the loop ends in `return EXIT_FAILURE`, and `true`
when it runs to the end. -/
def selectsLoop (regexec : String → String → Bool) (sel : SELECTOR) (pattern : String) :
    List XmElem → FILE → Except Fault (Bool × FILE)
  | [], outfile => .ok (true, outfile)
  | child :: rest, outfile =>
    match marc2bib child with
    | .error fault => .error fault
    | .ok bibinfo =>
      if selected sel (switchMatch regexec pattern bibinfo) then
        let r := printElement child 1 outfile
        if r.1 = -1 then .ok (false, r.2)
        else selectsLoop regexec sel pattern rest r.2
      else selectsLoop regexec sel pattern rest outfile

/-- Function `selects`. -/
def selects (regexec : String → String → Bool) (top : XmElem) (sel : SELECTOR)
    (pattern : String) (outfile : FILE) : Except Fault (Int × FILE) :=
  if (charAt pattern 0 ≠ 'a' ∧ charAt pattern 0 ≠ 't' ∧ charAt pattern 0 ≠ 'p') ∨
      charAt pattern 1 ≠ '=' then
    .ok (EXIT_FAILURE, outfile)
  else
    let h := printCollectionHeader top outfile
    if h.1 = 0 then .ok (EXIT_FAILURE, h.2)
    else
      match selectsLoop regexec sel pattern top.subelem h.2 with
      | .error fault => .error fault
      | .ok (false, f) => .ok (EXIT_FAILURE, f)
      | .ok (true, f) => .ok (EXIT_SUCCESS, (fprintf f closingLine).2)

/-! ## Vocabulary of the specification: output -/

/-- Every write on the stream succeeds. -/
def FILE.neverFails (stream : FILE) : Prop := ∀ k, stream.fails k = false

/-- A fresh stream on which every write succeeds. -/
def okStream : FILE := ⟨"", 0, fun _ => false⟩

/-- The serialization of an element at a depth: the text `printElement`
writes for it on a stream where every write succeeds. -/
def serialization (e : XmElem) (depth : Nat) : String :=
  (printElement e depth okStream).2.written

/-- The text of `depth` tab characters. -/
def tabs (depth : Nat) : String := ⟨List.replicate depth '\t'⟩

/-- The attributes as written in an opening tag, in order. -/
def attribText : List (String × String) → String
  | [] => ""
  | a :: rest => (" " ++ a.1 ++ "=\"" ++ a.2 ++ "\"") ++ attribText rest

/-- The concatenation of a list of texts, in order. -/
def concatTexts : List String → String
  | [] => ""
  | s :: rest => s ++ concatTexts rest

/-- The second stream holds what the first holds followed by the text `s`,
and fails on the same calls. -/
def Appends (f g : FILE) (s : String) : Prop :=
  g.written = f.written ++ s ∧ g.fails = f.fails

/-- The opening tag of an element with all its attributes. -/
def openingTag (e : XmElem) : String := "<marc:" ++ e.tag ++ attribText e.attrib ++ ">"

/-- The closing tag of an element, which ends the line. -/
def closingTag (e : XmElem) : String := "</marc:" ++ e.tag ++ ">\n"

/-- The collection header: the XML declaration line, the comment line and the
opening collection tag with the namespace declarations. -/
def headerText (top : XmElem) : String :=
  xmlDeclLine ++ commentLine ++ ("<marc:" ++ top.tag) ++ namespaceDecls

/-- The number of nodes of the subtree, the element included, whose tag is
not "collection". -/
def countNonCollection (e : XmElem) : Nat :=
  ((subtree e).filter fun x => decide (x.tag ≠ "collection")).length

/-- Whether `selects` passes a child to `printElement`. -/
def isSelected (regexec : String → String → Bool) (sel : SELECTOR) (pattern : String)
    (child : XmElem) : Bool :=
  match marc2bib child with
  | .ok bibinfo => selected sel (switchMatch regexec pattern bibinfo)
  | .error _ => false

mutual
/-- What `printElement` writes when every write succeeds, as a function of
the element and the depth. -/
def printedText : XmElem → Nat → String
  | .mk tag text _ attrib subelem, depth =>
    if tag ≠ "collection" then
      if 0 < subelem.length then
        tabs depth ++ ("<marc:" ++ tag) ++ attribText attrib ++ ">" ++ "\n" ++
          printedTexts subelem (depth + 1) ++ tabs depth ++ ("</marc:" ++ tag ++ ">\n")
      else
        tabs depth ++ ("<marc:" ++ tag) ++ attribText attrib ++ ">" ++
          (fmtS (xmlEncodeSpecialChars text) ++ "</marc:" ++ tag ++ ">\n")
    else
      if 0 < subelem.length then tabs depth ++ printedTexts subelem (depth + 1)
      else tabs depth ++ (fmtS (xmlEncodeSpecialChars text) ++ "</marc:" ++ tag ++ ">\n")
/-- What the loop over the children writes when every write succeeds. -/
def printedTexts : List XmElem → Nat → String
  | [], _ => ""
  | e :: es, depth => printedText e depth ++ printedTexts es depth
end

/-- The serializations at depth 1 of the children of a collection, in
document order. -/
def childrenText (top : XmElem) : String :=
  concatTexts (top.subelem.map fun c => serialization c 1)

/-- What `printElement` writes at depth 0 for a collection before its
children: nothing when the collection has children, and, when it has none,
its text followed by a closing collection tag. -/
def strayText (top : XmElem) : String :=
  if 0 < top.subelem.length then ""
  else fmtS (xmlEncodeSpecialChars top.text) ++ closingTag top

/-- A well-formed pattern: its first character is one of a, t, p and its
second character is the equals sign. -/
def patternIsWellFormed (pattern : String) : Bool :=
  (decide (charAt pattern 0 = 'a') || decide (charAt pattern 0 = 't') ||
    decide (charAt pattern 0 = 'p')) && decide (charAt pattern 1 = '=')

/-- The text written for the children with the given indices, each child
serialized at depth 1, in the order of the index list. -/
def textOfIndices (top : XmElem) (indices : List Nat) : String :=
  concatTexts ((indices.filterMap fun i => top.subelem[i]?).map fun c => serialization c 1)

/-- A collection with no record, whose text is a line break. -/
def emptyCollection : XmElem := .mk "collection" (some "\n") true [] []

/-- A subfield element written `<subfield code="a"/>`: no children and no
text. -/
def emptySubfield : XmElem := .mk "subfield" none false [("code", "a")] []

/-- A collection of two records. -/
def twoRecordCollection : XmElem :=
  .mk "collection" none false [] [designPatterns, uniformTitleRecord]

/-- A collection of one record. -/
def oneRecordCollection : XmElem :=
  .mk "collection" none false [] [emptyRecord]

/-- A matcher for the examples: the expression matches when it is a
substring of the data. -/
def substringMatcher (regex data : String) : Bool :=
  decide (regex.data <:+: data.data)

/-- The indices of the children that `selects` passes to `printElement` in
the given mode, in increasing order. -/
def selectedIndices (regexec : String → String → Bool) (sel : SELECTOR) (pattern : String)
    (top : XmElem) : List Nat :=
  (List.range top.subelem.length).filter fun i =>
    match top.subelem[i]? with
    | some c => isSelected regexec sel pattern c
    | none => false

/-! ## Sorting the records (`mxtool.c`) -/

/-- The sign of C `strcmp` on two byte strings (the bytes compare as
`unsigned char`; the lists hold the bytes before the terminating NUL). -/
def strcmpBytes : List Nat → List Nat → Int
  | [], [] => 0
  | [], _ :: _ => -1
  | _ :: _, [] => 1
  | a :: as, b :: bs => if a < b then -1 else if b < a then 1 else strcmpBytes as bs

/-- The sign of C `strcmp` on two strings. -/
def strcmp (s1 s2 : String) : Int :=
  strcmpBytes (s1.data.map Char.toNat) (s2.data.map Char.toNat)

/-- The bytes that `strcmp` reads at an array slot holding the pointer value
`p`: the eight bytes of the pointer, least significant first (x86-64), up to
the first zero byte.  A user-space address is below 2^47, so its last two
bytes are zero and the read ends inside the slot. -/
def slotBytes (p : Nat) : List Nat :=
  ((List.range 8).map fun k => p / 256 ^ k % 256).takeWhile fun b => decide (b ≠ 0)

/-- Static `compare`, the comparison function handed to `qsort`.  `qsort`
calls it with the addresses of two array slots, and the body
`strcmp((char*)a, (char*)b)` reads the slots themselves as strings: the
arguments of the model are the pointer values `a` and `b` stored in the two
slots, and the strings they point to play no part. -/
def compare (a b : Nat) : Int := strcmpBytes (slotBytes a) (slotBytes b)

/-- C library `qsort` with comparison function `compar`: the array sorted so
that `compar` is never positive on an element and a later one.  Modelled as
an insertion sort. -/
def qsort {α : Type} (compar : α → α → Int) (base : List α) : List α :=
  base.insertionSort fun a b => compar a b ≤ 0

/-- Static `checkArrayForInt`: `val` when it occurs among the first `length`
entries of `array`, else -1. -/
def checkArrayForInt : List Int → Int → Nat → Int
  | _, _, 0 => -1
  | [], _, _ + 1 => -1
  | a :: rest, val, length + 1 => if a = val then val else checkArrayForInt rest val length

/-- The inner loop of `getOrder` for rank `i`, from original index `g` on,
with the original keys still to scan: the first `g` whose key equals
`keySorted` and which `checkArrayForInt` does not find is stored in
`order[i]`, `length` is incremented and the loop is left. -/
def getOrderInner (keySorted : String) (i : Nat) :
    List String → Nat → List Int × Nat → List Int × Nat
  | [], _, state => state
  | key :: keys, g, (order, length) =>
    if strcmp keySorted key = 0 ∧ checkArrayForInt order (g : Int) length ≠ (g : Int) then
      (order.set i (g : Int), length + 1)
    else getOrderInner keySorted i keys (g + 1) (order, length)

/-- The outer loop of `getOrder` from rank `i` on, with the sorted keys still
to place. -/
def getOrderOuter (keysOriginal : List String) :
    List String → Nat → List Int × Nat → List Int × Nat
  | [], _, state => state
  | keySorted :: rest, i, state =>
    getOrderOuter keysOriginal rest (i + 1) (getOrderInner keySorted i keysOriginal 0 state)

/-- Static `getOrder`.  The two key arrays hold `nsubs` strings each; the
block returned by `malloc` for `order` initially holds the values
`garbage 0`, `garbage 1`, ... -/
def getOrder (garbage : Nat → Int) (collection : XmElem)
    (keysOriginal keysSorted : List String) : List Int :=
  let nsubs := collection.subelem.length
  (getOrderOuter (keysOriginal.take nsubs) (keysSorted.take nsubs) 0
    ((List.range nsubs).map garbage, 0)).1

/-- The loop `(*collection->subelem)[i] = backUpPtrs[order[i]]` of
`sortRecs`, for the entries of `order` still to read. -/
def reassign (backUpPtrs : List XmElem) : List Int → Except Fault (List XmElem)
  | [] => .ok []
  | o :: rest =>
    if 0 ≤ o then
      match backUpPtrs[o.toNat]?, reassign backUpPtrs rest with
      | some e, .ok es => .ok (e :: es)
      | some _, .error fault => .error fault
      | none, _ => .error Fault.outOfBounds
    else .error Fault.outOfBounds

/-- Function `sortRecs`: the collection with its children reordered.  The
copy of `keys[i]` made by `customCopy` lies at address `copyAddr i`; `keys`
holds at least one key per child. -/
def sortRecs (copyAddr : Nat → Nat) (garbage : Nat → Int) (collection : XmElem)
    (keys : List String) : Except Fault XmElem :=
  let nsubs := collection.subelem.length
  if nsubs < 2 then .ok collection
  else if keys.length < nsubs then .error Fault.outOfBounds
  else
    let keysSorted := List.zipWith (fun i key => (copyAddr i, key)) (List.range nsubs) keys
    let keysSorted := qsort (fun a b => compare a.1 b.1) keysSorted
    let order := getOrder garbage collection keys (keysSorted.map fun a => a.2)
    match reassign collection.subelem order with
    | .ok subelem =>
      .ok (.mk collection.tag collection.text collection.isBlank collection.attrib subelem)
    | .error fault => .error fault

/-! ## Vocabulary of the specification: sorting -/

/-- A record whose call number (050 a) is the given text. -/
def callRecord (call : String) : XmElem :=
  .mk "record" none false [] [datafield "050" [subfield "a" call]]

/-- The collection of the specification's sorting example: two records with
call numbers "QA76.1" and "AB12.3". -/
def shelfCollection : XmElem :=
  .mk "collection" none false [] [callRecord "QA76.1", callRecord "AB12.3"]

/-- Addresses of consecutive 32-byte heap blocks, as handed out by
successive calls of `malloc` for short strings. -/
def heapAddr (i : Nat) : Nat := 0x5555555592c0 + 32 * i

/-- Addresses of consecutive 32-byte heap blocks whose lowest byte wraps
around between the first block and the second. -/
def heapAddrWrap (i : Nat) : Nat := 0x5555555592f0 + 32 * i

/-- The call numbers of the children, as `marc2bib` derives them. -/
def callNumbers (collection : XmElem) : List (Except Fault String) :=
  collection.subelem.map fun c => (marc2bib c).map BibData.CALLNUM

/-- A collection of four records for the examples with duplicate keys. -/
def fourRecordCollection : XmElem :=
  .mk "collection" none false []
    [callRecord "b1", callRecord "a1", callRecord "b2", callRecord "a2"]

/-! ## Vocabulary of the specification: return values and failing writes -/

/-- The number of elements tagged "record" in the tree of `top`. -/
def recordCount (top : XmElem) : Nat :=
  ((subtree top).filter fun x => decide (x.tag = "record")).length

/-- A collection holding the "Design Patterns" record. -/
def designCollection : XmElem := .mk "collection" none false [] [designPatterns]

/-- A fresh stream on which call number `k` fails and every other call
succeeds. -/
def failsAt (k : Nat) : FILE := ⟨"", 0, fun i => decide (i = k)⟩

/-- A record with a field whose "tag" value is not a number and a field whose
"tag" value is zero-padded. -/
def oddTagsRecord : XmElem :=
  .mk "record" none false []
    [datafield "abc" [subfield "a" "x"], datafield "090" [subfield "a" "QA76"]]

/-- A record whose only field, a control field with tag 001, has no text
(`<controlfield tag="001"/>`). -/
def blankControlRecord : XmElem :=
  .mk "record" none false [] [.mk "controlfield" none true [("tag", "001")] []]

/-- A record whose only field, a data field with tag 245, has no subfield. -/
def bareFieldRecord : XmElem :=
  .mk "record" none false [] [datafield "245" []]

/-- The field can be read for tag number `n`: for a tag number in 0..9 it has
a text; otherwise one of its direct children carries a "code" attribute and
has a text. -/
def readableField (n : Int) (field : XmElem) : Bool :=
  if 0 ≤ n ∧ n ≤ 9 then field.text.isSome
  else field.subelem.any fun s => hasAttrib "code" s && s.text.isSome

/-! ## Building the tree from the parsed document (`mxutil.c`)

The parsed document is a tree of libxml2 nodes.  A node of the model carries
the fields of `struct _xmlNode` that `mxMakeElem` reads; the `next` pointer
is the rest of the list a node stands in. -/

/-- The node types of `xmlElementType` that occur in a parsed document
without a document type definition. -/
inductive xmlElementType where
  | XML_ELEMENT_NODE
  | XML_TEXT_NODE
  | XML_CDATA_SECTION_NODE
  | XML_COMMENT_NODE
  deriving DecidableEq

/-- A node of the parsed document: `struct _xmlNode` with its `type`, `name`,
`content` (`none` is `NULL`), `properties` (attribute name and value, in
order) and `children` (in order). -/
inductive xmlNode where
  | mk (type : xmlElementType) (name : String) (content : Option String)
      (properties : List (String × String)) (children : List xmlNode)

namespace xmlNode

/-- Field `type`. -/
def type : xmlNode → xmlElementType
  | mk t _ _ _ _ => t

/-- Field `name`. -/
def name : xmlNode → String
  | mk _ n _ _ _ => n

/-- Field `content`. -/
def content : xmlNode → Option String
  | mk _ _ c _ _ => c

/-- Field `properties`. -/
def properties : xmlNode → List (String × String)
  | mk _ _ _ p _ => p

/-- Field `children`. -/
def children : xmlNode → List xmlNode
  | mk _ _ _ _ c => c

end xmlNode

/-- An element node. -/
def elementNode (name : String) (properties : List (String × String))
    (children : List xmlNode) : xmlNode :=
  .mk .XML_ELEMENT_NODE name none properties children

/-- A text node. -/
def textNode (content : String) : xmlNode :=
  .mk .XML_TEXT_NODE "text" (some content) [] []

/-- A comment node. -/
def commentNode (content : String) : xmlNode :=
  .mk .XML_COMMENT_NODE "comment" (some content) [] []

/-- The libxml2 string append `xmlStrcat(cur, add)`: `cur` when `add` is
`NULL`, a copy of `add` when `cur` is `NULL`. -/
def xmlStrcat (cur add : Option String) : Option String :=
  match add, cur with
  | none, _ => cur
  | some a, none => some a
  | some a, some c => some (c ++ a)

/-- The loop of `xmlNodeListGetString` with `inLine` set: the contents of the
text and CDATA nodes of the list are appended to `ret`. -/
def xmlNodeListGetStringLoop : List xmlNode → Option String → Option String
  | [], ret => ret
  | node :: next, ret =>
    if node.type = .XML_TEXT_NODE ∨ node.type = .XML_CDATA_SECTION_NODE then
      xmlNodeListGetStringLoop next (xmlStrcat ret node.content)
    else xmlNodeListGetStringLoop next ret

/-- The libxml2 call `xmlNodeListGetString(doc, list, 1)`; `none` is `NULL`,
returned when the list holds no text. -/
def xmlNodeListGetString (list : List xmlNode) : Option String :=
  xmlNodeListGetStringLoop list none

/-- The loop of `addElemText` over the characters of the text: the flag is
cleared at each character that is not white space. -/
def isBlankLoop : List Char → Bool → Bool
  | [], isBlank => isBlank
  | c :: cs, isBlank => isBlankLoop cs (if isspace c = false then false else isBlank)

/-- Static `addElemText`: the fields `text` and `isBlank` of the new
element. -/
def addElemText (children : List xmlNode) : Option String × Bool :=
  let text := xmlNodeListGetString children
  let i := match text with
    | some s => s.length
    | none => 0
  (text, if i > 0 then isBlankLoop (text.getD "").toList true else true)

/-- Static `getNumAttributes`. -/
def getNumAttributes (properties : List (String × String)) : Nat :=
  properties.length

/-- The libxml2 call `xmlGetProp(node, name)`: the value of the first
property with that name. -/
def xmlGetProp : List (String × String) → String → Option String
  | [], _ => none
  | a :: next, name => if a.1 = name then some a.2 else xmlGetProp next name

/-- The loop of `addAttribs`: `a` runs through the properties; the name is
copied and the value is looked up by name with `xmlGetProp`, which finds it
since `a` is a property of the node. -/
def addAttribsLoop (properties : List (String × String)) :
    List (String × String) → List (String × String)
  | [] => []
  | a :: next => (a.1, (xmlGetProp properties a.1).getD "") :: addAttribsLoop properties next

/-- Static `addAttribs`. -/
def addAttribs (properties : List (String × String)) : List (String × String) :=
  addAttribsLoop properties properties

mutual
/-- The body of `mxMakeElem` after the loop over comment nodes. -/
def mxMakeElemBody : xmlNode → XmElem
  | .mk type name _ properties children =>
    let t := addElemText children
    .mk name t.1 t.2 (addAttribs properties)
      (if type = .XML_ELEMENT_NODE then mxMakeSubelems children else [])
/-- The loop of `mxMakeElem` over `xmlFirstElementChild` and
`xmlNextElementSibling`: the children that are element nodes, each built by
the recursive call, whose loop over comment nodes does not run on an element
node.  `xmlChildElementCount` is the length of the result; it is 0 for a node
that is not an element. -/
def mxMakeSubelems : List xmlNode → List XmElem
  | [] => []
  | e :: next =>
    if e.type = .XML_ELEMENT_NODE then mxMakeElemBody e :: mxMakeSubelems next
    else mxMakeSubelems next
end

/-- Public `mxMakeElem(doc, node)`; the second argument is the list
`node->next`.  The loop moves past comment nodes; `none` is the read through
`NULL` when the list ends on a comment node. -/
def mxMakeElem : xmlNode → List xmlNode → Option XmElem
  | node, [] => if node.type = .XML_COMMENT_NODE then none else some (mxMakeElemBody node)
  | node, n :: next =>
    if node.type = .XML_COMMENT_NODE then mxMakeElem n next else some (mxMakeElemBody node)

/-- The node of `<controlfield tag="001"/>`. -/
def blankControlNode : xmlNode := elementNode "controlfield" [("tag", "001")] []

/-- The node of a record written on three lines: a line break and two blanks,
a leader element with text, a line break. -/
def indentedRecordNode : xmlNode :=
  elementNode "record" []
    [textNode "\n  ", elementNode "leader" [] [textNode "00000nam"], textNode "\n"]

/-- The node has a child that is a text or CDATA node with content. -/
def hasTextChild (node : xmlNode) : Bool :=
  node.children.any fun c =>
    (decide (c.type = .XML_TEXT_NODE) || decide (c.type = .XML_CDATA_SECTION_NODE)) &&
      c.content.isSome

/-- The node has a child that is an element node. -/
def hasElementChild (node : xmlNode) : Bool :=
  node.children.any fun c => decide (c.type = .XML_ELEMENT_NODE)

/-! ## Releasing the tree (`mxutil.c`)

`mxCleanElem` is modelled by the list of blocks it frees, in order.  An
element is named by its path, the list of child indexes that leads to it from
the root. -/

/-- The blocks of memory of a tree: for the element at `path`, its array of
subelement pointers, its tag, its text, the name and the value of its `i`-th
attribute, its array of attributes, and the `XmElem` structure itself. -/
inductive Block where
  | subelemArray (path : List Nat)
  | tag (path : List Nat)
  | text (path : List Nat)
  | attribName (path : List Nat) (i : Nat)
  | attribValue (path : List Nat) (i : Nat)
  | attribArray (path : List Nat)
  | node (path : List Nat)
  deriving DecidableEq

/-- The path of the element a block belongs to. -/
def Block.path : Block → List Nat
  | .subelemArray p => p
  | .tag p => p
  | .text p => p
  | .attribName p _ => p
  | .attribValue p _ => p
  | .attribArray p => p
  | .node p => p

/-- The loop of `mxCleanElem` over the attributes, from index `i` on: the
name and the value of each are freed. -/
def cleanAttribs (top : List Nat) : List (String × String) → Nat → List Block
  | [], _ => []
  | _ :: next, i => .attribName top i :: .attribValue top i :: cleanAttribs top next (i + 1)

mutual
/-- Public `mxCleanElem`: the blocks freed, in order, for the element `top`
points to, which stands at path `top`.  The array of subelements is touched
only when `nsubs > 0`; `text` is freed when it is not `NULL`; `attrib` is
`NULL` when there are no attributes. -/
def mxCleanElem : XmElem → List Nat → List Block
  | .mk _ text _ attrib subelem, top =>
    (if subelem.length > 0 then mxCleanSubelems subelem top 0 ++ [.subelemArray top] else [])
      ++ [.tag top]
      ++ (if text.isSome then [.text top] else [])
      ++ cleanAttribs top attrib 0
      ++ (if attrib.length > 0 then [.attribArray top] else [])
      ++ [.node top]
/-- The loop of `mxCleanElem` over the subelements, from index `i` on. -/
def mxCleanSubelems : List XmElem → List Nat → Nat → List Block
  | [], _, _ => []
  | e :: next, top, i => mxCleanElem e (top ++ [i]) ++ mxCleanSubelems next top (i + 1)
end

/-- The element at a path below `e`. -/
def nodeAt : XmElem → List Nat → Option XmElem
  | e, [] => some e
  | e, i :: path =>
    match e.subelem[i]? with
    | some c => nodeAt c path
    | none => none

/-- The blocks of the element itself that `mxCleanElem` frees after its
subelements. -/
def ownBlocks (e : XmElem) (top : List Nat) : List Block :=
  (if e.subelem.length > 0 then [.subelemArray top] else [])
    ++ [.tag top]
    ++ (if e.text.isSome then [.text top] else [])
    ++ cleanAttribs top e.attrib 0
    ++ (if e.attrib.length > 0 then [.attribArray top] else [])

/-! ## Vocabulary of the specification: what the written text keeps -/

/-- A tag that ends at the first blank or `>` of an opening tag: it contains
neither. -/
def plainTag (tag : String) : Bool :=
  tag.data.all fun c => !(decide (c = ' ') || decide (c = '>'))

/-- An attribute whose name contains no equals sign and whose value contains
no double quote. -/
def plainAttrib (a : String × String) : Bool :=
  (a.1.data.all fun c => !decide (c = '=')) && (a.2.data.all fun c => !decide (c = Char.ofNat 34))

mutual
/-- An element written in full by `printElement`: it and the elements below
it are not tagged "collection", their tags and attributes are plain, and
those without subelements have a text. -/
def plainElem : XmElem → Bool
  | .mk tag text _ attrib subelem =>
    !decide (tag = "collection") && plainTag tag && attrib.all plainAttrib &&
      (decide (0 < subelem.length) || text.isSome) && plainElems subelem
/-- Every element of the list is plain. -/
def plainElems : List XmElem → Bool
  | [] => true
  | e :: es => plainElem e && plainElems es
end

mutual
/-- The part of an element that `printElement` writes: its tag, its
attributes in order, its subelements in order, and its text when it has no
subelements; `isBlank` and the text of an element with subelements are left
out. -/
def writtenPart : XmElem → XmElem
  | .mk tag text _ attrib subelem =>
    .mk tag (if 0 < subelem.length then none else text) false attrib (writtenParts subelem)
/-- The written parts of a list of elements, in order. -/
def writtenParts : List XmElem → List XmElem
  | [] => []
  | e :: es => writtenPart e :: writtenParts es
end

/-- The node of a collection written on one line: a record that holds a
leader with text. -/
def compactCollectionNode : xmlNode :=
  elementNode "collection" []
    [elementNode "record" [] [elementNode "leader" [] [textNode "00000nam"]]]

/-- The node of the same collection written on five lines, each level
indented by two blanks. -/
def indentedCollectionNode : xmlNode :=
  elementNode "collection" []
    [textNode "\n  ",
     elementNode "record" []
      [textNode "\n    ", elementNode "leader" [] [textNode "00000nam"], textNode "\n  "],
     textNode "\n"]

/-! ## The root passed to `mxWriteFile` -/

/-- The argument `const XmElem *top` of `mxWriteFile` as the test
`top != NULL && top->tag != NULL` sees it: a `NULL` pointer, an element whose
`tag` is `NULL`, or an element with a tag. -/
inductive TopPtr where
  | null
  | untagged
  | tagged (e : XmElem)

/-- Function `mxWriteFile` on such an argument: the test fails on a `NULL`
pointer and on a `NULL` tag, and the function returns -1 without a write on
`mxfile`; on an element with a tag it is `mxWriteFile`. -/
def mxWriteFileTop (top : TopPtr) (mxfile : FILE) : Int × FILE :=
  match top with
  | .null => mxWriteFile none mxfile
  | .untagged => (-1, mxfile)
  | .tagged e => mxWriteFile (some e) mxfile

/-- A valid root: an element tagged "collection". -/
def validRoot : TopPtr → Bool
  | .tagged e => decide (e.tag = "collection")
  | _ => false

/-- The node of a collection written on one line whose only subfield is
written `<subfield code="a"/>`. -/
def emptySubfieldCollectionNode : xmlNode :=
  elementNode "collection" []
    [elementNode "record" []
      [elementNode "datafield" [("tag", "245")] [elementNode "subfield" [("code", "a")] []]]]

/-- The node of the same collection with the subfield written
`<subfield code="a">(null)</subfield>`. -/
def nullTextCollectionNode : xmlNode :=
  elementNode "collection" []
    [elementNode "record" []
      [elementNode "datafield" [("tag", "245")]
        [elementNode "subfield" [("code", "a")] [textNode "(null)"]]]]

/-- The node of the same collection with the subfield written
`<subfield code="&amp;">&amp;</subfield>`: the parser gives the one character
`&` as the value of the attribute and as the text. -/
def ampersandCollectionNode : xmlNode :=
  elementNode "collection" []
    [elementNode "record" []
      [elementNode "datafield" [("tag", "245")]
        [elementNode "subfield" [("code", "&")] [textNode "&"]]]]

/-! ## Supporting lemmas -/

theorem char_toNat_inj (a b : Char) (h : a.toNat = b.toNat) : a = b := by
  apply Char.ext
  apply UInt32.ext
  exact h

theorem findTag_tag (e : XmElem) (n : Int) : findTag e n "tag" = carriesTag n e := by
  unfold findTag carriesTag
  congr 1
  funext a
  by_cases h1 : a.1 = "tag" <;> by_cases h2 : atoi a.2 = n <;>
    simp [h1, h2, eq_comm (a := "tag")]

theorem findTag_code (e : XmElem) (c : Char) :
    findTag e (charToInt c) "code" = carriesCode c e := by
  unfold findTag carriesCode
  congr 1
  funext a
  have hinj : (charToInt (cHead a.2) = charToInt c) ↔ cHead a.2 = c := by
    unfold charToInt
    constructor
    · intro h
      exact char_toNat_inj _ _ (by exact_mod_cast h)
    · intro h; rw [h]
  by_cases h1 : a.1 = "code" <;> by_cases h2 : cHead a.2 = c <;>
    simp [h1, h2, hinj, eq_comm (a := "code")]

theorem tagLoop_eq (attrib : List (String × String)) (n : Int) :
    attrib.any (fun a => decide (atoi a.2 = n) && decide ("tag" = a.1)) =
      attrib.any (fun a => decide (a.1 = "tag") && decide (atoi a.2 = n)) := by
  congr 1
  funext a
  by_cases h1 : a.1 = "tag" <;> by_cases h2 : atoi a.2 = n <;>
    simp [h1, h2, eq_comm (a := "tag")]

theorem codeLoop_eq (attrib : List (String × String)) (c : Char) :
    attrib.any (fun a => decide ("code" = a.1) && decide (cHead a.2 = c)) =
      attrib.any (fun a => decide (a.1 = "code") && decide (cHead a.2 = c)) := by
  congr 1
  funext a
  by_cases h1 : a.1 = "code" <;> by_cases h2 : cHead a.2 = c <;>
    simp [h1, h2, eq_comm (a := "code")]

mutual
theorem mxFindFieldAfterAssert_eq : ∀ (e : XmElem) (n : Int),
    mxFindFieldAfterAssert e n = ((subtree e).filter (carriesTag n)).length
  | .mk t x b a subs, n => by
    have ih := mxFindFieldAfterAssertSubs_eq subs n
    simp only [mxFindFieldAfterAssert, subtree, descendants, tagLoop_eq, ih, List.filter_cons,
      carriesTag, XmElem.attrib]
    split <;> simp
theorem mxFindFieldAfterAssertSubs_eq : ∀ (es : List XmElem) (n : Int),
    mxFindFieldAfterAssertSubs es n = ((descendantsSubs es).filter (carriesTag n)).length
  | [], n => by simp [mxFindFieldAfterAssertSubs, descendantsSubs]
  | e :: es, n => by
    have ih1 := mxFindFieldAfterAssert_eq e n
    have ih2 := mxFindFieldAfterAssertSubs_eq es n
    simp only [mxFindFieldAfterAssertSubs, descendantsSubs, ih1, ih2, subtree,
      List.filter_append, List.length_append]
end

mutual
theorem getSubCount_eq : ∀ (e : XmElem) (c : Char),
    getSubCount e c = ((subtree e).filter (carriesCode c)).length
  | .mk t x b a subs, c => by
    have ih := getSubCountSubs_eq subs c
    simp only [getSubCount, subtree, descendants, codeLoop_eq, ih, List.filter_cons,
      carriesCode, XmElem.attrib]
    split <;> simp
theorem getSubCountSubs_eq : ∀ (es : List XmElem) (c : Char),
    getSubCountSubs es c = ((descendantsSubs es).filter (carriesCode c)).length
  | [], c => by simp [getSubCountSubs, descendantsSubs]
  | e :: es, c => by
    have ih1 := getSubCount_eq e c
    have ih2 := getSubCountSubs_eq es c
    simp only [getSubCountSubs, descendantsSubs, ih1, ih2, subtree,
      List.filter_append, List.length_append]
end

/-- When nothing strictly below the siblings `es` satisfies `p`, the matches
among all their subtrees are the matching siblings themselves. -/
theorem filter_descendantsSubs_of_direct (p : XmElem → Bool) (es : List XmElem)
    (h : ∀ c ∈ es, ∀ d ∈ descendants c, p d = false) :
    (descendantsSubs es).filter p = es.filter p := by
  induction es with
  | nil => simp [descendantsSubs]
  | cons e es ih =>
    have h1 : (descendants e).filter p = [] := by
      rw [List.filter_eq_nil_iff]
      intro d hd
      simp [h e (by simp) d hd]
    have h2 := ih (fun c hc => h c (List.mem_cons_of_mem _ hc))
    simp only [descendantsSubs, List.cons_append, List.filter_append, List.filter_cons, h1, h2,
      List.nil_append]

theorem matchesAreDirect_iff (p : XmElem → Bool) (e : XmElem) :
    matchesAreDirect p e = true ↔
      p e = false ∧ ∀ c ∈ e.subelem, ∀ d ∈ descendants c, p d = false := by
  simp [matchesAreDirect]

theorem filter_subtree_of_direct (p : XmElem → Bool) (e : XmElem)
    (h : matchesAreDirect p e = true) :
    (subtree e).filter p = e.subelem.filter p := by
  rw [matchesAreDirect_iff] at h
  obtain ⟨h0, h1⟩ := h
  cases e with
  | mk t x b a subs =>
    simp only [subtree, descendants, List.filter_cons, h0]
    exact filter_descendantsSubs_of_direct p subs h1

/-- The scan of `findNthAttrib`: started below the target count, it stops at
the child that is the wanted match. -/
theorem findNthAttribLoop_spec (tag tnum : Int) (str : String) (es : List XmElem) :
    ∀ (i : Nat) (c : Int) (k : Nat), tnum = c + k + 1 →
      k < (es.filter (fun e => findTag e tag str)).length →
      ∃ j F, findNthAttribLoop tag tnum str es i c = i + j ∧ es[j]? = some F ∧
        (es.filter (fun e => findTag e tag str))[k]? = some F := by
  induction es with
  | nil => intro i c k _ hk; simp at hk
  | cons e es ih =>
    intro i c k hc hk
    by_cases hp : findTag e tag str = true
    · simp only [List.filter_cons, hp, if_true, List.length_cons] at hk ⊢
      cases k with
      | zero =>
        refine ⟨0, e, ?_, by simp, by simp⟩
        have : c + 1 = tnum := by omega
        simp [findNthAttribLoop, hp, this]
      | succ k =>
        have hne : ¬ (c + 1 = tnum) := by omega
        obtain ⟨j, F, h1, h2, h3⟩ := ih (i + 1) (c + 1) k (by push_cast at hc; omega) (by omega)
        refine ⟨j + 1, F, ?_, by simpa using h2, by simpa using h3⟩
        simp only [findNthAttribLoop, hp, if_true, hne, if_false, h1]
        omega
    · have hne : ¬ (c = tnum) := by omega
      have hp' : findTag e tag str = false := by simpa using hp
      simp only [List.filter_cons, hp'] at hk ⊢
      obtain ⟨j, F, h1, h2, h3⟩ := ih (i + 1) c k hc (by simpa using hk)
      refine ⟨j + 1, F, ?_, by simpa using h2, by simpa using h3⟩
      simp [findNthAttribLoop, hp', hne, h1]
      omega

/-- Under `matchesAreDirect`, an occurrence number within the count of the
whole subtree is located by `findNthAttrib` at a valid child index, and the
child read there is that occurrence among the matching direct children. -/
theorem locate_direct (p : XmElem → Bool) (tag : Int) (str : String)
    (hp : ∀ e, findTag e tag str = p e) (E : XmElem)
    (hdir : matchesAreDirect p E = true) (num : Int) (h1 : 1 ≤ num)
    (h2 : num ≤ (((subtree E).filter p).length : Int)) :
    ∃ F, subelemAt E (findNthAttrib E tag num str) = .ok F ∧
      (E.subelem.filter p)[(num - 1).toNat]? = some F := by
  rw [filter_subtree_of_direct p E hdir] at h2
  have hfun : (fun e => findTag e tag str) = p := funext hp
  obtain ⟨j, F, e1, e2, e3⟩ := findNthAttribLoop_spec tag num str E.subelem 0 0
    (num - 1).toNat (by omega) (by rw [hfun]; omega)
  refine ⟨F, ?_, by rw [← hfun]; exact e3⟩
  simp [subelemAt, findNthAttrib, e1, e2]

theorem mxFindField_record (R : XmElem) (tag : Int) (hrec : R.tag = "record") :
    mxFindField R tag = .ok (((subtree R).filter (carriesTag tag)).length) := by
  simp [mxFindField, hrec, mxFindFieldAfterAssert_eq]

theorem mxFindSubfield_out (R : XmElem) (tag tnum : Int) (sub : Char)
    (hrec : R.tag = "record")
    (hout : tnum < 1 ∨ (((subtree R).filter (carriesTag tag)).length : Int) < tnum) :
    mxFindSubfield R tag tnum sub = .ok 0 := by
  simp [mxFindSubfield, mxFindField_record R tag hrec, bind, Except.bind, hout, pure, Except.pure]

theorem mxFindSubfield_in (R : XmElem) (tag tnum : Int) (sub : Char)
    (hrec : R.tag = "record") (h1 : 1 ≤ tnum)
    (h2 : tnum ≤ (((subtree R).filter (carriesTag tag)).length : Int)) :
    mxFindSubfield R tag tnum sub =
      (subelemAt R (findNthAttrib R tag tnum "tag")).map (fun F => getSubCount F sub) := by
  have hin : ¬ (tnum < 1 ∨ (((subtree R).filter (carriesTag tag)).length : Int) < tnum) := by
    omega
  simp only [mxFindSubfield, mxFindField_record R tag hrec, bind, Except.bind, hin, if_false,
    pure, Except.pure, gt_iff_lt]
  cases subelemAt R (findNthAttrib R tag tnum "tag") <;> rfl

theorem mxGetData_out (R : XmElem) (tag tnum : Int) (sub : Char) (snum : Int)
    (hrec : R.tag = "record")
    (hout : tnum < 1 ∨ (((subtree R).filter (carriesTag tag)).length : Int) < tnum) :
    mxGetData R tag tnum sub snum = .ok none := by
  simp [mxGetData, hrec, mxFindField_record R tag hrec, bind, Except.bind, hout, pure,
    Except.pure]

theorem mxGetData_control_eq (R : XmElem) (tag tnum : Int) (sub : Char) (snum : Int)
    (hrec : R.tag = "record") (h1 : 1 ≤ tnum)
    (h2 : tnum ≤ (((subtree R).filter (carriesTag tag)).length : Int))
    (h09 : 0 ≤ tag ∧ tag ≤ 9) :
    mxGetData R tag tnum sub snum =
      (subelemAt R (findNthAttrib R tag tnum "tag")).map (fun F => F.text) := by
  have hin : ¬ (tnum < 1 ∨ (((subtree R).filter (carriesTag tag)).length : Int) < tnum) := by
    omega
  simp only [mxGetData, hrec, mxFindField_record R tag hrec, bind, Except.bind, hin, if_false,
    pure, Except.pure, gt_iff_lt, if_true, h09, and_self]
  cases subelemAt R (findNthAttrib R tag tnum "tag") <;> rfl

theorem mxGetData_data_eq (R : XmElem) (tag tnum : Int) (sub : Char) (snum : Int)
    (hrec : R.tag = "record") (h1 : 1 ≤ tnum)
    (h2 : tnum ≤ (((subtree R).filter (carriesTag tag)).length : Int))
    (h09 : ¬ (0 ≤ tag ∧ tag ≤ 9)) (F : XmElem)
    (hF : subelemAt R (findNthAttrib R tag tnum "tag") = .ok F) :
    mxGetData R tag tnum sub snum =
      if snum < 1 ∨ ((getSubCount F sub : Nat) : Int) < snum then .ok none
      else (subelemAt F (findNthAttrib F (charToInt sub) snum "code")).map (fun S => S.text) := by
  have hin : ¬ (tnum < 1 ∨ (((subtree R).filter (carriesTag tag)).length : Int) < tnum) := by
    omega
  simp only [mxGetData, hrec, mxFindField_record R tag hrec, bind, Except.bind, hin, if_false,
    pure, Except.pure, gt_iff_lt, if_true, h09, mxFindSubfield_in R tag tnum sub hrec h1 h2, hF,
    Except.map]

theorem carriesTag_hasAttrib (n : Int) (e : XmElem) (h : hasAttrib "tag" e = false) :
    carriesTag n e = false := by
  simp only [hasAttrib, carriesTag, List.any_eq_false] at h ⊢
  intro a ha
  have := h a ha
  simp_all

theorem carriesCode_hasAttrib (c : Char) (e : XmElem) (h : hasAttrib "code" e = false) :
    carriesCode c e = false := by
  simp only [hasAttrib, carriesCode, List.any_eq_false] at h ⊢
  intro a ha
  have := h a ha
  simp_all

theorem fieldsAreDirect_of_tagsAreDirect (n : Int) (R : XmElem) (h : tagsAreDirect R = true) :
    fieldsAreDirect n R = true := by
  unfold tagsAreDirect at h
  unfold fieldsAreDirect
  rw [matchesAreDirect_iff] at h ⊢
  exact ⟨carriesTag_hasAttrib n R h.1,
    fun c hc d hd => carriesTag_hasAttrib n d (h.2 c hc d hd)⟩

theorem codesDirect_of_codesAreInFields (c : Char) (R F : XmElem)
    (h : codesAreInFields R = true) (hF : F ∈ R.subelem) :
    matchesAreDirect (carriesCode c) F = true := by
  simp only [codesAreInFields, Bool.and_eq_true, List.all_eq_true, Bool.not_eq_true',
    Bool.or_eq_true] at h
  obtain ⟨h1, h2⟩ := h.2 F hF
  rw [matchesAreDirect_iff]
  exact ⟨carriesCode_hasAttrib c F h1,
    fun s hs d hd => carriesCode_hasAttrib c d ((h2 s hs).2 d hd)⟩

theorem mem_of_filter_getElem? (p : XmElem → Bool) (l : List XmElem) (k : Nat) (F : XmElem)
    (h : (l.filter p)[k]? = some F) : F ∈ l :=
  (List.mem_filter.mp (List.getElem?_mem h)).1

/-- General form of the subfield lookup: it only needs the matches of the
two scans to be direct children of the element scanned. -/
theorem mxGetData_of_direct (R : XmElem) (tag tnum : Int) (sub : Char) (snum : Int)
    (hrec : R.tag = "record") (hdir : fieldsAreDirect tag R = true)
    (hsub : ∀ F ∈ R.subelem, matchesAreDirect (carriesCode sub) F = true)
    (h09 : ¬ (0 ≤ tag ∧ tag ≤ 9))
    (h1 : 1 ≤ tnum) (h2 : tnum ≤ (((subtree R).filter (carriesTag tag)).length : Int)) :
    ∃ F, (R.subelem.filter (carriesTag tag))[(tnum - 1).toNat]? = some F ∧
      mxFindSubfield R tag tnum sub = .ok ((subtree F).filter (carriesCode sub)).length ∧
      ((snum < 1 ∨ ((((subtree F).filter (carriesCode sub)).length : Nat) : Int) < snum) →
        mxGetData R tag tnum sub snum = .ok none) ∧
      ((1 ≤ snum ∧ snum ≤ ((((subtree F).filter (carriesCode sub)).length : Nat) : Int)) →
        ∃ S, (F.subelem.filter (carriesCode sub))[(snum - 1).toNat]? = some S ∧
          mxGetData R tag tnum sub snum = .ok S.text) := by
  obtain ⟨F, hF, hFk⟩ := locate_direct (carriesTag tag) tag "tag" (fun e => findTag_tag e tag) R
    hdir tnum h1 h2
  have hmem := mem_of_filter_getElem? _ _ _ _ hFk
  have hget := mxGetData_data_eq R tag tnum sub snum hrec h1 h2 h09 F hF
  refine ⟨F, hFk, ?_, ?_, ?_⟩
  · rw [mxFindSubfield_in R tag tnum sub hrec h1 h2, hF, ← getSubCount_eq]; rfl
  · intro hout
    rw [hget, getSubCount_eq, if_pos hout]
  · intro hin
    obtain ⟨S, hS, hSk⟩ := locate_direct (carriesCode sub) (charToInt sub) "code"
      (fun e => findTag_code e sub) F (hsub F hmem) snum hin.1 hin.2
    refine ⟨S, hSk, ?_⟩
    rw [hget, getSubCount_eq, if_neg (by omega), hS]; rfl

/-- C1. On an element tagged "record" whose tag-carrying elements are direct
children of the record and whose code-carrying elements are direct children
of those fields, for a tag number outside 0..9, a tag occurrence within
`[1, countField]` and a subfield occurrence within `[1, countSubfield]`,
`mxGetData` returns the text of the `subOccurrence`-th direct child whose
"code" attribute starts with `subCode` inside the `tagOccurrence`-th direct
child whose "tag" attribute equals `tagNumber`. -/
theorem mxGetData_returns_subfield_text (record : XmElem) (tagNumber tagOccurrence : Int)
    (subCode : Char) (subOccurrence : Int) (countField countSubfield : Nat)
    (hrec : record.tag = "record")
    (htags : tagsAreDirect record = true) (hcodes : codesAreInFields record = true)
    (hdata : ¬ (0 ≤ tagNumber ∧ tagNumber ≤ 9))
    (hcf : mxFindField record tagNumber = .ok countField)
    (ht : 1 ≤ tagOccurrence ∧ tagOccurrence ≤ (countField : Int))
    (hcs : mxFindSubfield record tagNumber tagOccurrence subCode = .ok countSubfield)
    (hs : 1 ≤ subOccurrence ∧ subOccurrence ≤ (countSubfield : Int)) :
    ∃ field subfield,
      (record.subelem.filter (carriesTag tagNumber))[(tagOccurrence - 1).toNat]? = some field ∧
      (field.subelem.filter (carriesCode subCode))[(subOccurrence - 1).toNat]? = some subfield ∧
      mxGetData record tagNumber tagOccurrence subCode subOccurrence = .ok subfield.text := by
  rw [mxFindField_record record tagNumber hrec] at hcf
  cases hcf
  obtain ⟨F, hFk, hcnt, -, hin⟩ := mxGetData_of_direct record tagNumber tagOccurrence subCode
    subOccurrence hrec (fieldsAreDirect_of_tagsAreDirect tagNumber record htags)
    (fun F hF => codesDirect_of_codesAreInFields subCode record F hcodes hF) hdata ht.1 ht.2
  rw [hcnt] at hcs
  cases hcs
  obtain ⟨S, hSk, hres⟩ := hin hs
  exact ⟨F, S, hFk, hSk, hres⟩

set_option maxRecDepth 8000 in
/-- Witness for C1: the specification's "Design Patterns" record. -/
theorem mxGetData_returns_subfield_text_witness :
    mxGetData designPatterns 245 1 'a' 1 = .ok (some "Design Patterns") ∧
    ∃ field subfield,
      (designPatterns.subelem.filter (carriesTag 245))[((1 : Int) - 1).toNat]? = some field ∧
      (field.subelem.filter (carriesCode 'a'))[((1 : Int) - 1).toNat]? = some subfield ∧
      mxGetData designPatterns 245 1 'a' 1 = .ok subfield.text :=
  ⟨rfl, mxGetData_returns_subfield_text designPatterns 245 1 'a' 1 1 1 rfl rfl rfl (by decide)
    rfl (by decide) rfl (by decide)⟩

/-- C2. On an element tagged "record", a tag occurrence below 1 or above
`countField(record, tagNumber)` makes `mxGetData` return absent (`NULL`),
whatever the subfield code and subfield occurrence are. -/
theorem mxGetData_absent_of_tagOccurrence_out (record : XmElem)
    (tagNumber tagOccurrence : Int) (subCode : Char) (subOccurrence : Int) (countField : Nat)
    (hrec : record.tag = "record")
    (hcf : mxFindField record tagNumber = .ok countField)
    (hout : tagOccurrence < 1 ∨ (countField : Int) < tagOccurrence) :
    mxGetData record tagNumber tagOccurrence subCode subOccurrence = .ok none := by
  rw [mxFindField_record record tagNumber hrec] at hcf
  cases hcf
  exact mxGetData_out record tagNumber tagOccurrence subCode subOccurrence hrec hout

set_option maxRecDepth 8000 in
/-- Witness for C2: occurrence 2 of field 245 on a record with a single such
field. -/
theorem mxGetData_absent_of_tagOccurrence_out_witness :
    mxFindField designPatterns 245 = .ok 1 ∧
    mxGetData designPatterns 245 2 'a' 1 = .ok none :=
  ⟨rfl, mxGetData_absent_of_tagOccurrence_out designPatterns 245 2 'a' 1 1 rfl rfl
    (by decide)⟩

/-- C3. On a record whose fields matching `tagNumber` are direct children,
for a control tag number (0..9) and a tag occurrence within
`[1, countField]`, `mxGetData` returns the text of the `tagOccurrence`-th
direct child whose "tag" attribute equals `tagNumber`; the result is the same
for every subfield code and every subfield occurrence. -/
theorem mxGetData_control_field_text (record : XmElem) (tagNumber tagOccurrence : Int)
    (countField : Nat)
    (hrec : record.tag = "record") (hdir : fieldsAreDirect tagNumber record = true)
    (hctl : 0 ≤ tagNumber ∧ tagNumber ≤ 9)
    (hcf : mxFindField record tagNumber = .ok countField)
    (ht : 1 ≤ tagOccurrence ∧ tagOccurrence ≤ (countField : Int)) :
    ∃ field,
      (record.subelem.filter (carriesTag tagNumber))[(tagOccurrence - 1).toNat]? = some field ∧
      ∀ (subCode : Char) (subOccurrence : Int),
        mxGetData record tagNumber tagOccurrence subCode subOccurrence = .ok field.text := by
  rw [mxFindField_record record tagNumber hrec] at hcf
  cases hcf
  obtain ⟨F, hF, hFk⟩ := locate_direct (carriesTag tagNumber) tagNumber "tag"
    (fun e => findTag_tag e tagNumber) record hdir tagOccurrence ht.1 ht.2
  refine ⟨F, hFk, fun subCode subOccurrence => ?_⟩
  rw [mxGetData_control_eq record tagNumber tagOccurrence subCode subOccurrence hrec ht.1 ht.2 hctl,
    hF]
  rfl

set_option maxRecDepth 8000 in
/-- Witness for C3: control field 008 of `controlRecord`, read with an
out-of-range subfield occurrence. -/
theorem mxGetData_control_field_text_witness :
    mxGetData controlRecord 8 1 'z' 77 = .ok (some "850101s1995") ∧
    ∃ field,
      (controlRecord.subelem.filter (carriesTag 8))[((1 : Int) - 1).toNat]? = some field ∧
      ∀ (subCode : Char) (subOccurrence : Int),
        mxGetData controlRecord 8 1 subCode subOccurrence = .ok field.text :=
  ⟨rfl, mxGetData_control_field_text controlRecord 8 1 1 rfl rfl (by decide) rfl (by decide)⟩

/-- The subfield count on a record whose matching fields are direct
children. -/
theorem mxFindSubfield_of_direct (R : XmElem) (tag tnum : Int) (sub : Char)
    (hrec : R.tag = "record") (hdir : fieldsAreDirect tag R = true)
    (h1 : 1 ≤ tnum) (h2 : tnum ≤ (((subtree R).filter (carriesTag tag)).length : Int)) :
    ∃ F, subelemAt R (findNthAttrib R tag tnum "tag") = .ok F ∧
      (R.subelem.filter (carriesTag tag))[(tnum - 1).toNat]? = some F ∧
      mxFindSubfield R tag tnum sub = .ok ((subtree F).filter (carriesCode sub)).length := by
  obtain ⟨F, hF, hFk⟩ := locate_direct (carriesTag tag) tag "tag" (fun e => findTag_tag e tag) R
    hdir tnum h1 h2
  refine ⟨F, hF, hFk, ?_⟩
  rw [mxFindSubfield_in R tag tnum sub hrec h1 h2, hF, ← getSubCount_eq]
  rfl

/-- C4. On a record whose fields matching `tagNumber` are direct children,
for a tag number outside 0..9 and an in-range tag occurrence, the subfield
count is computed, and a subfield occurrence below 1 or above it makes
`mxGetData` return absent (`NULL`): the call returns, it does not abort. -/
theorem mxGetData_absent_of_subOccurrence_out (record : XmElem)
    (tagNumber tagOccurrence : Int) (subCode : Char) (countField : Nat)
    (hrec : record.tag = "record") (hdir : fieldsAreDirect tagNumber record = true)
    (hdata : ¬ (0 ≤ tagNumber ∧ tagNumber ≤ 9))
    (hcf : mxFindField record tagNumber = .ok countField)
    (ht : 1 ≤ tagOccurrence ∧ tagOccurrence ≤ (countField : Int)) :
    ∃ countSubfield : Nat,
      mxFindSubfield record tagNumber tagOccurrence subCode = .ok countSubfield ∧
      ∀ subOccurrence : Int, subOccurrence < 1 ∨ (countSubfield : Int) < subOccurrence →
        mxGetData record tagNumber tagOccurrence subCode subOccurrence = .ok none := by
  rw [mxFindField_record record tagNumber hrec] at hcf
  cases hcf
  obtain ⟨F, hF, -, hcnt⟩ := mxFindSubfield_of_direct record tagNumber tagOccurrence subCode
    hrec hdir ht.1 ht.2
  refine ⟨_, hcnt, fun subOccurrence hout => ?_⟩
  rw [mxGetData_data_eq record tagNumber tagOccurrence subCode subOccurrence hrec ht.1 ht.2 hdata F
    hF, getSubCount_eq, if_pos hout]

set_option maxRecDepth 8000 in
/-- Witness for C4: subfield occurrences 0 and 2 of 245 a on the "Design
Patterns" record, which has one such subfield. -/
theorem mxGetData_absent_of_subOccurrence_out_witness :
    mxGetData designPatterns 245 1 'a' 2 = .ok none ∧
    mxGetData designPatterns 245 1 'a' 0 = .ok none ∧
    ∃ countSubfield : Nat,
      mxFindSubfield designPatterns 245 1 'a' = .ok countSubfield ∧
      ∀ subOccurrence : Int, subOccurrence < 1 ∨ (countSubfield : Int) < subOccurrence →
        mxGetData designPatterns 245 1 'a' subOccurrence = .ok none :=
  ⟨rfl, rfl, mxGetData_absent_of_subOccurrence_out designPatterns 245 1 'a' 1 rfl rfl (by decide)
    rfl (by decide)⟩

/-- C5. On an element tagged "record" that does not itself carry a "tag"
attribute, `mxFindField` returns the number of descendant elements, at any
depth, that carry an attribute named "tag" whose parsed integer value is
`tagNumber`; every such element counts once. -/
theorem mxFindField_counts_descendants (record : XmElem) (tagNumber : Int)
    (hrec : record.tag = "record") (hself : hasAttrib "tag" record = false) :
    mxFindField record tagNumber =
      .ok ((descendants record).filter (carriesTag tagNumber)).length := by
  rw [mxFindField_record record tagNumber hrec]
  simp [subtree, List.filter_cons, carriesTag_hasAttrib tagNumber record hself]

set_option maxRecDepth 8000 in
/-- Witness for C5: `nestedRecord` has a match at depth 1 and one at
depth 3. -/
theorem mxFindField_counts_descendants_witness :
    mxFindField nestedRecord 245 = .ok 2 ∧
    mxFindField nestedRecord 245 =
      .ok ((descendants nestedRecord).filter (carriesTag 245)).length :=
  ⟨rfl, mxFindField_counts_descendants nestedRecord 245 rfl rfl⟩

/-- C6. On a record whose fields matching `tagNumber` are direct children,
`mxFindSubfield` returns 0 when the tag occurrence is outside
`[1, countField]`, and otherwise the number of elements in the subtree of the
`tagOccurrence`-th direct child with "tag" equal to `tagNumber` that carry an
attribute named "code" whose first character is `subCode`. -/
theorem mxFindSubfield_counts_codes (record : XmElem) (tagNumber tagOccurrence : Int)
    (subCode : Char) (countField : Nat)
    (hrec : record.tag = "record") (hdir : fieldsAreDirect tagNumber record = true)
    (hcf : mxFindField record tagNumber = .ok countField) :
    (tagOccurrence < 1 ∨ (countField : Int) < tagOccurrence →
      mxFindSubfield record tagNumber tagOccurrence subCode = .ok 0) ∧
    (1 ≤ tagOccurrence ∧ tagOccurrence ≤ (countField : Int) →
      ∃ field,
        (record.subelem.filter (carriesTag tagNumber))[(tagOccurrence - 1).toNat]? =
          some field ∧
        mxFindSubfield record tagNumber tagOccurrence subCode =
          .ok ((subtree field).filter (carriesCode subCode)).length) := by
  rw [mxFindField_record record tagNumber hrec] at hcf
  cases hcf
  refine ⟨fun hout => mxFindSubfield_out record tagNumber tagOccurrence subCode hrec hout,
    fun hin => ?_⟩
  obtain ⟨F, -, hFk, hcnt⟩ := mxFindSubfield_of_direct record tagNumber tagOccurrence subCode
    hrec hdir hin.1 hin.2
  exact ⟨F, hFk, hcnt⟩

set_option maxRecDepth 8000 in
/-- Witness for C6: in `controlRecord` the code value "ab" counts for the
subfield code a, and occurrence 2 of field 245 gives 0. -/
theorem mxFindSubfield_counts_codes_witness :
    mxFindSubfield controlRecord 245 1 'a' = .ok 1 ∧
    mxFindSubfield controlRecord 245 2 'a' = .ok 0 ∧
    ((2 : Int) < 1 ∨ ((1 : Nat) : Int) < 2 → mxFindSubfield controlRecord 245 2 'a' = .ok 0) ∧
    ((1 : Int) ≤ 1 ∧ (1 : Int) ≤ ((1 : Nat) : Int) →
      ∃ field,
        (controlRecord.subelem.filter (carriesTag 245))[((1 : Int) - 1).toNat]? = some field ∧
        mxFindSubfield controlRecord 245 1 'a' =
          .ok ((subtree field).filter (carriesCode 'a')).length) :=
  ⟨rfl, rfl, (mxFindSubfield_counts_codes controlRecord 245 2 'a' 1 rfl rfl rfl).1,
    (mxFindSubfield_counts_codes controlRecord 245 1 'a' 1 rfl rfl rfl).2⟩

theorem subelemAt_ne_assertion (e : XmElem) (i : Nat) :
    subelemAt e i ≠ .error Fault.assertion := by
  unfold subelemAt
  split <;> simp

/-- C7. Each of `mxFindField`, `mxFindSubfield` and `mxGetData` fails on its
assertion exactly when the subject element's tag is not "record"; on an
element tagged "record" none of them trips the assertion, whatever the other
arguments. -/
theorem assertion_iff_not_record (mrecp : XmElem) (tag tnum : Int) (sub : Char) (snum : Int) :
    (mxFindField mrecp tag = .error Fault.assertion ↔ mrecp.tag ≠ "record") ∧
    (mxFindSubfield mrecp tag tnum sub = .error Fault.assertion ↔ mrecp.tag ≠ "record") ∧
    (mxGetData mrecp tag tnum sub snum = .error Fault.assertion ↔ mrecp.tag ≠ "record") := by
  by_cases hrec : mrecp.tag = "record"
  · have hF := mxFindField_record mrecp tag hrec
    refine ⟨by simp [hF, hrec], ?_, ?_⟩
    · simp only [hrec, ne_eq, not_true_eq_false, iff_false]
      simp only [mxFindSubfield, hF, bind, Except.bind, pure, Except.pure]
      split
      · simp
      · have := subelemAt_ne_assertion mrecp (findNthAttrib mrecp tag tnum "tag")
        cases h : subelemAt mrecp (findNthAttrib mrecp tag tnum "tag") with
        | error f => simp_all
        | ok F => simp
    · simp only [hrec, ne_eq, not_true_eq_false, iff_false]
      simp only [mxGetData, hrec, if_true, mxFindSubfield, hF, bind, Except.bind, pure,
        Except.pure]
      have h0 := subelemAt_ne_assertion mrecp (findNthAttrib mrecp tag tnum "tag")
      split
      · simp
      · split
        · cases h : subelemAt mrecp (findNthAttrib mrecp tag tnum "tag") with
          | error f => simp_all
          | ok F => simp
        · cases h : subelemAt mrecp (findNthAttrib mrecp tag tnum "tag") with
          | error f => simp_all
          | ok F =>
            simp only []
            split
            · simp
            · have h1 := subelemAt_ne_assertion F (findNthAttrib F (charToInt sub) snum "code")
              cases h' : subelemAt F (findNthAttrib F (charToInt sub) snum "code") with
              | error f => simp_all
              | ok S => simp
  · simp [mxFindField, mxFindSubfield, mxGetData, hrec, bind, Except.bind]

/-! ### `marc2bib` -/

/-- On a well-formed record every `mxGetData` call returns. -/
theorem mxGetData_total (R : XmElem) (tag tnum : Int) (sub : Char) (snum : Int)
    (hwf : wellFormedRecord R = true) :
    ∃ r, mxGetData R tag tnum sub snum = .ok r := by
  simp only [wellFormedRecord, Bool.and_eq_true, decide_eq_true_eq] at hwf
  obtain ⟨⟨hrec, htags⟩, hcodes⟩ := hwf
  have hdir := fieldsAreDirect_of_tagsAreDirect tag R htags
  by_cases hout : tnum < 1 ∨ (((subtree R).filter (carriesTag tag)).length : Int) < tnum
  · exact ⟨none, mxGetData_out R tag tnum sub snum hrec hout⟩
  · have h1 : 1 ≤ tnum := by omega
    have h2 : tnum ≤ (((subtree R).filter (carriesTag tag)).length : Int) := by omega
    by_cases h09 : 0 ≤ tag ∧ tag ≤ 9
    · obtain ⟨F, hF, -⟩ := locate_direct (carriesTag tag) tag "tag" (fun e => findTag_tag e tag)
        R hdir tnum h1 h2
      exact ⟨F.text, by rw [mxGetData_control_eq R tag tnum sub snum hrec h1 h2 h09, hF]; rfl⟩
    · obtain ⟨F, -, -, ho, hi⟩ := mxGetData_of_direct R tag tnum sub snum hrec hdir
        (fun F hF => codesDirect_of_codesAreInFields sub R F hcodes hF) h09 h1 h2
      by_cases hs : snum < 1 ∨
          ((((subtree F).filter (carriesCode sub)).length : Nat) : Int) < snum
      · exact ⟨none, ho hs⟩
      · obtain ⟨S, -, hS⟩ := hi (by omega)
        exact ⟨S.text, hS⟩

theorem marc2bibAuthor_ok (mrec : XmElem) (s : String) (h : marc2bibAuthor mrec = .ok s) :
    ∃ a100, mxGetData mrec 100 1 'a' 1 = .ok a100 ∧
      (∀ t, a100 = some t → s = t) ∧
      (a100 = none → ∃ a130, mxGetData mrec 130 1 'a' 1 = .ok a130 ∧
        (∀ t, a130 = some t → s = t) ∧ (a130 = none → s = "na")) := by
  unfold marc2bibAuthor at h
  cases h100 : mxGetData mrec 100 1 'a' 1 with
  | error f => simp [h100, bind, Except.bind] at h
  | ok a100 =>
    refine ⟨a100, rfl, ?_⟩
    cases a100 with
    | some t =>
      simp only [h100, bind, Except.bind, pure, Except.pure, Except.ok.injEq] at h
      simp [h]
    | none =>
      cases h130 : mxGetData mrec 130 1 'a' 1 with
      | error f => simp [h100, h130, bind, Except.bind] at h
      | ok a130 =>
        cases a130 with
        | some t =>
          simp only [h100, h130, bind, Except.bind, pure, Except.pure, Except.ok.injEq] at h
          simp [h]
        | none =>
          simp only [h100, h130, bind, Except.bind, pure, Except.pure, Except.ok.injEq] at h
          simp [h]

theorem marc2bibTitle_ok (mrec : XmElem) (s : String) (h : marc2bibTitle mrec = .ok s) :
    ∃ t1 t2 t3, mxGetData mrec 245 1 'a' 1 = .ok t1 ∧ mxGetData mrec 245 1 'p' 1 = .ok t2 ∧
      mxGetData mrec 245 1 'b' 1 = .ok t3 ∧
      s = if t1 ≠ none ∨ t2 ≠ none ∨ t3 ≠ none then orEmpty t1 ++ orEmpty t2 ++ orEmpty t3
          else "na" := by
  unfold marc2bibTitle at h
  cases h1 : mxGetData mrec 245 1 'a' 1 with
  | error f => simp [h1, bind, Except.bind] at h
  | ok t1 =>
    cases h2 : mxGetData mrec 245 1 'p' 1 with
    | error f => simp [h1, h2, bind, Except.bind] at h
    | ok t2 =>
      cases h3 : mxGetData mrec 245 1 'b' 1 with
      | error f => simp [h1, h2, h3, bind, Except.bind] at h
      | ok t3 =>
        refine ⟨t1, t2, t3, rfl, rfl, rfl, ?_⟩
        simp only [h1, h2, h3, bind, Except.bind, pure, Except.pure] at h
        split at h <;> rename_i hc <;> simp only [Except.ok.injEq] at h <;> simp [← h, hc]

theorem marc2bibCallnum_ok (mrec : XmElem) (s : String) (h : marc2bibCallnum mrec = .ok s) :
    ∃ c1 c2, mxGetData mrec 90 1 'a' 1 = .ok c1 ∧ mxGetData mrec 90 1 'b' 1 = .ok c2 ∧
      ((c1 ≠ none ∨ c2 ≠ none) → s = orEmpty c1 ++ orEmpty c2) ∧
      ((c1 = none ∧ c2 = none) →
        ∃ c3 c4, mxGetData mrec 50 1 'a' 1 = .ok c3 ∧ mxGetData mrec 50 1 'b' 1 = .ok c4 ∧
          s = if c3 ≠ none then orEmpty c3 ++ orEmpty c4 else "na") := by
  unfold marc2bibCallnum at h
  cases h1 : mxGetData mrec 90 1 'a' 1 with
  | error f => simp [h1, bind, Except.bind] at h
  | ok c1 =>
    cases h2 : mxGetData mrec 90 1 'b' 1 with
    | error f => simp [h1, h2, bind, Except.bind] at h
    | ok c2 =>
      refine ⟨c1, c2, rfl, rfl, ?_⟩
      simp only [h1, h2, bind, Except.bind, pure, Except.pure] at h
      by_cases hc : c1 ≠ none ∨ c2 ≠ none
      · rw [if_pos hc] at h
        simp only [Except.ok.injEq] at h
        exact ⟨fun _ => h.symm, fun hn => absurd hn (by tauto)⟩
      · rw [if_neg hc] at h
        refine ⟨fun hp => absurd hp hc, fun _ => ?_⟩
        have hc2 : c2 = none := by
          by_contra hne
          exact hc (Or.inr hne)
        cases h3 : mxGetData mrec 50 1 'a' 1 with
        | error f => simp [h3] at h
        | ok c3 =>
          cases h4 : mxGetData mrec 50 1 'b' 1 with
          | error f => simp [h3, h4] at h
          | ok c4 =>
            refine ⟨c3, c4, rfl, rfl, ?_⟩
            simp only [h3, h4, hc2, ne_eq, not_true_eq_false, or_false] at h
            split at h <;> rename_i hc3 <;> simp only [Except.ok.injEq] at h <;>
              simp [← h, hc3]

theorem marc2bib_ok (mrec : XmElem) (bdata : BibData) (h : marc2bib mrec = .ok bdata) :
    marc2bibAuthor mrec = .ok bdata.AUTHOR ∧ marc2bibTitle mrec = .ok bdata.TITLE ∧
      marc2bibPubinfo mrec = .ok bdata.PUBINFO ∧ marc2bibCallnum mrec = .ok bdata.CALLNUM := by
  unfold marc2bib at h
  cases ha : marc2bibAuthor mrec with
  | error f => simp [ha, bind, Except.bind] at h
  | ok a =>
    cases ht : marc2bibTitle mrec with
    | error f => simp [ha, ht, bind, Except.bind] at h
    | ok t =>
      cases hp : marc2bibPubinfo mrec with
      | error f => simp [ha, ht, hp, bind, Except.bind] at h
      | ok p =>
        cases hc : marc2bibCallnum mrec with
        | error f => simp [ha, ht, hp, hc, bind, Except.bind] at h
        | ok c =>
          simp only [ha, ht, hp, hc, bind, Except.bind, pure, Except.pure,
            Except.ok.injEq] at h
          subst h
          exact ⟨rfl, rfl, rfl, rfl⟩

/-- On a well-formed record `marc2bib` returns its four strings. -/
theorem marc2bib_total (mrec : XmElem) (hwf : wellFormedRecord mrec = true) :
    ∃ bdata, marc2bib mrec = .ok bdata := by
  have hg := fun tag sub => mxGetData_total mrec tag 1 sub 1 hwf
  obtain ⟨a100, h100⟩ := hg 100 'a'
  obtain ⟨a130, h130⟩ := hg 130 'a'
  obtain ⟨t1, ht1⟩ := hg 245 'a'
  obtain ⟨t2, ht2⟩ := hg 245 'p'
  obtain ⟨t3, ht3⟩ := hg 245 'b'
  obtain ⟨p1, hp1⟩ := hg 260 'a'
  obtain ⟨p2, hp2⟩ := hg 260 'b'
  obtain ⟨p3, hp3⟩ := hg 260 'c'
  obtain ⟨p4, hp4⟩ := hg 250 'a'
  obtain ⟨c1, hc1⟩ := hg 90 'a'
  obtain ⟨c2, hc2⟩ := hg 90 'b'
  obtain ⟨c3, hc3⟩ := hg 50 'a'
  obtain ⟨c4, hc4⟩ := hg 50 'b'
  have hA : ∃ a, marc2bibAuthor mrec = .ok a := by
    unfold marc2bibAuthor
    cases a100 <;> cases a130 <;>
      simp [h100, h130, bind, Except.bind, pure, Except.pure]
  have hT : ∃ t, marc2bibTitle mrec = .ok t := by
    unfold marc2bibTitle
    simp only [ht1, ht2, ht3, bind, Except.bind, pure, Except.pure]
    split <;> simp
  have hP : ∃ p, marc2bibPubinfo mrec = .ok p := by
    unfold marc2bibPubinfo
    simp only [hp1, hp2, hp3, hp4, bind, Except.bind, pure, Except.pure]
    split <;> simp
  have hC : ∃ c, marc2bibCallnum mrec = .ok c := by
    unfold marc2bibCallnum
    simp only [hc1, hc2, hc3, hc4, bind, Except.bind, pure, Except.pure]
    split
    · simp
    · split <;> simp
  obtain ⟨a, hA⟩ := hA
  obtain ⟨t, hT⟩ := hT
  obtain ⟨p, hP⟩ := hP
  obtain ⟨c, hC⟩ := hC
  exact ⟨{ AUTHOR := a, TITLE := t, PUBINFO := p, CALLNUM := c },
    by simp [marc2bib, hA, hT, hP, hC, bind, Except.bind, pure, Except.pure]⟩

set_option maxRecDepth 8000 in
/-- The call number can be "na" with a piece present: the record
`naCallRecord` has a 090 a subfield (whose text is "na"), so not all four
pieces are absent, and its call number is the string "na". -/
theorem callnum_na_with_piece_present :
    ∃ bdata, marc2bib naCallRecord = .ok bdata ∧
      ¬ (bdata.CALLNUM = "na" →
          mxGetData naCallRecord 90 1 'a' 1 = .ok none ∧
          mxGetData naCallRecord 90 1 'b' 1 = .ok none ∧
          mxGetData naCallRecord 50 1 'a' 1 = .ok none ∧
          mxGetData naCallRecord 50 1 'b' 1 = .ok none) := by
  refine ⟨⟨"na", "na", "na", "na"⟩, by rfl, fun h => ?_⟩
  have h1 := (h rfl).1
  have h2 : mxGetData naCallRecord 90 1 'a' 1 = .ok (some "na") := by rfl
  rw [h2] at h1
  simp at h1

/-- The call number outside the inner test's reach: `marc2bib` returns on
every well-formed record, and whenever it returns, the call number is the
concatenation of the 090 a and 090 b texts (an absent piece as the empty
string) when at least one of them is present; when both are absent and 050 a
is present, the concatenation of the 050 a and 050 b texts; and "na" when all
four are absent.  The case of 050 b without 050 a is the one the inner test
gets wrong. -/
theorem marc2bib_callnum (mrec : XmElem) :
    (wellFormedRecord mrec = true → ∃ bdata, marc2bib mrec = .ok bdata) ∧
    ∀ bdata, marc2bib mrec = .ok bdata →
      ∃ c1 c2, mxGetData mrec 90 1 'a' 1 = .ok c1 ∧ mxGetData mrec 90 1 'b' 1 = .ok c2 ∧
        ((c1 ≠ none ∨ c2 ≠ none) → bdata.CALLNUM = orEmpty c1 ++ orEmpty c2) ∧
        ((c1 = none ∧ c2 = none) →
          ∃ c3 c4, mxGetData mrec 50 1 'a' 1 = .ok c3 ∧ mxGetData mrec 50 1 'b' 1 = .ok c4 ∧
            (c3 ≠ none → bdata.CALLNUM = orEmpty c3 ++ orEmpty c4) ∧
            ((c3 = none ∧ c4 = none) → bdata.CALLNUM = "na")) := by
  refine ⟨marc2bib_total mrec, fun bdata h => ?_⟩
  obtain ⟨c1, c2, h1, h2, hA, hB⟩ := marc2bibCallnum_ok mrec _ (marc2bib_ok mrec bdata h).2.2.2
  refine ⟨c1, c2, h1, h2, hA, fun hn => ?_⟩
  obtain ⟨c3, c4, h3, h4, hs⟩ := hB hn
  refine ⟨c3, c4, h3, h4, fun hc3 => ?_, fun hc => ?_⟩
  · rw [hs, if_pos hc3]
  · rw [hs, if_neg (by simp [hc.1])]

set_option maxRecDepth 8000 in
/-- Example: `bookRecord` has no field 090 and takes its call number from
field 050. -/
theorem marc2bib_callnum_witness :
    wellFormedRecord bookRecord = true ∧
    (∃ bdata, marc2bib bookRecord = .ok bdata ∧ bdata.CALLNUM = "QA76.64.D47 1995") ∧
    ∀ bdata, marc2bib bookRecord = .ok bdata →
      ∃ c1 c2, mxGetData bookRecord 90 1 'a' 1 = .ok c1 ∧
        mxGetData bookRecord 90 1 'b' 1 = .ok c2 ∧
        ((c1 ≠ none ∨ c2 ≠ none) → bdata.CALLNUM = orEmpty c1 ++ orEmpty c2) ∧
        ((c1 = none ∧ c2 = none) →
          ∃ c3 c4, mxGetData bookRecord 50 1 'a' 1 = .ok c3 ∧
            mxGetData bookRecord 50 1 'b' 1 = .ok c4 ∧
            (c3 ≠ none → bdata.CALLNUM = orEmpty c3 ++ orEmpty c4) ∧
            ((c3 = none ∧ c4 = none) → bdata.CALLNUM = "na")) :=
  ⟨by rfl, ⟨_, by rfl, by rfl⟩, (marc2bib_callnum bookRecord).2⟩

set_option maxRecDepth 8000 in
/-- Evaluation for C8: the inner test of the call-number block reads `call2`
where the 050 b result is `call4`.  The well-formed record `lcItemOnlyRecord`
has no field 090 and a field 050 with subfield b only, whose text is
".D47 1995"; `marc2bib` gives it the call number "na", not the concatenation
of the 050 a and 050 b texts, ".D47 1995". -/
theorem callnum_lcItemOnly_slip :
    wellFormedRecord lcItemOnlyRecord = true ∧
    mxGetData lcItemOnlyRecord 90 1 'a' 1 = .ok none ∧
    mxGetData lcItemOnlyRecord 90 1 'b' 1 = .ok none ∧
    mxGetData lcItemOnlyRecord 50 1 'a' 1 = .ok none ∧
    mxGetData lcItemOnlyRecord 50 1 'b' 1 = .ok (some ".D47 1995") ∧
    (marc2bib lcItemOnlyRecord).map BibData.CALLNUM = .ok "na" ∧
    orEmpty none ++ orEmpty (some ".D47 1995") = ".D47 1995" :=
  ⟨by rfl, by rfl, by rfl, by rfl, by rfl, by rfl, by rfl⟩

/-- C9. `marc2bib` returns on every well-formed record, and whenever it
returns, the author is the text of `mxGetData(record, 100, 1, 'a', 1)` when
that is present, otherwise the text of `mxGetData(record, 130, 1, 'a', 1)`
when that is present, otherwise the literal "na". -/
theorem marc2bib_author (mrec : XmElem) :
    (wellFormedRecord mrec = true → ∃ bdata, marc2bib mrec = .ok bdata) ∧
    ∀ bdata, marc2bib mrec = .ok bdata →
      ∃ a100, mxGetData mrec 100 1 'a' 1 = .ok a100 ∧
        (∀ s, a100 = some s → bdata.AUTHOR = s) ∧
        (a100 = none →
          ∃ a130, mxGetData mrec 130 1 'a' 1 = .ok a130 ∧
            (∀ s, a130 = some s → bdata.AUTHOR = s) ∧
            (a130 = none → bdata.AUTHOR = "na")) :=
  ⟨marc2bib_total mrec, fun bdata h =>
    marc2bibAuthor_ok mrec _ (marc2bib_ok mrec bdata h).1⟩

set_option maxRecDepth 8000 in
/-- Witness for C9: the three cases of the author chain, on `bookRecord`
(field 100), `uniformTitleRecord` (field 130 only) and `emptyRecord`. -/
theorem marc2bib_author_witness :
    (marc2bib bookRecord).map BibData.AUTHOR = .ok "Gamma, Erich." ∧
    (marc2bib uniformTitleRecord).map BibData.AUTHOR = .ok "Bible." ∧
    (marc2bib emptyRecord).map BibData.AUTHOR = .ok "na" ∧
    wellFormedRecord uniformTitleRecord = true ∧
    (∃ bdata, marc2bib uniformTitleRecord = .ok bdata) ∧
    ∀ bdata, marc2bib uniformTitleRecord = .ok bdata →
      ∃ a100, mxGetData uniformTitleRecord 100 1 'a' 1 = .ok a100 ∧
        (∀ s, a100 = some s → bdata.AUTHOR = s) ∧
        (a100 = none →
          ∃ a130, mxGetData uniformTitleRecord 130 1 'a' 1 = .ok a130 ∧
            (∀ s, a130 = some s → bdata.AUTHOR = s) ∧
            (a130 = none → bdata.AUTHOR = "na")) :=
  ⟨by rfl, by rfl, by rfl, by rfl, (marc2bib_author uniformTitleRecord).1 (by rfl),
    (marc2bib_author uniformTitleRecord).2⟩

set_option maxRecDepth 8000 in
/-- C10 as stated fails: in `naTitleRecord` the 245 a subfield is present
(with text "na"), and the title is the string "na". -/
theorem title_na_not_iff_absent :
    ∃ bdata, marc2bib naTitleRecord = .ok bdata ∧
      ¬ (bdata.TITLE = "na" ↔
          (mxGetData naTitleRecord 245 1 'a' 1 = .ok none ∧
           mxGetData naTitleRecord 245 1 'p' 1 = .ok none ∧
           mxGetData naTitleRecord 245 1 'b' 1 = .ok none)) := by
  refine ⟨⟨"na", "na", "na", "na"⟩, by rfl, fun h => ?_⟩
  have h1 := (h.mp rfl).1
  have h2 : mxGetData naTitleRecord 245 1 'a' 1 = .ok (some "na") := by rfl
  rw [h2] at h1
  simp at h1

/-- C10, amended. `marc2bib` returns on every well-formed record, and
whenever it returns, the title is the concatenation, with no separator and in
the order a, p, b, of the texts of the 245 subfields a, p, b (occurrence 1
each, an absent piece as the empty string) when at least one of the three is
present, and it is the literal "na" when all three are absent. -/
theorem marc2bib_title (mrec : XmElem) :
    (wellFormedRecord mrec = true → ∃ bdata, marc2bib mrec = .ok bdata) ∧
    ∀ bdata, marc2bib mrec = .ok bdata →
      ∃ t1 t2 t3, mxGetData mrec 245 1 'a' 1 = .ok t1 ∧
        mxGetData mrec 245 1 'p' 1 = .ok t2 ∧ mxGetData mrec 245 1 'b' 1 = .ok t3 ∧
        ((t1 ≠ none ∨ t2 ≠ none ∨ t3 ≠ none) →
          bdata.TITLE = orEmpty t1 ++ orEmpty t2 ++ orEmpty t3) ∧
        ((t1 = none ∧ t2 = none ∧ t3 = none) → bdata.TITLE = "na") := by
  refine ⟨marc2bib_total mrec, fun bdata h => ?_⟩
  obtain ⟨t1, t2, t3, h1, h2, h3, hs⟩ := marc2bibTitle_ok mrec _ (marc2bib_ok mrec bdata h).2.1
  refine ⟨t1, t2, t3, h1, h2, h3, fun hp => ?_, fun hn => ?_⟩
  · rw [hs, if_pos hp]
  · rw [hs, if_neg (by simp [hn.1, hn.2.1, hn.2.2])]

set_option maxRecDepth 8000 in
/-- Witness for C10: titles of `bookRecord` (a and b present, p absent),
`uniformTitleRecord` (p only) and `emptyRecord`. -/
theorem marc2bib_title_witness :
    (marc2bib bookRecord).map BibData.TITLE =
      .ok "Design patterns :elements of reusable software" ∧
    (marc2bib uniformTitleRecord).map BibData.TITLE = .ok "Genesis" ∧
    (marc2bib emptyRecord).map BibData.TITLE = .ok "na" ∧
    wellFormedRecord bookRecord = true ∧
    (∃ bdata, marc2bib bookRecord = .ok bdata) ∧
    ∀ bdata, marc2bib bookRecord = .ok bdata →
      ∃ t1 t2 t3, mxGetData bookRecord 245 1 'a' 1 = .ok t1 ∧
        mxGetData bookRecord 245 1 'p' 1 = .ok t2 ∧
        mxGetData bookRecord 245 1 'b' 1 = .ok t3 ∧
        ((t1 ≠ none ∨ t2 ≠ none ∨ t3 ≠ none) →
          bdata.TITLE = orEmpty t1 ++ orEmpty t2 ++ orEmpty t3) ∧
        ((t1 = none ∧ t2 = none ∧ t3 = none) → bdata.TITLE = "na") :=
  ⟨by rfl, by rfl, by rfl, by rfl, (marc2bib_title bookRecord).1 (by rfl),
    (marc2bib_title bookRecord).2⟩

/-! ### Publication string -/

theorem marc2bibPubinfo_ok (mrec : XmElem) (s : String) (h : marc2bibPubinfo mrec = .ok s) :
    ∃ p1 p2 p3 p4, mxGetData mrec 260 1 'a' 1 = .ok p1 ∧ mxGetData mrec 260 1 'b' 1 = .ok p2 ∧
      mxGetData mrec 260 1 'c' 1 = .ok p3 ∧ mxGetData mrec 250 1 'a' 1 = .ok p4 ∧
      s = if p1 ≠ none ∨ p2 ≠ none ∨ p3 ≠ none ∨ p4 ≠ none then
            orEmpty p1 ++ orEmpty p2 ++ orEmpty p3 ++ orEmpty p4
          else "na" := by
  unfold marc2bibPubinfo at h
  cases h1 : mxGetData mrec 260 1 'a' 1 with
  | error f => simp [h1, bind, Except.bind] at h
  | ok p1 =>
    cases h2 : mxGetData mrec 260 1 'b' 1 with
    | error f => simp [h1, h2, bind, Except.bind] at h
    | ok p2 =>
      cases h3 : mxGetData mrec 260 1 'c' 1 with
      | error f => simp [h1, h2, h3, bind, Except.bind] at h
      | ok p3 =>
        cases h4 : mxGetData mrec 250 1 'a' 1 with
        | error f => simp [h1, h2, h3, h4, bind, Except.bind] at h
        | ok p4 =>
          refine ⟨p1, p2, p3, p4, rfl, rfl, rfl, rfl, ?_⟩
          simp only [h1, h2, h3, h4, bind, Except.bind, pure, Except.pure] at h
          split at h <;> rename_i hc <;> simp only [Except.ok.injEq] at h <;> simp [← h, hc]

set_option maxRecDepth 8000 in
/-- C11 as stated fails: in `naPubRecord` the 260 a subfield is present (with
text "na"), so not all four pieces are absent, and the publication string is
"na". -/
theorem pubinfo_na_with_piece_present :
    ∃ bdata, marc2bib naPubRecord = .ok bdata ∧
      ¬ (bdata.PUBINFO = "na" →
          mxGetData naPubRecord 260 1 'a' 1 = .ok none ∧
          mxGetData naPubRecord 260 1 'b' 1 = .ok none ∧
          mxGetData naPubRecord 260 1 'c' 1 = .ok none ∧
          mxGetData naPubRecord 250 1 'a' 1 = .ok none) := by
  refine ⟨⟨"na", "na", "na", "na"⟩, by rfl, fun h => ?_⟩
  have h1 := (h rfl).1
  have h2 : mxGetData naPubRecord 260 1 'a' 1 = .ok (some "na") := by rfl
  rw [h2] at h1
  simp at h1

/-- C11, amended. `marc2bib` returns on every well-formed record, and
whenever it returns, the publication string is the concatenation, with no
separator, of the texts of the 260 subfields a, b, c followed by the 250
subfield a (occurrence 1 each, an absent piece as the empty string) when at
least one of the four is present, and it is the literal "na" when all four
are absent. -/
theorem marc2bib_pubinfo (mrec : XmElem) :
    (wellFormedRecord mrec = true → ∃ bdata, marc2bib mrec = .ok bdata) ∧
    ∀ bdata, marc2bib mrec = .ok bdata →
      ∃ p1 p2 p3 p4, mxGetData mrec 260 1 'a' 1 = .ok p1 ∧
        mxGetData mrec 260 1 'b' 1 = .ok p2 ∧ mxGetData mrec 260 1 'c' 1 = .ok p3 ∧
        mxGetData mrec 250 1 'a' 1 = .ok p4 ∧
        ((p1 ≠ none ∨ p2 ≠ none ∨ p3 ≠ none ∨ p4 ≠ none) →
          bdata.PUBINFO = orEmpty p1 ++ orEmpty p2 ++ orEmpty p3 ++ orEmpty p4) ∧
        ((p1 = none ∧ p2 = none ∧ p3 = none ∧ p4 = none) → bdata.PUBINFO = "na") := by
  refine ⟨marc2bib_total mrec, fun bdata h => ?_⟩
  obtain ⟨p1, p2, p3, p4, h1, h2, h3, h4, hs⟩ :=
    marc2bibPubinfo_ok mrec _ (marc2bib_ok mrec bdata h).2.2.1
  refine ⟨p1, p2, p3, p4, h1, h2, h3, h4, fun hp => ?_, fun hn => ?_⟩
  · rw [hs, if_pos hp]
  · rw [hs, if_neg (by simp [hn.1, hn.2.1, hn.2.2.1, hn.2.2.2])]

set_option maxRecDepth 8000 in
/-- Witness for C11: publication strings of `bookRecord` (all four pieces)
and `emptyRecord`. -/
theorem marc2bib_pubinfo_witness :
    (marc2bib bookRecord).map BibData.PUBINFO = .ok "Reading :Addison-Wesley,1995.1st ed." ∧
    (marc2bib emptyRecord).map BibData.PUBINFO = .ok "na" ∧
    wellFormedRecord bookRecord = true ∧
    (∃ bdata, marc2bib bookRecord = .ok bdata) ∧
    ∀ bdata, marc2bib bookRecord = .ok bdata →
      ∃ p1 p2 p3 p4, mxGetData bookRecord 260 1 'a' 1 = .ok p1 ∧
        mxGetData bookRecord 260 1 'b' 1 = .ok p2 ∧ mxGetData bookRecord 260 1 'c' 1 = .ok p3 ∧
        mxGetData bookRecord 250 1 'a' 1 = .ok p4 ∧
        ((p1 ≠ none ∨ p2 ≠ none ∨ p3 ≠ none ∨ p4 ≠ none) →
          bdata.PUBINFO = orEmpty p1 ++ orEmpty p2 ++ orEmpty p3 ++ orEmpty p4) ∧
        ((p1 = none ∧ p2 = none ∧ p3 = none ∧ p4 = none) → bdata.PUBINFO = "na") :=
  ⟨by rfl, by rfl, by rfl, (marc2bib_pubinfo bookRecord).1 (by rfl),
    (marc2bib_pubinfo bookRecord).2⟩

/-! ### Output streams -/

theorem Appends.refl (f : FILE) : Appends f f "" := by
  simp [Appends]

theorem Appends.trans {f g h : FILE} {s t : String} (h1 : Appends f g s) (h2 : Appends g h t) :
    Appends f h (s ++ t) := by
  obtain ⟨a1, b1⟩ := h1
  obtain ⟨a2, b2⟩ := h2
  exact ⟨by rw [a2, a1, String.append_assoc], by rw [b2, b1]⟩

theorem Appends.neverFails {f g : FILE} {s : String} (h : Appends f g s) (hf : f.neverFails) :
    g.neverFails := by
  intro k
  rw [h.2]
  exact hf k

theorem fprintf_ok (f : FILE) (s : String) (hf : f.neverFails) :
    (fprintf f s).1 = (s.length : Int) ∧ Appends f (fprintf f s).2 s := by
  simp [fprintf, hf f.calls, Appends]

theorem tabs_succ (d : Nat) : tabs (d + 1) = "\t" ++ tabs d := by
  apply String.ext
  simp [tabs, List.replicate_succ]

theorem printTabs_ok (d : Nat) : ∀ (f : FILE), f.neverFails → Appends f (printTabs d f) (tabs d) := by
  induction d with
  | zero => intro f _; exact Appends.refl f
  | succ d ih =>
    intro f hf
    have h1 := (fprintf_ok f "\t" hf).2
    rw [tabs_succ]
    exact h1.trans (ih _ (h1.neverFails hf))

theorem printAttribs_ok (tag : String) (htag : tag ≠ "collection")
    (attrib : List (String × String)) :
    ∀ (f : FILE), f.neverFails → Appends f (printAttribs tag attrib f) (attribText attrib) := by
  induction attrib with
  | nil => intro f _; exact Appends.refl f
  | cons a rest ih =>
    intro f hf
    have h1 := (fprintf_ok f (" " ++ a.1 ++ "=\"" ++ a.2 ++ "\"") hf).2
    simp only [printAttribs, htag, ne_eq, not_false_eq_true, if_true, attribText]
    exact h1.trans (ih _ (h1.neverFails hf))

theorem printAttribs_collection (attrib : List (String × String)) (f : FILE) :
    printAttribs "collection" attrib f = f := by
  induction attrib with
  | nil => rfl
  | cons a rest ih => simp [printAttribs, ih]

theorem tag_mk (tag : String) (text : Option String) (b : Bool)
    (attrib : List (String × String)) (subelem : List XmElem) :
    (XmElem.mk tag text b attrib subelem).tag = tag := rfl

theorem countNonCollection_mk (tag : String) (text : Option String) (b : Bool)
    (attrib : List (String × String)) (subelem : List XmElem) :
    (countNonCollection (.mk tag text b attrib subelem) : Int) =
      (if tag ≠ "collection" then 1 else 0) +
        (((descendantsSubs subelem).filter fun x => decide (x.tag ≠ "collection")).length : Int) := by
  by_cases h : tag = "collection"
  · simp [countNonCollection, subtree, descendants, List.filter_cons, tag_mk, h]
  · simp [countNonCollection, subtree, descendants, List.filter_cons, tag_mk, h]
    omega

mutual
theorem printElement_ok : ∀ (e : XmElem) (depth : Nat) (f : FILE), f.neverFails →
    (printElement e depth f).1 = (countNonCollection e : Int) ∧
      Appends f (printElement e depth f).2 (printedText e depth)
  | .mk tag text b attrib subelem, depth, f, hf => by
    have hT := printTabs_ok depth f hf
    have hTn := hT.neverFails hf
    rw [countNonCollection_mk]
    by_cases htag : tag = "collection"
    · subst htag
      by_cases hsub : 0 < subelem.length
      · have ih := printSubelems_ok subelem (depth + 1) (printTabs depth f) hTn
        simp only [printElement, printedText, ne_eq, not_true_eq_false, false_and, if_false,
          hsub, if_true, printAttribs_collection, and_false]
        exact ⟨by rw [ih.1], hT.trans ih.2⟩
      · have hW := (fprintf_ok (printTabs depth f)
          (fmtS (xmlEncodeSpecialChars text) ++ "</marc:" ++ "collection" ++ ">\n") hTn).2
        have ih := printSubelems_ok subelem (depth + 1) _ (hW.neverFails hTn)
        have hnil : subelem = [] := by
          cases subelem with
          | nil => rfl
          | cons x xs => simp at hsub
        subst hnil
        simp only [printElement, printedText, ne_eq, not_true_eq_false, false_and, if_false,
          hsub, printAttribs_collection, and_false, printSubelems, descendantsSubs]
        exact ⟨by simp, hT.trans hW⟩
    · have hO := fprintf_ok (printTabs depth f) ("<marc:" ++ tag) hTn
      have hOn := hO.2.neverFails hTn
      have hlen : ¬ (((("<marc:" ++ tag).length : Nat) : Int) < 1) := by
        have h6 : "<marc:".length = 6 := by decide
        simp only [String.length_append, h6]
        omega
      have hA := printAttribs_ok tag htag attrib _ hOn
      have hAn := hA.neverFails hOn
      have hG := (fprintf_ok (printAttribs tag attrib (fprintf (printTabs depth f)
        ("<marc:" ++ tag)).2) ">" hAn).2
      have hGn := hG.neverFails hAn
      by_cases hsub : 0 < subelem.length
      · have hN := (fprintf_ok _ "\n" hGn).2
        have hNn := hN.neverFails hGn
        have ih := printSubelems_ok subelem (depth + 1) _ hNn
        have hKn := ih.2.neverFails hNn
        have hT2 := printTabs_ok depth _ hKn
        have hC := (fprintf_ok _ ("</marc:" ++ tag ++ ">\n") (hT2.neverFails hKn)).2
        simp only [printElement, printedText, ne_eq, htag, not_false_eq_true, true_and, if_true,
          hO.1, hlen, if_false, hsub, and_self]
        refine ⟨by rw [ih.1], ?_⟩
        exact ((((((hT.trans hO.2).trans hA).trans hG).trans hN).trans ih.2).trans hT2).trans hC
      · have hW := (fprintf_ok _
          (fmtS (xmlEncodeSpecialChars text) ++ "</marc:" ++ tag ++ ">\n") hGn).2
        have hnil : subelem = [] := by
          cases subelem with
          | nil => rfl
          | cons x xs => simp at hsub
        subst hnil
        simp only [printElement, printedText, ne_eq, htag, not_false_eq_true, true_and, if_true,
          hO.1, hlen, if_false, hsub, false_and, printSubelems, descendantsSubs]
        refine ⟨by simp, ?_⟩
        exact (((hT.trans hO.2).trans hA).trans hG).trans hW
theorem printSubelems_ok : ∀ (es : List XmElem) (depth : Nat) (f : FILE), f.neverFails →
    (printSubelems es depth f).1 =
      (((descendantsSubs es).filter fun x => decide (x.tag ≠ "collection")).length : Int) ∧
      Appends f (printSubelems es depth f).2 (printedTexts es depth)
  | [], depth, f, hf => by
    simp [printSubelems, descendantsSubs, printedTexts, Appends.refl]
  | e :: es, depth, f, hf => by
    have ih1 := printElement_ok e depth f hf
    have ih2 := printSubelems_ok es depth _ (ih1.2.neverFails hf)
    simp only [printSubelems, printedTexts, descendantsSubs]
    refine ⟨?_, ih1.2.trans ih2.2⟩
    rw [ih1.1, ih2.1]
    simp only [countNonCollection, subtree, List.filter_append, List.length_append]
    push_cast
    rfl
end

theorem okStream_neverFails : okStream.neverFails := fun _ => rfl

theorem serialization_eq (e : XmElem) (depth : Nat) :
    serialization e depth = printedText e depth := by
  have h := (printElement_ok e depth okStream okStream_neverFails).2.1
  unfold serialization
  rw [h]
  simp [okStream]

theorem printedTexts_eq (es : List XmElem) (depth : Nat) :
    printedTexts es depth = concatTexts (es.map fun c => serialization c depth) := by
  induction es with
  | nil => rfl
  | cons e es ih => simp [printedTexts, concatTexts, ih, serialization_eq]

/-- On a stream where every write succeeds, `printElement` appends the
serialization of the element. -/
theorem printElement_appends (e : XmElem) (depth : Nat) (f : FILE) (hf : f.neverFails) :
    Appends f (printElement e depth f).2 (serialization e depth) := by
  rw [serialization_eq]
  exact (printElement_ok e depth f hf).2

theorem printElement_ne_neg (e : XmElem) (depth : Nat) (f : FILE) (hf : f.neverFails) :
    (printElement e depth f).1 ≠ -1 := by
  rw [(printElement_ok e depth f hf).1]
  omega

theorem printCollectionHeader_ok (top : XmElem) (f : FILE) (hf : f.neverFails) :
    (printCollectionHeader top f).1 = 1 ∧
      Appends f (printCollectionHeader top f).2 (headerText top) := by
  have h1 := fprintf_ok f xmlDeclLine hf
  have h1n := h1.2.neverFails hf
  have h2 := (fprintf_ok _ commentLine h1n).2
  have h2n := h2.neverFails h1n
  have h3 := (fprintf_ok _ ("<marc:" ++ top.tag) h2n).2
  have h3n := h3.neverFails h2n
  have h4 := (fprintf_ok _ namespaceDecls h3n).2
  have hlen : ¬ (((xmlDeclLine.length : Nat) : Int) < 1) := by decide
  simp only [printCollectionHeader, h1.1, hlen, if_false, headerText, true_and]
  exact ((h1.2.trans h2).trans h3).trans h4

/-- A collection written at depth 0: nothing for the collection itself when
it has children, and a stray text and closing tag when it has none. -/
theorem printedText_collection (top : XmElem) (htag : top.tag = "collection") :
    printedText top 0 = strayText top ++ childrenText top := by
  unfold strayText
  cases top with
  | mk tag text b attrib subelem =>
    simp only [tag_mk] at htag
    subst htag
    by_cases hsub : 0 < subelem.length
    · simp [printedText, hsub, childrenText, XmElem.subelem, printedTexts_eq, tabs]
    · have hnil : subelem = [] := by
        cases subelem with
        | nil => rfl
        | cons x xs => simp at hsub
      subst hnil
      simp [printedText, childrenText, XmElem.subelem, XmElem.text, concatTexts, closingTag,
        tag_mk, tabs]
      rw [String.append_assoc, String.append_assoc]
      rfl

/-! ### `selects` -/

theorem selectsLoop_ok (regexec : String → String → Bool) (sel : SELECTOR) (pattern : String)
    (cs : List XmElem) :
    ∀ (f : FILE), f.neverFails → (∀ c ∈ cs, ∃ bdata, marc2bib c = .ok bdata) →
      ∃ g, selectsLoop regexec sel pattern cs f = .ok (true, g) ∧
        Appends f g (concatTexts
          ((cs.filter (isSelected regexec sel pattern)).map fun c => serialization c 1)) := by
  induction cs with
  | nil =>
    intro f _ _
    exact ⟨f, rfl, Appends.refl f⟩
  | cons c cs ih =>
    intro f hf hall
    obtain ⟨bdata, hb⟩ := hall c (by simp)
    have hrest : ∀ c' ∈ cs, ∃ bdata, marc2bib c' = .ok bdata :=
      fun c' hc' => hall c' (List.mem_cons_of_mem _ hc')
    by_cases hsel : selected sel (switchMatch regexec pattern bdata) = true
    · have hP := printElement_appends c 1 f hf
      obtain ⟨g, hg, hA⟩ := ih _ (hP.neverFails hf) hrest
      refine ⟨g, ?_, ?_⟩
      · simp only [selectsLoop, hb, hsel, if_true, printElement_ne_neg c 1 f hf, if_false, hg]
      · have hc : isSelected regexec sel pattern c = true := by simp [isSelected, hb, hsel]
        simp only [List.filter_cons, hc, if_true, List.map_cons, concatTexts]
        exact hP.trans hA
    · obtain ⟨g, hg, hA⟩ := ih f hf hrest
      refine ⟨g, ?_, ?_⟩
      · simp only [selectsLoop, hb, hsel, hg]
        simp
      · have hc : isSelected regexec sel pattern c = false := by simp [isSelected, hb, hsel]
        simp only [List.filter_cons, hc]
        simpa using hA

theorem patternIsWellFormed_iff (pattern : String) :
    patternIsWellFormed pattern = true ↔
      ¬ ((charAt pattern 0 ≠ 'a' ∧ charAt pattern 0 ≠ 't' ∧ charAt pattern 0 ≠ 'p') ∨
        charAt pattern 1 ≠ '=') := by
  simp only [patternIsWellFormed, Bool.and_eq_true, Bool.or_eq_true, decide_eq_true_eq]
  tauto

/-- The output of `selects` on a well-formed pattern when every write
succeeds and `marc2bib` returns on every child. -/
theorem selects_ok (regexec : String → String → Bool) (top : XmElem) (sel : SELECTOR)
    (pattern : String) (outfile : FILE) (hpat : patternIsWellFormed pattern = true)
    (hf : outfile.neverFails) (hall : ∀ c ∈ top.subelem, ∃ bdata, marc2bib c = .ok bdata) :
    ∃ g, selects regexec top sel pattern outfile = .ok (EXIT_SUCCESS, g) ∧
      g.written = outfile.written ++ headerText top ++
        concatTexts ((top.subelem.filter (isSelected regexec sel pattern)).map
          fun c => serialization c 1) ++ closingLine := by
  have hH := printCollectionHeader_ok top outfile hf
  have hHn := hH.2.neverFails hf
  obtain ⟨g, hg, hA⟩ := selectsLoop_ok regexec sel pattern top.subelem _ hHn hall
  have hC := (fprintf_ok g closingLine (hA.neverFails hHn)).2
  refine ⟨(fprintf g closingLine).2, ?_, ?_⟩
  swap
  · rw [((hH.2.trans hA).trans hC).1]
    simp only [String.append_assoc]
  have hv := (patternIsWellFormed_iff pattern).mp hpat
  simp only [selects, hv, if_false, hH.1, hg]
  simp

theorem fprintf_calls (f : FILE) (s : String) : (fprintf f s).2.calls = f.calls + 1 := by
  unfold fprintf
  split <;> rfl

theorem printTabs_calls (d : Nat) : ∀ (f : FILE), f.calls ≤ (printTabs d f).calls := by
  induction d with
  | zero => intro f; exact le_refl _
  | succ d ih =>
    intro f
    have := ih (fprintf f "\t").2
    rw [fprintf_calls] at this
    simp only [printTabs]
    omega

theorem printAttribs_calls (tag : String) (attrib : List (String × String)) :
    ∀ (f : FILE), f.calls ≤ (printAttribs tag attrib f).calls := by
  induction attrib with
  | nil => intro f; exact le_refl _
  | cons a rest ih =>
    intro f
    simp only [printAttribs]
    split
    · have := ih (fprintf f (" " ++ a.1 ++ "=\"" ++ a.2 ++ "\"")).2
      rw [fprintf_calls] at this
      omega
    · exact ih f

mutual
theorem printElement_calls : ∀ (e : XmElem) (depth : Nat) (f : FILE),
    f.calls ≤ (printElement e depth f).2.calls
  | .mk tag text b attrib subelem, depth, f => by
    have hk := fun g => printSubelems_calls subelem (depth + 1) g
    simp only [printElement]
    split_ifs <;>
      repeat' first
        | exact le_refl _
        | (rw [fprintf_calls]; apply Nat.le_succ_of_le)
        | refine le_trans ?_ (printTabs_calls _ _)
        | refine le_trans ?_ (printAttribs_calls _ _ _)
        | refine le_trans ?_ (hk _)
theorem printSubelems_calls : ∀ (es : List XmElem) (depth : Nat) (f : FILE),
    f.calls ≤ (printSubelems es depth f).2.calls
  | [], _, f => le_refl _
  | e :: es, depth, f => by
    have h1 := printElement_calls e depth f
    have h2 := printSubelems_calls es depth (printElement e depth f).2
    simp only [printSubelems]
    omega
end


theorem printCollectionHeader_calls (top : XmElem) (f : FILE) :
    f.calls < (printCollectionHeader top f).2.calls := by
  simp only [printCollectionHeader]
  split <;> simp only [fprintf_calls] <;> omega

theorem selectsLoop_calls (regexec : String → String → Bool) (sel : SELECTOR) (pattern : String)
    (cs : List XmElem) :
    ∀ (f : FILE) (b : Bool) (g : FILE),
      selectsLoop regexec sel pattern cs f = .ok (b, g) → f.calls ≤ g.calls := by
  induction cs with
  | nil =>
    intro f b g h
    simp only [selectsLoop, Except.ok.injEq, Prod.mk.injEq] at h
    rw [← h.2]
  | cons c cs ih =>
    intro f b g h
    simp only [selectsLoop] at h
    cases hb : marc2bib c with
    | error fault => simp [hb] at h
    | ok bibinfo =>
      simp only [hb] at h
      have hp := printElement_calls c 1 f
      split_ifs at h with h1 h2
      · simp only [Except.ok.injEq, Prod.mk.injEq] at h
        rw [← h.2]
        exact hp
      · exact le_trans hp (ih _ b g h)
      · exact ih _ b g h

/-- A well-formed pattern passes the validation of `selects` whatever the
stream does: every result has at least one more call on the stream than the
call started with (the first write of the header). -/
theorem selects_calls (regexec : String → String → Bool) (top : XmElem) (sel : SELECTOR)
    (pattern : String) (outfile : FILE) (hpat : patternIsWellFormed pattern = true)
    (r : Int) (g : FILE) (h : selects regexec top sel pattern outfile = .ok (r, g)) :
    outfile.calls < g.calls := by
  have hv := (patternIsWellFormed_iff pattern).mp hpat
  have hH := printCollectionHeader_calls top outfile
  simp only [selects, hv, if_false] at h
  split_ifs at h with h0
  · simp only [Except.ok.injEq, Prod.mk.injEq] at h
    rw [← h.2]
    exact hH
  · cases hl : selectsLoop regexec sel pattern top.subelem (printCollectionHeader top outfile).2 with
    | error fault => simp [hl] at h
    | ok res =>
      obtain ⟨b, g'⟩ := res
      have hc := selectsLoop_calls regexec sel pattern _ _ b g' hl
      cases b with
      | false =>
        simp only [hl, Except.ok.injEq, Prod.mk.injEq] at h
        rw [← h.2]
        omega
      | true =>
        simp only [hl, Except.ok.injEq, Prod.mk.injEq] at h
        rw [← h.2, fprintf_calls]
        omega

/-- C16. Whatever the collection and the mode, a pattern whose first
character is not one of a, t, p, or whose second character is not the equals
sign, makes `selects` return `EXIT_FAILURE` with the output stream untouched
(no header, no call on it).  A pattern with one of the three prefixes passes
the validation: every result of `selects` has at least one more call on the
stream (the first write of the header), and when every write succeeds and
`marc2bib` returns on every child, `selects` returns `EXIT_SUCCESS` and the
output begins with the collection header. -/
theorem selects_validates_pattern (regexec : String → String → Bool) (top : XmElem)
    (sel : SELECTOR) (pattern : String) (outfile : FILE) :
    (patternIsWellFormed pattern = false →
      selects regexec top sel pattern outfile = .ok (EXIT_FAILURE, outfile)) ∧
    (patternIsWellFormed pattern = true →
      ∀ r g, selects regexec top sel pattern outfile = .ok (r, g) →
        outfile.calls < g.calls) ∧
    (patternIsWellFormed pattern = true → outfile.neverFails →
      (∀ c ∈ top.subelem, ∃ bdata, marc2bib c = .ok bdata) →
      ∃ g body, selects regexec top sel pattern outfile = .ok (EXIT_SUCCESS, g) ∧
        g.written = outfile.written ++ headerText top ++ body ++ closingLine) := by
  refine ⟨?_, ?_, ?_⟩
  · intro hbad
    have hv : (charAt pattern 0 ≠ 'a' ∧ charAt pattern 0 ≠ 't' ∧ charAt pattern 0 ≠ 'p') ∨
        charAt pattern 1 ≠ '=' := by
      by_contra hcon
      have := (patternIsWellFormed_iff pattern).mpr hcon
      rw [hbad] at this
      exact Bool.false_ne_true this
    simp only [selects, hv, if_true]
  · intro hpat r g h
    exact selects_calls regexec top sel pattern outfile hpat r g h
  · intro hpat hf hall
    obtain ⟨g, hg, hw⟩ := selects_ok regexec top sel pattern outfile hpat hf hall
    exact ⟨g, _, hg, hw⟩

set_option maxRecDepth 20000 in
/-- Witness for C16: the patterns "x=Bible", "a-Bible", "a" and the empty
pattern are rejected with nothing written, the pattern "a=Bible" is accepted. -/
theorem selects_validates_pattern_witness :
    selects substringMatcher twoRecordCollection SELECTOR.KEEP "x=Bible" okStream =
      .ok (EXIT_FAILURE, okStream) ∧
    selects substringMatcher twoRecordCollection SELECTOR.DISCARD "a-Bible" okStream =
      .ok (EXIT_FAILURE, okStream) ∧
    selects substringMatcher twoRecordCollection SELECTOR.KEEP "a" okStream =
      .ok (EXIT_FAILURE, okStream) ∧
    selects substringMatcher twoRecordCollection SELECTOR.KEEP "" okStream =
      .ok (EXIT_FAILURE, okStream) ∧
    (∀ r g, selects substringMatcher twoRecordCollection SELECTOR.KEEP "a=Bible" okStream =
      .ok (r, g) → okStream.calls < g.calls) ∧
    ∃ g body, selects substringMatcher twoRecordCollection SELECTOR.KEEP "a=Bible" okStream =
        .ok (EXIT_SUCCESS, g) ∧
      g.written = okStream.written ++ headerText twoRecordCollection ++ body ++ closingLine :=
  ⟨(selects_validates_pattern substringMatcher twoRecordCollection SELECTOR.KEEP "x=Bible"
      okStream).1 (by decide),
    (selects_validates_pattern substringMatcher twoRecordCollection SELECTOR.DISCARD "a-Bible"
      okStream).1 (by decide),
    (selects_validates_pattern substringMatcher twoRecordCollection SELECTOR.KEEP "a"
      okStream).1 (by decide),
    (selects_validates_pattern substringMatcher twoRecordCollection SELECTOR.KEEP ""
      okStream).1 (by decide),
    (selects_validates_pattern substringMatcher twoRecordCollection SELECTOR.KEEP "a=Bible"
      okStream).2.1 (by decide),
    (selects_validates_pattern substringMatcher twoRecordCollection SELECTOR.KEEP "a=Bible"
      okStream).2.2 (by decide) okStream_neverFails (by
        intro c hc
        simp only [twoRecordCollection, XmElem.subelem, List.mem_cons, List.mem_singleton,
          List.not_mem_nil, or_false] at hc
        rcases hc with rfl | rfl
        · exact marc2bib_total _ (by rfl)
        · exact marc2bib_total _ (by rfl))⟩

theorem filter_eq_filterMap_range {α : Type} (p : α → Bool) (l : List α) :
    l.filter p =
      ((List.range l.length).filter fun i =>
        match l[i]? with
        | some a => p a
        | none => false).filterMap fun i => l[i]? := by
  induction l using List.reverseRecOn with
  | nil => simp
  | append_singleton l a ih =>
    have h1 : ∀ i ∈ List.range l.length, (l ++ [a])[i]? = l[i]? := by
      intro i hi
      rw [List.mem_range] at hi
      exact List.getElem?_append_left hi
    have hf : (List.range l.length).filter (fun i =>
          match (l ++ [a])[i]? with
          | some a => p a
          | none => false) =
        (List.range l.length).filter (fun i =>
          match l[i]? with
          | some a => p a
          | none => false) := by
      apply List.filter_congr
      intro i hi
      rw [h1 i hi]
    have hm : ∀ (s : List Nat), (∀ i ∈ s, i ∈ List.range l.length) →
        s.filterMap (fun i => (l ++ [a])[i]?) = s.filterMap (fun i => l[i]?) := by
      intro s hs
      induction s with
      | nil => rfl
      | cons x s ihs =>
        have hx := h1 x (hs x (by simp))
        simp only [List.filterMap_cons, hx]
        rw [ihs (fun i hi => hs i (List.mem_cons_of_mem _ hi))]
    have hlast : (l ++ [a])[l.length]? = some a := by simp
    rw [List.filter_append, List.length_append, List.length_singleton, List.range_succ,
      List.filter_append, List.filterMap_append, hf,
      hm _ (fun i hi => (List.mem_filter.mp hi).1), ← ih]
    congr 1
    by_cases hp : p a = true
    · simp [List.filter_cons, hp, hlast]
    · simp [List.filter_cons, hp, hlast]

theorem textOfIndices_selected (regexec : String → String → Bool) (sel : SELECTOR)
    (pattern : String) (top : XmElem) :
    textOfIndices top (selectedIndices regexec sel pattern top) =
      concatTexts ((top.subelem.filter (isSelected regexec sel pattern)).map
        fun c => serialization c 1) := by
  unfold textOfIndices selectedIndices
  rw [filter_eq_filterMap_range (isSelected regexec sel pattern) top.subelem]
  congr 3
  apply List.filter_congr
  intro i _
  cases top.subelem[i]? <;> rfl

theorem isSelected_discard (regexec : String → String → Bool) (pattern : String) (c : XmElem)
    (hpat : patternIsWellFormed pattern = true) (hc : ∃ bdata, marc2bib c = .ok bdata) :
    isSelected regexec SELECTOR.DISCARD pattern c = !isSelected regexec SELECTOR.KEEP pattern c := by
  obtain ⟨bdata, hb⟩ := hc
  simp only [patternIsWellFormed, Bool.and_eq_true, Bool.or_eq_true, decide_eq_true_eq] at hpat
  obtain ⟨h0, -⟩ := hpat
  simp only [isSelected, hb]
  rcases h0 with (h | h) | h <;> simp [switchMatch, h, selected]

/-- C15. For a collection on whose children `marc2bib` returns (they are all
records), a well-formed pattern and a fixed matcher, when every write
succeeds: in each mode `selects` writes the header, the serializations of the
children with the selected indices in increasing (document) order, and the
closing tag; the KEEP indices and the DISCARD indices have no index in
common, and together they are exactly the indices of all children. -/
theorem selects_keep_discard_partition (regexec : String → String → Bool) (top : XmElem)
    (pattern : String) (outfile : FILE) (hpat : patternIsWellFormed pattern = true)
    (hf : outfile.neverFails) (hall : ∀ c ∈ top.subelem, ∃ bdata, marc2bib c = .ok bdata) :
    (∃ g, selects regexec top SELECTOR.KEEP pattern outfile = .ok (EXIT_SUCCESS, g) ∧
      g.written = outfile.written ++ headerText top ++
        textOfIndices top (selectedIndices regexec SELECTOR.KEEP pattern top) ++ closingLine) ∧
    (∃ g, selects regexec top SELECTOR.DISCARD pattern outfile = .ok (EXIT_SUCCESS, g) ∧
      g.written = outfile.written ++ headerText top ++
        textOfIndices top (selectedIndices regexec SELECTOR.DISCARD pattern top) ++
          closingLine) ∧
    (selectedIndices regexec SELECTOR.KEEP pattern top).Sorted (· < ·) ∧
    (selectedIndices regexec SELECTOR.DISCARD pattern top).Sorted (· < ·) ∧
    (∀ i, i ∈ selectedIndices regexec SELECTOR.KEEP pattern top →
      i ∉ selectedIndices regexec SELECTOR.DISCARD pattern top) ∧
    (∀ i, (i ∈ selectedIndices regexec SELECTOR.KEEP pattern top ∨
        i ∈ selectedIndices regexec SELECTOR.DISCARD pattern top) ↔ i < top.subelem.length) := by
  have hsorted : ∀ sel, (selectedIndices regexec sel pattern top).Sorted (· < ·) := by
    intro sel
    exact (List.sorted_lt_range _).filter _
  have hmem : ∀ sel i, i ∈ selectedIndices regexec sel pattern top ↔
      ∃ c, top.subelem[i]? = some c ∧ isSelected regexec sel pattern c = true := by
    intro sel i
    simp only [selectedIndices, List.mem_filter, List.mem_range]
    constructor
    · rintro ⟨hi, hs⟩
      refine ⟨top.subelem[i], List.getElem?_eq_getElem hi, ?_⟩
      simpa [List.getElem?_eq_getElem hi] using hs
    · rintro ⟨c, hc, hs⟩
      have hi : i < top.subelem.length := by
        by_contra hn
        rw [List.getElem?_eq_none (by omega)] at hc
        exact Option.noConfusion hc
      exact ⟨hi, by simp [hc, hs]⟩
  refine ⟨?_, ?_, hsorted _, hsorted _, ?_, ?_⟩
  · obtain ⟨g, hg, hw⟩ := selects_ok regexec top SELECTOR.KEEP pattern outfile hpat hf hall
    exact ⟨g, hg, by rw [hw, textOfIndices_selected]⟩
  · obtain ⟨g, hg, hw⟩ := selects_ok regexec top SELECTOR.DISCARD pattern outfile hpat hf hall
    exact ⟨g, hg, by rw [hw, textOfIndices_selected]⟩
  · intro i hk hd
    obtain ⟨c, hc, hs⟩ := (hmem _ i).mp hk
    obtain ⟨c', hc', hs'⟩ := (hmem _ i).mp hd
    rw [hc] at hc'
    cases hc'
    rw [isSelected_discard regexec pattern c hpat (hall c (List.getElem?_mem hc)), hs] at hs'
    exact Bool.false_ne_true hs'
  · intro i
    constructor
    · rintro (h | h)
      · exact List.mem_range.mp (List.mem_filter.mp h).1
      · exact List.mem_range.mp (List.mem_filter.mp h).1
    · intro hi
      have hc : top.subelem[i]? = some top.subelem[i] := List.getElem?_eq_getElem hi
      have hd := isSelected_discard regexec pattern top.subelem[i] hpat
        (hall _ (List.getElem_mem hi))
      by_cases hk : isSelected regexec SELECTOR.KEEP pattern top.subelem[i] = true
      · exact Or.inl ((hmem _ i).mpr ⟨_, hc, hk⟩)
      · refine Or.inr ((hmem _ i).mpr ⟨_, hc, ?_⟩)
        rw [hd]
        simpa using hk

theorem twoRecordCollection_children :
    ∀ c ∈ twoRecordCollection.subelem, ∃ bdata, marc2bib c = .ok bdata := by
  intro c hc
  simp only [twoRecordCollection, XmElem.subelem, List.mem_cons, List.mem_singleton,
    List.not_mem_nil, or_false] at hc
  rcases hc with rfl | rfl
  · exact marc2bib_total _ (by rfl)
  · exact marc2bib_total _ (by rfl)

set_option maxRecDepth 20000 in
/-- Witness for C15: with the pattern "a=Bible" on `twoRecordCollection`,
KEEP serializes child 1 and DISCARD serializes child 0. -/
theorem selects_keep_discard_partition_witness :
    selectedIndices substringMatcher SELECTOR.KEEP "a=Bible" twoRecordCollection = [1] ∧
    selectedIndices substringMatcher SELECTOR.DISCARD "a=Bible" twoRecordCollection = [0] ∧
    (∃ g, selects substringMatcher twoRecordCollection SELECTOR.KEEP "a=Bible" okStream =
        .ok (EXIT_SUCCESS, g) ∧
      g.written = okStream.written ++ headerText twoRecordCollection ++
        textOfIndices twoRecordCollection
          (selectedIndices substringMatcher SELECTOR.KEEP "a=Bible" twoRecordCollection) ++
        closingLine) ∧
    (∃ g, selects substringMatcher twoRecordCollection SELECTOR.DISCARD "a=Bible" okStream =
        .ok (EXIT_SUCCESS, g) ∧
      g.written = okStream.written ++ headerText twoRecordCollection ++
        textOfIndices twoRecordCollection
          (selectedIndices substringMatcher SELECTOR.DISCARD "a=Bible" twoRecordCollection) ++
        closingLine) :=
  ⟨by rfl, by rfl,
    (selects_keep_discard_partition substringMatcher twoRecordCollection "a=Bible" okStream
      (by decide) okStream_neverFails twoRecordCollection_children).1,
    (selects_keep_discard_partition substringMatcher twoRecordCollection "a=Bible" okStream
      (by decide) okStream_neverFails twoRecordCollection_children).2.1⟩

/-! ### `mxWriteFile`, `concat`, `printElement` -/

/-- The output of `mxWriteFile` for a collection, when every write succeeds:
between the header and the closing line stands what `printElement` writes for
the collection at depth 0. -/
theorem mxWriteFile_ok (top : XmElem) (htag : top.tag = "collection") (f : FILE)
    (hf : f.neverFails) :
    (mxWriteFile (some top) f).1 = (countNonCollection top : Int) ∧
      (mxWriteFile (some top) f).2.written =
        f.written ++ headerText top ++ (strayText top ++ childrenText top) ++ closingLine := by
  have h1 := fprintf_ok f xmlDeclLine hf
  have h1n := h1.2.neverFails hf
  have h2 := (fprintf_ok _ commentLine h1n).2
  have h2n := h2.neverFails h1n
  have h3 := (fprintf_ok _ ("<marc:" ++ top.tag) h2n).2
  have h3n := h3.neverFails h2n
  have h4 := (fprintf_ok _ namespaceDecls h3n).2
  have h4n := h4.neverFails h3n
  have h5 := printElement_ok top 0 _ h4n
  have h6 := (fprintf_ok _ closingLine (h5.2.neverFails h4n)).2
  have hlen : ¬ (((xmlDeclLine.length : Nat) : Int) < 1) := by decide
  simp only [mxWriteFile]
  rw [if_pos htag]
  simp only [h1.1, hlen, if_false]
  refine ⟨h5.1, ?_⟩
  rw [(((((h1.2.trans h2).trans h3).trans h4).trans h5.2).trans h6).1,
    printedText_collection top htag]
  simp only [headerText, String.append_assoc]

set_option maxRecDepth 20000 in
/-- Evaluation for C17: for a collection without children `mxWriteFile`
writes, after the header, the collection's text and a closing collection tag
(the childless branch of `printElement`), and then the closing collection tag
again. -/
theorem mxWriteFile_emptyCollection :
    (mxWriteFile (some emptyCollection) okStream).2.written =
      headerText emptyCollection ++ "\n</marc:collection>\n" ++ "</marc:collection>\n" ∧
    (mxWriteFile (some emptyCollection) okStream).1 = 0 := by
  constructor <;> rfl

/-- C18. For two collections, when every write succeeds, the output of
`concat` is the collection header once at the start, then the serialization
at depth 1 of every child of the first collection in document order, then
that of every child of the second in document order, then the closing line.
Before each group stands the stray text of the collection, which is empty
when the collection has children. -/
theorem concat_output (top1 top2 : XmElem) (outfile : FILE)
    (h1 : top1.tag = "collection") (h2 : top2.tag = "collection") (hf : outfile.neverFails) :
    (concat top1 top2 outfile).2.written =
        outfile.written ++ headerText top1 ++ (strayText top1 ++ childrenText top1) ++
          (strayText top2 ++ childrenText top2) ++ closingLine ∧
      (0 < top1.subelem.length → strayText top1 = "") ∧
      (0 < top2.subelem.length → strayText top2 = "") := by
  have hH := printCollectionHeader_ok top1 outfile hf
  have hHn := hH.2.neverFails hf
  have hA := (printElement_ok top1 0 _ hHn).2
  have hAn := hA.neverFails hHn
  have hB := (printElement_ok top2 0 _ hAn).2
  have hC := (fprintf_ok _ closingLine (hB.neverFails hAn)).2
  have hw := (((hH.2.trans hA).trans hB).trans hC).1
  rw [printedText_collection top1 h1, printedText_collection top2 h2] at hw
  refine ⟨?_, fun h => if_pos h, fun h => if_pos h⟩
  have hne : ¬ ((1 : Int) = 0) := by decide
  simp only [concat, hH.1, hne, if_false]
  split <;> (rw [hw]; simp only [String.append_assoc])

set_option maxRecDepth 20000 in
/-- Witness for C18: `concat` of a collection of two records with a
collection of one record. -/
theorem concat_output_witness :
    (concat twoRecordCollection oneRecordCollection okStream).2.written =
      headerText twoRecordCollection ++
        (serialization designPatterns 1 ++ serialization uniformTitleRecord 1) ++
        serialization emptyRecord 1 ++ closingLine ∧
    (concat twoRecordCollection oneRecordCollection okStream).2.written =
      okStream.written ++ headerText twoRecordCollection ++
        (strayText twoRecordCollection ++ childrenText twoRecordCollection) ++
        (strayText oneRecordCollection ++ childrenText oneRecordCollection) ++ closingLine :=
  ⟨by rfl, (concat_output twoRecordCollection oneRecordCollection okStream rfl rfl
    okStream_neverFails).1⟩

/-- What `printElement` writes for an element not tagged "collection", in
terms of the serializations of its children; the text of a childless element
is rendered by `fmtS`. -/
theorem serialization_of_element (e : XmElem) (depth : Nat) (htag : e.tag ≠ "collection") :
    (0 < e.subelem.length →
      serialization e depth =
        tabs depth ++ openingTag e ++ "\n" ++
          concatTexts (e.subelem.map fun c => serialization c (depth + 1)) ++
          tabs depth ++ closingTag e) ∧
    (e.subelem.length = 0 →
      serialization e depth =
        tabs depth ++ openingTag e ++ fmtS (xmlEncodeSpecialChars e.text) ++ closingTag e) := by
  cases e with
  | mk tag text b attrib subelem =>
    simp only [tag_mk] at htag
    rw [serialization_eq]
    constructor
    · intro hsub
      simp only [XmElem.subelem] at hsub
      simp only [printedText, htag, ne_eq, not_false_eq_true, if_true, hsub, printedTexts_eq,
        openingTag, closingTag, tag_mk, XmElem.attrib, XmElem.subelem, String.append_assoc]
    · intro hsub
      simp only [XmElem.subelem] at hsub
      have h0 : ¬ (0 < subelem.length) := by omega
      simp only [printedText, htag, ne_eq, not_false_eq_true, if_true, h0, if_false,
        openingTag, closingTag, tag_mk, XmElem.attrib, XmElem.text, String.append_assoc]

set_option maxRecDepth 20000 in
/-- Evaluation for C19: for an element without children and without text,
`printElement` writes the characters `(null)` between the opening and the
closing tag. -/
theorem printElement_emptySubfield :
    (printElement emptySubfield 2 okStream).2.written =
      "\t\t<marc:subfield code=\"a\">(null)</marc:subfield>\n" := by
  rfl

/-- C20. When every write succeeds, `printElement` returns the number of
nodes of the subtree, the element included, whose tag is not "collection". -/
theorem printElement_returns_count (e : XmElem) (depth : Nat) (f : FILE)
    (hf : f.neverFails) :
    (printElement e depth f).1 = (countNonCollection e : Int) :=
  (printElement_ok e depth f hf).1

set_option maxRecDepth 20000 in
/-- Witness for C20: `bookRecord` has 15 elements, and a collection holding
one record of 3 elements gives 3. -/
theorem printElement_returns_count_witness :
    (printElement bookRecord 1 okStream).1 = 15 ∧
    (printElement (.mk "collection" none false [] [designPatterns]) 0 okStream).1 = 3 ∧
    (printElement bookRecord 1 okStream).1 = (countNonCollection bookRecord : Int) :=
  ⟨by rfl, by rfl, printElement_returns_count bookRecord 1 okStream okStream_neverFails⟩

/-! ### Sorting -/

theorem strcmpBytes_eq_zero_iff : ∀ (a b : List Nat), strcmpBytes a b = 0 ↔ a = b
  | [], [] => by simp [strcmpBytes]
  | [], _ :: _ => by simp [strcmpBytes]
  | _ :: _, [] => by simp [strcmpBytes]
  | a :: as, b :: bs => by
    have ih := strcmpBytes_eq_zero_iff as bs
    simp only [strcmpBytes, List.cons.injEq]
    by_cases h1 : a < b
    · simp [h1]; omega
    · by_cases h2 : b < a
      · simp [h1, h2]; omega
      · have hab : a = b := by omega
        simp [h1, h2, hab, ih]

theorem strcmp_eq_zero_iff (s t : String) : strcmp s t = 0 ↔ s = t := by
  unfold strcmp
  rw [strcmpBytes_eq_zero_iff]
  constructor
  · intro h
    apply String.ext
    exact List.map_injective_iff.mpr (fun a b hab => char_toNat_inj a b hab) h
  · intro h
    rw [h]

theorem checkArrayForInt_ne (g : Nat) : ∀ (array : List Int) (length : Nat),
    checkArrayForInt array (g : Int) length ≠ (g : Int) ↔ (g : Int) ∉ array.take length
  | _, 0 => by simp [checkArrayForInt]
  | [], _ + 1 => by simp [checkArrayForInt]
  | a :: rest, length + 1 => by
    have ih := checkArrayForInt_ne g rest length
    by_cases h : a = (g : Int)
    · simp [checkArrayForInt, h]
    · have h' : ¬ ((g : Int) = a) := fun e => h e.symm
      simp [checkArrayForInt, h, h', ih]

/-- The inner loop of `getOrder`: it stores the first original index, counted
from `g`, whose key equals the sorted key and which is not among the first
`length` entries of `order`; when there is none, the state is unchanged. -/
theorem getOrderInner_spec (s : String) (i : Nat) (order : List Int) (length : Nat) :
    ∀ (keys : List String) (g : Nat),
      (∃ j, ∃ (hj : j < keys.length), keys[j] = s ∧ ((g + j : Nat) : Int) ∉ order.take length ∧
        (∀ j', ∀ (hj' : j' < keys.length), j' < j →
          ¬ (keys[j'] = s ∧ ((g + j' : Nat) : Int) ∉ order.take length)) ∧
        getOrderInner s i keys g (order, length) =
          (order.set i ((g + j : Nat) : Int), length + 1)) ∨
      ((∀ j, ∀ (hj : j < keys.length),
          ¬ (keys[j] = s ∧ ((g + j : Nat) : Int) ∉ order.take length)) ∧
        getOrderInner s i keys g (order, length) = (order, length)) := by
  intro keys
  induction keys with
  | nil =>
    intro g
    right
    exact ⟨fun j hj => absurd hj (by simp), rfl⟩
  | cons key keys ih =>
    intro g
    by_cases hc : strcmp s key = 0 ∧ checkArrayForInt order (g : Int) length ≠ (g : Int)
    · left
      refine ⟨0, by simp, ?_, ?_, ?_, ?_⟩
      · simpa using ((strcmp_eq_zero_iff s key).mp hc.1).symm
      · simpa using (checkArrayForInt_ne g order length).mp hc.2
      · intro j' _ hlt
        omega
      · simp [getOrderInner, hc]
    · have hstep : getOrderInner s i (key :: keys) g (order, length) =
          getOrderInner s i keys (g + 1) (order, length) := by
        simp only [getOrderInner, hc, if_false]
      have hc0 : ¬ (key = s ∧ ((g : Nat) : Int) ∉ order.take length) := by
        rintro ⟨h1, h2⟩
        exact hc ⟨(strcmp_eq_zero_iff s key).mpr h1.symm,
          (checkArrayForInt_ne g order length).mpr h2⟩
      rcases ih (g + 1) with ⟨j, hj, h1, h2, h3, h4⟩ | ⟨h1, h2⟩
      · left
        refine ⟨j + 1, by simpa using hj, by simpa using h1, ?_, ?_, ?_⟩
        · have : g + (j + 1) = g + 1 + j := by omega
          rw [this]
          exact h2
        · intro j' hj' hlt
          cases j' with
          | zero => simpa using hc0
          | succ j' =>
            have := h3 j' (by simpa using hj') (by omega)
            have e : g + (j' + 1) = g + 1 + j' := by omega
            rw [e]
            simpa using this
        · rw [hstep, h4]
          have : g + (j + 1) = g + 1 + j := by omega
          rw [this]
      · right
        refine ⟨?_, by rw [hstep, h2]⟩
        intro j hj
        cases j with
        | zero => simpa using hc0
        | succ j =>
          have := h1 j (by simpa using hj)
          have e : g + (j + 1) = g + 1 + j := by omega
          rw [e]
          simpa using this

theorem map_getD_range (K : List String) :
    (List.range K.length).map (fun g => K.getD g "") = K := by
  apply List.ext_getElem
  · simp
  · intro i h1 h2
    simp [List.getD_eq_getElem?_getD, List.getElem?_eq_getElem h2]

theorem take_succ_set : ∀ (l : List Int) (i : Nat) (a : Int), i < l.length →
    (l.set i a).take (i + 1) = l.take i ++ [a]
  | [], _, _, h => by simp at h
  | x :: xs, 0, a, _ => by simp
  | x :: xs, i + 1, a, h => by
    have ih := take_succ_set xs i a (by simpa using h)
    simp [ih]

/-- The original indices, below `n`, that are not used yet. -/
theorem unused_step (n j : Nat) (σ : List Nat) (hj : j < n) (hjσ : j ∉ σ) :
    List.Perm ((List.range n).filter fun g => decide (g ∉ σ))
      (j :: (List.range n).filter fun g => decide (g ∉ σ ++ [j])) := by
  have hnd : ((List.range n).filter fun g => decide (g ∉ σ)).Nodup :=
    (List.nodup_range n).filter _
  have hmem : j ∈ (List.range n).filter fun g => decide (g ∉ σ) := by
    simp [List.mem_filter, hj, hjσ]
  have h1 := List.perm_cons_erase hmem
  rw [hnd.erase_eq_filter, List.filter_filter] at h1
  have h2 : (List.range n).filter (fun g => g != j && decide (g ∉ σ)) =
      (List.range n).filter (fun g => decide (g ∉ σ ++ [j])) := by
    apply List.filter_congr
    intro g _
    by_cases e1 : g = j <;> by_cases e2 : g ∈ σ <;> simp [e1, e2]
  rw [h2] at h1
  exact h1

theorem getOrderOuter_spec (K : List String) :
    ∀ (rest : List String) (i : Nat) (order : List Int) (σ : List Nat),
      σ.length = i → order.length = K.length → i + rest.length = K.length →
      order.take i = σ.map Int.ofNat → σ.Nodup → (∀ x ∈ σ, x < K.length) →
      List.Perm (((List.range K.length).filter fun g => decide (g ∉ σ)).map
        fun g => K.getD g "") rest →
      ∃ τ : List Nat,
        (getOrderOuter K rest i (order, i)).1 = (σ ++ τ).map Int.ofNat ∧
        τ.length = rest.length ∧ (σ ++ τ).Nodup ∧ (∀ x ∈ τ, x < K.length) ∧
        (∀ k, ∀ (h1 : k < τ.length) (h2 : k < rest.length), K.getD τ[k] "" = rest[k]) ∧
        (∀ k, ∀ (h1 : k < τ.length) (h2 : k < rest.length), ∀ g, g < K.length →
          g ∉ σ ++ τ.take k → K.getD g "" = rest[k] → τ[k] ≤ g) := by
  intro rest
  induction rest with
  | nil =>
    intro i order σ hσ hlen hi htake _ hb _
    refine ⟨[], ?_, rfl, by simpa, by simp, by simp, by simp⟩
    simp only [getOrderOuter, List.append_nil]
    rw [← htake]
    simp only [List.length_nil, Nat.add_zero] at hi
    rw [List.take_of_length_le (by omega)]
  | cons s rest ih =>
    intro i order σ hσ hlen hi htake hnd hb hperm
    simp only [List.length_cons] at hi
    have hmemσ : ∀ g : Nat, ((g : Int) ∉ order.take i) ↔ g ∉ σ := by
      intro g
      rw [htake]
      simp
    -- the sorted key occurs among the keys of the unused indices
    have hs : s ∈ ((List.range K.length).filter fun g => decide (g ∉ σ)).map
        fun g => K.getD g "" := hperm.symm.subset (by simp)
    obtain ⟨g0, hg0, hg0s⟩ := List.mem_map.mp hs
    simp only [List.mem_filter, List.mem_range, decide_eq_true_eq] at hg0
    rcases getOrderInner_spec s i order i K 0 with ⟨j, hj, h1, h2, h3, h4⟩ | ⟨h1, _⟩
    swap
    · exfalso
      apply h1 g0 hg0.1
      refine ⟨?_, ?_⟩
      · rw [← hg0s, List.getD_eq_getElem?_getD, List.getElem?_eq_getElem hg0.1]
        rfl
      · simpa using (hmemσ g0).mpr hg0.2
    · simp only [Nat.zero_add] at h2 h3 h4
      have hjσ : j ∉ σ := (hmemσ j).mp h2
      have hKj : K.getD j "" = s := by
        rw [List.getD_eq_getElem?_getD, List.getElem?_eq_getElem hj]
        exact h1
      have hperm' : List.Perm
          (((List.range K.length).filter fun g => decide (g ∉ σ ++ [j])).map
            fun g => K.getD g "") rest := by
        have hp := (unused_step K.length j σ hj hjσ).map (fun g => K.getD g "")
        rw [List.map_cons, hKj] at hp
        exact (hp.symm.trans hperm).cons_inv
      have htake' : (order.set i (j : Int)).take (i + 1) = (σ ++ [j]).map Int.ofNat := by
        rw [List.map_append, ← htake]
        have hi' : i < order.length := by omega
        rw [take_succ_set order i (j : Int) hi']
        rfl
      obtain ⟨τ, e1, e2, e3, e4, e5, e6⟩ :=
        ih (i + 1) (order.set i (j : Int)) (σ ++ [j]) (by simp [hσ]) (by simpa using hlen)
          (by omega) htake'
          (by
            rw [List.nodup_append]
            refine ⟨hnd, by simp, ?_⟩
            intro a ha hb'
            simp only [List.mem_singleton] at hb'
            subst hb'
            exact hjσ ha)
          (by
            intro x hx
            rcases List.mem_append.mp hx with hx | hx
            · exact hb x hx
            · simp only [List.mem_singleton] at hx
              subst hx
              exact hj)
          hperm'
      refine ⟨j :: τ, ?_, by simp [e2], ?_, ?_, ?_, ?_⟩
      · simp only [getOrderOuter, h4]
        rw [e1]
        simp
      · simpa using e3
      · intro x hx
        rcases List.mem_cons.mp hx with rfl | hx
        · exact hj
        · exact e4 x hx
      · intro k hk1 hk2
        cases k with
        | zero => simpa using hKj
        | succ k =>
          simpa using e5 k (by simpa using hk1) (by simpa using hk2)
      · intro k hk1 hk2 g hg hgu hgk
        cases k with
        | zero =>
          simp only [List.take_zero, List.append_nil] at hgu
          simp only [List.getElem_cons_zero] at hgk ⊢
          by_contra hlt
          have hlt' : g < j := by omega
          exact h3 g hg hlt' ⟨by
            rw [List.getD_eq_getElem?_getD, List.getElem?_eq_getElem hg] at hgk
            exact hgk, (hmemσ g).mpr hgu⟩
        | succ k =>
          simp only [List.getElem_cons_succ] at hgk ⊢
          exact e6 k (by simpa using hk1) (by simpa using hk2) g hg
            (by simpa [List.append_assoc] using hgu) hgk

/-- Function `getOrder` on a key array and a rearrangement of it: the order
array is filled with distinct original indices; rank `k` gets the first
original index, not taken by an earlier rank, whose key is the key of rank
`k`. -/
theorem getOrder_spec (garbage : Nat → Int) (collection : XmElem) (K S : List String)
    (hK : K.length = collection.subelem.length) (hS : S.Perm K) :
    ∃ σ : List Nat,
      getOrder garbage collection K S = σ.map Int.ofNat ∧
      σ.length = K.length ∧ σ.Nodup ∧ (∀ x ∈ σ, x < K.length) ∧
      (∀ k, ∀ (h1 : k < σ.length) (h2 : k < S.length), K.getD σ[k] "" = S[k]) ∧
      (∀ k, ∀ (h1 : k < σ.length) (h2 : k < S.length), ∀ g, g < K.length →
        g ∉ σ.take k → K.getD g "" = S[k] → σ[k] ≤ g) := by
  have hSl : S.length = K.length := hS.length_eq
  obtain ⟨τ, e1, e2, e3, e4, e5, e6⟩ := getOrderOuter_spec K S 0
    ((List.range K.length).map garbage) [] rfl (by simp) (by omega) (by simp) List.nodup_nil
    (by simp) (by
      simp only [List.not_mem_nil, not_false_eq_true, decide_True, List.filter_true]
      rw [map_getD_range]
      exact hS.symm)
  refine ⟨τ, ?_, by omega, by simpa using e3, e4, e5, by simpa using e6⟩
  unfold getOrder
  simp only [← hK]
  rw [List.take_of_length_le (le_refl _), List.take_of_length_le (by omega)]
  simpa using e1

theorem getOrder_increasing {K S : List String} {σ : List Nat} (hnd : σ.Nodup)
    (hkey : ∀ k, ∀ (h1 : k < σ.length) (h2 : k < S.length), K.getD σ[k] "" = S[k])
    (hbound : ∀ x ∈ σ, x < K.length)
    (hmin : ∀ k, ∀ (h1 : k < σ.length) (h2 : k < S.length), ∀ g, g < K.length →
      g ∉ σ.take k → K.getD g "" = S[k] → σ[k] ≤ g)
    (i j : Nat) (hi : i < σ.length) (hj : j < σ.length) (hi' : i < S.length)
    (hj' : j < S.length) (hij : i < j) (heq : S[i] = S[j]) : σ[i] < σ[j] := by
  have hne : σ[i] ≠ σ[j] := by
    intro e
    have := (List.Nodup.getElem_inj_iff hnd).mp e
    omega
  have hnot : σ[j] ∉ σ.take i := by
    intro hm
    obtain ⟨k, hk, e⟩ := List.getElem_of_mem hm
    simp only [List.length_take] at hk
    rw [List.getElem_take] at e
    have := (List.Nodup.getElem_inj_iff hnd).mp e
    omega
  have hle := hmin i hi hi' σ[j] (hbound _ (List.getElem_mem hj)) hnot
    (by rw [hkey j hj hj', heq])
  omega

theorem perm_range_of_nodup (σ : List Nat) (n : Nat) (hlen : σ.length = n) (hnd : σ.Nodup)
    (hb : ∀ x ∈ σ, x < n) : σ.Perm (List.range n) := by
  have hsub : σ ⊆ List.range n := fun x hx => List.mem_range.mpr (hb x hx)
  exact (List.subperm_of_subset hnd hsub).perm_of_length_le (by simp [hlen])

theorem filterMap_range_getElem? (l : List XmElem) :
    (List.range l.length).filterMap (fun i => l[i]?) = l := by
  have h := filter_eq_filterMap_range (fun _ => true) l
  rw [List.filter_true] at h
  rw [List.filter_eq_self.mpr (by
    intro i hi
    rw [List.mem_range] at hi
    simp [List.getElem?_eq_getElem hi])] at h
  exact h.symm

theorem reassign_ok (backUpPtrs : List XmElem) :
    ∀ (σ : List Nat), (∀ x ∈ σ, x < backUpPtrs.length) →
      reassign backUpPtrs (σ.map Int.ofNat) = .ok (σ.filterMap fun i => backUpPtrs[i]?)
  | [], _ => rfl
  | x :: σ, h => by
    have ih := reassign_ok backUpPtrs σ (fun y hy => h y (List.mem_cons_of_mem _ hy))
    have hx : x < backUpPtrs.length := h x (by simp)
    have h0 : (0 : Int) ≤ Int.ofNat x := Int.ofNat_nonneg x
    have ht : (Int.ofNat x).toNat = x := rfl
    simp only [List.map_cons, reassign, h0, if_true, ht, ih,
      List.getElem?_eq_getElem hx, List.filterMap_cons]

theorem map_snd_zipWith (copyAddr : Nat → Nat) :
    ∀ (l : List Nat) (keys : List String), l.length = keys.length →
      (List.zipWith (fun i key => (copyAddr i, key)) l keys).map (fun a => a.2) = keys
  | [], [], _ => rfl
  | [], _ :: _, h => by simp at h
  | _ :: _, [], h => by simp at h
  | i :: l, key :: keys, h => by
    have ih := map_snd_zipWith copyAddr l keys (by simpa using h)
    simp [ih]

/-- What `sortRecs` does, given one key per child: it returns, and the new
child list reads the old one through a list `σ` of distinct indices that
`getOrder` built from some rearrangement of the keys. -/
theorem sortRecs_spec (copyAddr : Nat → Nat) (garbage : Nat → Int) (collection : XmElem)
    (keys : List String) (hlen : keys.length = collection.subelem.length) :
    ∃ (σ : List Nat) (sorted : XmElem),
      sortRecs copyAddr garbage collection keys = .ok sorted ∧
      sorted.subelem = σ.filterMap (fun i => collection.subelem[i]?) ∧
      σ.length = collection.subelem.length ∧ σ.Nodup ∧
      (∀ x ∈ σ, x < collection.subelem.length) ∧
      (∀ i j, ∀ (hi : i < σ.length) (hj : j < σ.length), i < j →
        keys[σ[i]]? = keys[σ[j]]? → σ[i] < σ[j]) := by
  by_cases hn : collection.subelem.length < 2
  · refine ⟨List.range collection.subelem.length, collection, ?_, ?_, by simp,
      List.nodup_range _, by simp, ?_⟩
    · simp [sortRecs, hn]
    · rw [filterMap_range_getElem?]
    · intro i j hi hj hij _
      simpa using hij
  · have hk : ¬ keys.length < collection.subelem.length := by omega
    have hperm : ((qsort (fun a b => compare a.1 b.1)
        (List.zipWith (fun i key => (copyAddr i, key))
          (List.range collection.subelem.length) keys)).map fun a => a.2).Perm keys := by
      have h1 := (List.perm_insertionSort (fun a b : Nat × String => compare a.1 b.1 ≤ 0)
        (List.zipWith (fun i key => (copyAddr i, key))
          (List.range collection.subelem.length) keys)).map (fun a => a.2)
      rw [map_snd_zipWith copyAddr _ keys (by simp [hlen])] at h1
      exact h1
    obtain ⟨σ, e1, e2, e3, e4, e5, e6⟩ := getOrder_spec garbage collection keys _ hlen hperm
    have hb : ∀ x ∈ σ, x < collection.subelem.length := fun x hx => hlen ▸ e4 x hx
    refine ⟨σ, .mk collection.tag collection.text collection.isBlank collection.attrib
      (σ.filterMap fun i => collection.subelem[i]?), ?_, rfl, by omega, e3, hb, ?_⟩
    · simp only [sortRecs, hn, hk, if_false, e1, reassign_ok collection.subelem σ hb]
    · intro i j hi hj hij hkeys
      have hSl := hperm.length_eq
      have hi' : σ[i] < keys.length := e4 _ (List.getElem_mem hi)
      have hj' : σ[j] < keys.length := e4 _ (List.getElem_mem hj)
      apply getOrder_increasing e3 e5 e4 e6 i j hi hj (by omega) (by omega) hij
      rw [← e5 i hi (by omega), ← e5 j hj (by omega)]
      rw [List.getElem?_eq_getElem hi', List.getElem?_eq_getElem hj'] at hkeys
      simp only [List.getD_eq_getElem?_getD, List.getElem?_eq_getElem hi',
        List.getElem?_eq_getElem hj', Option.getD_some]
      exact Option.some.inj hkeys

set_option maxRecDepth 20000 in
/-- Evaluation for C12: with the key copies at the addresses `heapAddr`,
`compare` puts the copy of "QA76.1" first, and `sortRecs` leaves the two
records of the specification's example in the order "QA76.1", "AB12.3",
which is decreasing under `strcmp`.  With the same keys at the addresses
`heapAddrWrap` the two records are exchanged: the result follows the
addresses, not the keys. -/
theorem sortRecs_shelf_unsorted :
    compare (heapAddr 0) (heapAddr 1) = -1 ∧
    strcmp "QA76.1" "AB12.3" = 1 ∧
    (sortRecs heapAddr (fun _ => 0) shelfCollection ["QA76.1", "AB12.3"]).map callNumbers =
      .ok [.ok "QA76.1", .ok "AB12.3"] ∧
    compare (heapAddrWrap 0) (heapAddrWrap 1) = 1 ∧
    (sortRecs heapAddrWrap (fun _ => 0) shelfCollection ["QA76.1", "AB12.3"]).map
      callNumbers = .ok [.ok "AB12.3", .ok "QA76.1"] := by
  refine ⟨by rfl, by rfl, by rfl, by rfl, by rfl⟩

/-- C13. Given one key per child (duplicate keys allowed), `sortRecs`
returns, and the children after the call are a permutation of the children
before it: no child is lost or duplicated, and their number is unchanged. -/
theorem sortRecs_permutes (copyAddr : Nat → Nat) (garbage : Nat → Int) (collection : XmElem)
    (keys : List String) (hlen : keys.length = collection.subelem.length) :
    ∃ sorted, sortRecs copyAddr garbage collection keys = .ok sorted ∧
      sorted.subelem.Perm collection.subelem ∧
      sorted.subelem.length = collection.subelem.length := by
  obtain ⟨σ, sorted, h1, h2, h3, h4, h5, -⟩ :=
    sortRecs_spec copyAddr garbage collection keys hlen
  have hp : sorted.subelem.Perm collection.subelem := by
    rw [h2]
    have := (perm_range_of_nodup σ _ h3 h4 h5).filterMap (fun i => collection.subelem[i]?)
    rwa [filterMap_range_getElem?] at this
  exact ⟨sorted, h1, hp, hp.length_eq⟩

set_option maxRecDepth 20000 in
/-- Witness for C13: four records with the duplicate keys b, a, b, a. -/
theorem sortRecs_permutes_witness :
    ∃ sorted, sortRecs heapAddr (fun _ => 0) fourRecordCollection ["b", "a", "b", "a"] =
        .ok sorted ∧
      sorted.subelem.Perm fourRecordCollection.subelem ∧
      sorted.subelem.length = fourRecordCollection.subelem.length :=
  sortRecs_permutes heapAddr (fun _ => 0) fourRecordCollection ["b", "a", "b", "a"] rfl

/-- C14. For a key array with one key per child and a rearrangement of it
(a sorted one in particular), `getOrder` fills the order array with original
indices: rank `i` gets an index that holds exactly the key of rank `i`, and
ranks with equal keys get increasing indices.  Hence after `sortRecs` the new
children read the old ones through indices that increase along equal keys:
children with equal keys keep their relative order. -/
theorem getOrder_keeps_ties_in_order (garbage : Nat → Int) (collection : XmElem)
    (keysOriginal keysSorted : List String)
    (hlen : keysOriginal.length = collection.subelem.length)
    (hperm : keysSorted.Perm keysOriginal) :
    (∃ order : List Nat,
      getOrder garbage collection keysOriginal keysSorted = order.map Int.ofNat ∧
      order.length = collection.subelem.length ∧
      (∀ i, ∀ (hi : i < order.length),
        order[i] < keysOriginal.length ∧ keysOriginal[order[i]]? = keysSorted[i]?) ∧
      (∀ i j, ∀ (hi : i < order.length) (hj : j < order.length), i < j →
        keysSorted[i]? = keysSorted[j]? → order[i] < order[j])) ∧
    (∀ copyAddr : Nat → Nat, ∃ (order : List Nat) (sorted : XmElem),
      sortRecs copyAddr garbage collection keysOriginal = .ok sorted ∧
      sorted.subelem = order.filterMap (fun i => collection.subelem[i]?) ∧
      order.length = collection.subelem.length ∧
      (∀ i j, ∀ (hi : i < order.length) (hj : j < order.length), i < j →
        keysOriginal[order[i]]? = keysOriginal[order[j]]? → order[i] < order[j])) := by
  constructor
  · obtain ⟨σ, e1, e2, e3, e4, e5, e6⟩ :=
      getOrder_spec garbage collection keysOriginal keysSorted hlen hperm
    have hSl := hperm.length_eq
    refine ⟨σ, e1, by omega, ?_, ?_⟩
    · intro i hi
      have hb := e4 _ (List.getElem_mem hi)
      refine ⟨hb, ?_⟩
      have := e5 i hi (by omega)
      rw [List.getD_eq_getElem?_getD, List.getElem?_eq_getElem hb, Option.getD_some] at this
      rw [List.getElem?_eq_getElem hb, List.getElem?_eq_getElem (by omega : i < keysSorted.length),
        this]
    · intro i j hi hj hij heq
      have hi' : i < keysSorted.length := by omega
      have hj' : j < keysSorted.length := by omega
      rw [List.getElem?_eq_getElem hi', List.getElem?_eq_getElem hj'] at heq
      exact getOrder_increasing e3 e5 e4 e6 i j hi hj hi' hj' hij (Option.some.inj heq)
  · intro copyAddr
    obtain ⟨σ, sorted, h1, h2, h3, -, -, h6⟩ :=
      sortRecs_spec copyAddr garbage collection keysOriginal hlen
    exact ⟨σ, sorted, h1, h2, h3, h6⟩

set_option maxRecDepth 20000 in
/-- Witness for C14: the keys b, a, b, a and their sorted rearrangement
a, a, b, b give the order 1, 3, 0, 2. -/
theorem getOrder_keeps_ties_in_order_witness :
    getOrder (fun _ => 0) fourRecordCollection ["b", "a", "b", "a"] ["a", "a", "b", "b"] =
      [1, 3, 0, 2] ∧
    ∃ order : List Nat,
      getOrder (fun _ => 0) fourRecordCollection ["b", "a", "b", "a"] ["a", "a", "b", "b"] =
        order.map Int.ofNat ∧
      order.length = fourRecordCollection.subelem.length ∧
      (∀ i, ∀ (hi : i < order.length),
        order[i] < ["b", "a", "b", "a"].length ∧
          ["b", "a", "b", "a"][order[i]]? = ["a", "a", "b", "b"][i]?) ∧
      (∀ i j, ∀ (hi : i < order.length) (hj : j < order.length), i < j →
        ["a", "a", "b", "b"][i]? = ["a", "a", "b", "b"][j]? → order[i] < order[j]) :=
  ⟨by rfl, (getOrder_keeps_ties_in_order (fun _ => 0) fourRecordCollection
    ["b", "a", "b", "a"] ["a", "a", "b", "b"] rfl (by decide)).1⟩

/-! ### Return values -/

set_option maxRecDepth 20000 in
/-- Evaluation for C21: for a collection with one record, which holds one
data field with one subfield, every write succeeding, `printElement` and
`mxWriteFile` return 3, the number of elements written, and not 1, the number
of records. -/
theorem mxWriteFile_counts_elements :
    recordCount designCollection = 1 ∧
    (printElement designCollection 0 okStream).1 = 3 ∧
    (mxWriteFile (some designCollection) okStream).1 = 3 := by
  refine ⟨by rfl, by rfl, by rfl⟩

set_option maxRecDepth 20000 in
/-- Evaluation for C22: on a stream whose call 6, the write of the opening
tag of the data field, fails, `printElement` on the "Design Patterns" record
at depth 1 returns 0 (1 for the record plus the -1 of the data field); on a
stream whose call 1, the write of `>`, fails, `printElement` on a record
without children returns 1.  Only a failure of the element's own opening tag
gives -1. -/
theorem printElement_failed_write :
    (printElement designPatterns 1 (failsAt 6)).1 = 0 ∧
    (printElement emptyRecord 0 (failsAt 1)).1 = 1 ∧
    (printElement emptyRecord 0 (failsAt 0)).1 = -1 := by
  refine ⟨by rfl, by rfl, by rfl⟩

/-- The value `concat` returns when every write succeeds: `EXIT_FAILURE`
exactly when one of the two collections holds exactly one element. -/
theorem concat_returns (top1 top2 : XmElem) (outfile : FILE) (hf : outfile.neverFails) :
    (concat top1 top2 outfile).1 =
      if countNonCollection top1 = 1 ∨ countNonCollection top2 = 1 then EXIT_FAILURE
      else EXIT_SUCCESS := by
  have hH := printCollectionHeader_ok top1 outfile hf
  have hHn := hH.2.neverFails hf
  have hA := printElement_ok top1 0 _ hHn
  have hB := printElement_ok top2 0 _ (hA.2.neverFails hHn)
  have hne : ¬ ((1 : Int) = 0) := by decide
  simp only [concat, hH.1, hne, if_false, hA.1, hB.1, EXIT_FAILURE]
  by_cases h1 : countNonCollection top1 = 1 <;> by_cases h2 : countNonCollection top2 = 1 <;>
    simp [h1, h2]

set_option maxRecDepth 20000 in
/-- Evaluation for C30: every write succeeds, and `concat` of a collection
holding one record without children with a collection of two records returns
`EXIT_FAILURE`: the count 1 returned by `printElement` is taken for the
failure value. -/
theorem concat_single_element :
    okStream.neverFails ∧
    (printElement oneRecordCollection 0 okStream).1 = 1 ∧
    (concat oneRecordCollection twoRecordCollection okStream).1 = EXIT_FAILURE ∧
    (concat twoRecordCollection twoRecordCollection okStream).1 = EXIT_SUCCESS := by
  refine ⟨okStream_neverFails, by rfl, by rfl, by rfl⟩

/-! ### Tag values -/

theorem atoi_of_no_digit (c : Char) (cs : List Char) (hsp : isspace c = false)
    (hm : c ≠ '-') (hp : c ≠ '+') (hd : ¬ (48 ≤ c.toNat ∧ c.toNat ≤ 57)) :
    atoi ⟨c :: cs⟩ = 0 := by
  have h1 : skipSpace (c :: cs) = c :: cs := by simp [skipSpace, hsp]
  have h2 : digitsVal (c :: cs) 0 = 0 := by simp only [digitsVal, hd, if_false]
  have h3 : strtol (c :: cs) = 0 := by
    unfold strtol
    rw [h1]
    split
    · rename_i heq
      exact absurd (List.cons.inj heq).1 hm
    · rename_i heq
      exact absurd (List.cons.inj heq).1 hp
    · rw [h2]
      decide
  unfold atoi
  rw [h3]
  decide

/-- C29. Tag values are compared after `atoi`: in an element tagged "record",
an element that carries a "tag" attribute whose value parses to `n` is among
the elements that `mxFindField(record, n)` counts.  A value that starts with
a character other than white space, a sign or a digit parses to 0, as "abc"
does, so it is counted for tag 0; the zero-padded value "090" parses to 90,
so it is counted for tag 90. -/
theorem mxFindField_counts_parsed_tag (record e : XmElem) (value : String) (n : Int)
    (hrec : record.tag = "record") (he : e ∈ subtree record)
    (hattr : ("tag", value) ∈ e.attrib) (hval : atoi value = n) :
    carriesTag n e = true ∧
    e ∈ (subtree record).filter (carriesTag n) ∧
    mxFindField record n = .ok ((subtree record).filter (carriesTag n)).length ∧
    0 < ((subtree record).filter (carriesTag n)).length ∧
    atoi "abc" = 0 ∧ atoi "090" = 90 ∧
    (∀ (c : Char) (cs : List Char), isspace c = false → c ≠ '-' → c ≠ '+' →
      ¬ (48 ≤ c.toNat ∧ c.toNat ≤ 57) → atoi ⟨c :: cs⟩ = 0) := by
  have hc : carriesTag n e = true := by
    simp only [carriesTag, List.any_eq_true, Bool.and_eq_true, decide_eq_true_eq]
    exact ⟨("tag", value), hattr, rfl, hval⟩
  have hm : e ∈ (subtree record).filter (carriesTag n) := List.mem_filter.mpr ⟨he, hc⟩
  exact ⟨hc, hm, mxFindField_record record n hrec, List.length_pos_of_mem hm, by decide,
    by decide, atoi_of_no_digit⟩

set_option maxRecDepth 20000 in
/-- Witness for C29: in `oddTagsRecord` the field with tag value "abc" is
counted for tag 0 and the field with tag value "090" for tag 90. -/
theorem mxFindField_counts_parsed_tag_witness :
    mxFindField oddTagsRecord 0 = .ok 1 ∧ mxFindField oddTagsRecord 90 = .ok 1 ∧
    mxGetData oddTagsRecord 90 1 'a' 1 = .ok (some "QA76") ∧
    carriesTag 0 (datafield "abc" [subfield "a" "x"]) = true ∧
    datafield "abc" [subfield "a" "x"] ∈ (subtree oddTagsRecord).filter (carriesTag 0) :=
  ⟨by rfl, by rfl, by rfl,
    (mxFindField_counts_parsed_tag oddTagsRecord (datafield "abc" [subfield "a" "x"]) "abc" 0
      rfl (by simp [subtree, oddTagsRecord, descendants, descendantsSubs]) (by simp [datafield, XmElem.attrib])
      (by decide)).1,
    (mxFindField_counts_parsed_tag oddTagsRecord (datafield "abc" [subfield "a" "x"]) "abc" 0
      rfl (by simp [subtree, oddTagsRecord, descendants, descendantsSubs]) (by simp [datafield, XmElem.attrib])
      (by decide)).2.1⟩

/-! ### Indexes of the scans -/

theorem subelemAt_ok (e F : XmElem) (i : Nat) (h : subelemAt e i = .ok F) :
    i < e.subelem.length ∧ e.subelem[i]? = some F := by
  unfold subelemAt at h
  split at h
  · rename_i x hx
    have hxF : x = F := by injection h
    subst hxF
    exact ⟨(List.getElem?_eq_some_iff.mp hx).1, hx⟩
  · exact absurd h (by simp)

set_option maxRecDepth 8000 in
/-- Counterexample for C28: in `nestedRecord` the count for tag 245 is 2,
because it includes the element two levels down, so occurrence 2 passes the
range validation; the scan of the record's two children finds one match and
returns 2, the number of children, and `mxFindSubfield` and `mxGetData` read
past the children array. -/
theorem findNthAttrib_past_children :
    nestedRecord.tag = "record" ∧ mxFindField nestedRecord 245 = .ok 2 ∧
    findNthAttrib nestedRecord 245 2 "tag" = 2 ∧ nestedRecord.subelem.length = 2 ∧
    mxFindSubfield nestedRecord 245 2 'a' = .error Fault.outOfBounds ∧
    mxGetData nestedRecord 245 2 'a' 1 = .error Fault.outOfBounds := by
  refine ⟨by rfl, by rfl, by rfl, by rfl, by rfl, by rfl⟩

/-- C28, amended. On an element tagged "record" whose elements carrying the
tag number are direct children, and in whose children the elements carrying
the subfield code are direct children, a tag occurrence that passes the range
validation gives a field scan index below the record's number of children;
a subfield occurrence that passes the range validation gives a subfield scan
index below the located field's number of children; `mxFindSubfield` and
`mxGetData` return without reading past a children array. -/
theorem findNthAttrib_in_bounds (record : XmElem) (tag tnum : Int) (sub : Char) (snum : Int)
    (hrec : record.tag = "record") (hdir : fieldsAreDirect tag record = true)
    (hsub : ∀ F ∈ record.subelem, matchesAreDirect (carriesCode sub) F = true)
    (h1 : 1 ≤ tnum) (h2 : tnum ≤ (((subtree record).filter (carriesTag tag)).length : Int)) :
    ∃ F, findNthAttrib record tag tnum "tag" < record.subelem.length ∧
      record.subelem[findNthAttrib record tag tnum "tag"]? = some F ∧
      mxFindSubfield record tag tnum sub = .ok (getSubCount F sub) ∧
      (1 ≤ snum → snum ≤ (getSubCount F sub : Int) →
        findNthAttrib F (charToInt sub) snum "code" < F.subelem.length) ∧
      ∃ r, mxGetData record tag tnum sub snum = .ok r := by
  obtain ⟨F, hF, hFk⟩ := locate_direct (carriesTag tag) tag "tag" (fun e => findTag_tag e tag)
    record hdir tnum h1 h2
  obtain ⟨hlt, hget⟩ := subelemAt_ok record F _ hF
  have hmem : F ∈ record.subelem := List.getElem?_mem hget
  have hcode : 1 ≤ snum → snum ≤ (getSubCount F sub : Int) →
      ∃ S, subelemAt F (findNthAttrib F (charToInt sub) snum "code") = .ok S := by
    intro hs1 hs2
    rw [getSubCount_eq] at hs2
    obtain ⟨S, hS, -⟩ := locate_direct (carriesCode sub) (charToInt sub) "code"
      (fun e => findTag_code e sub) F (hsub F hmem) snum hs1 hs2
    exact ⟨S, hS⟩
  refine ⟨F, hlt, hget, ?_, ?_, ?_⟩
  · rw [mxFindSubfield_in record tag tnum sub hrec h1 h2, hF]
    rfl
  · intro hs1 hs2
    obtain ⟨S, hS⟩ := hcode hs1 hs2
    exact (subelemAt_ok F S _ hS).1
  · by_cases h09 : 0 ≤ tag ∧ tag ≤ 9
    · exact ⟨F.text, by rw [mxGetData_control_eq record tag tnum sub snum hrec h1 h2 h09, hF]; rfl⟩
    · rw [mxGetData_data_eq record tag tnum sub snum hrec h1 h2 h09 F hF]
      by_cases hs : snum < 1 ∨ ((getSubCount F sub : Nat) : Int) < snum
      · exact ⟨none, by rw [if_pos hs]⟩
      · obtain ⟨S, hS⟩ := hcode (by omega) (by omega)
        exact ⟨S.text, by rw [if_neg hs, hS]; rfl⟩

set_option maxRecDepth 8000 in
/-- Witness for C28: occurrence 1 of tag 245, subfield a, in the "Design
Patterns" record. -/
theorem findNthAttrib_in_bounds_witness :
    ∃ F, findNthAttrib designPatterns 245 1 "tag" < designPatterns.subelem.length ∧
      designPatterns.subelem[findNthAttrib designPatterns 245 1 "tag"]? = some F ∧
      mxFindSubfield designPatterns 245 1 'a' = .ok (getSubCount F 'a') ∧
      (1 ≤ (1 : Int) → (1 : Int) ≤ (getSubCount F 'a' : Int) →
        findNthAttrib F (charToInt 'a') 1 "code" < F.subelem.length) ∧
      ∃ r, mxGetData designPatterns 245 1 'a' 1 = .ok r :=
  findNthAttrib_in_bounds designPatterns 245 1 'a' 1 rfl (by rfl)
    (by intro F hF; simp only [designPatterns, XmElem.subelem, List.mem_singleton] at hF; subst hF; rfl)
    (by decide) (by rw [show ((subtree designPatterns).filter (carriesTag 245)).length = 1 from by rfl]; decide)

/-! ### Reading each counted occurrence -/

theorem hasAttrib_of_carriesCode (c : Char) (e : XmElem) (h : carriesCode c e = true) :
    hasAttrib "code" e = true := by
  by_contra hn
  have hf : hasAttrib "code" e = false := by simpa using hn
  rw [carriesCode_hasAttrib c e hf] at h
  exact absurd h (by decide)

theorem carriesCode_of_hasAttrib (e : XmElem) (h : hasAttrib "code" e = true) :
    ∃ c, carriesCode c e = true := by
  simp only [hasAttrib, List.any_eq_true, decide_eq_true_eq] at h
  obtain ⟨a, ha, hn⟩ := h
  refine ⟨cHead a.2, ?_⟩
  simp only [carriesCode, List.any_eq_true, Bool.and_eq_true, decide_eq_true_eq]
  exact ⟨a, ha, hn, rfl⟩

set_option maxRecDepth 8000 in
/-- Counterexample for C25: `blankControlRecord` is a well-formed record with
one field of tag 1, whose text is absent, and `bareFieldRecord` is a
well-formed record with one field of tag 245, which has no subfield; in both
the count is 1 and `mxGetData` returns absent for occurrence 1 with every
subfield code and subfield occurrence. -/
theorem mxGetData_absent_for_counted_field :
    wellFormedRecord blankControlRecord = true ∧ mxFindField blankControlRecord 1 = .ok 1 ∧
    (∀ (sub : Char) (snum : Int), mxGetData blankControlRecord 1 1 sub snum = .ok none) ∧
    wellFormedRecord bareFieldRecord = true ∧ mxFindField bareFieldRecord 245 = .ok 1 ∧
    (∀ (sub : Char) (snum : Int), mxGetData bareFieldRecord 245 1 sub snum = .ok none) := by
  refine ⟨by rfl, by rfl, ?_, by rfl, by rfl, ?_⟩
  · intro sub snum
    rw [mxGetData_control_eq blankControlRecord 1 1 sub snum rfl (by decide)
      (by rw [show ((subtree blankControlRecord).filter (carriesTag 1)).length = 1 from by rfl];
          decide) (by decide)]
    rfl
  · intro sub snum
    have hc : getSubCount (datafield "245" []) sub = 0 := by
      rw [getSubCount_eq]
      simp [subtree, datafield, descendants, descendantsSubs, carriesCode, XmElem.attrib]
    rw [mxGetData_data_eq bareFieldRecord 245 1 sub snum rfl (by decide)
      (by rw [show ((subtree bareFieldRecord).filter (carriesTag 245)).length = 1 from by rfl];
          decide) (by decide) (datafield "245" []) (by rfl), hc]
    have : snum < 1 ∨ ((0 : Nat) : Int) < snum := by omega
    rw [if_pos this]

/-- C25, amended. For every well-formed record R, tag number n and occurrence
t with 1 <= t <= countField(R,n), the t-th direct child carrying tag n is
located and `mxGetData` returns without fault; there are a subCode and a
subOccurrence for which it returns a text exactly when that field is
readable: for n in 0..9 the field has a text, otherwise one of its direct
children carries a "code" attribute and has a text. -/
theorem mxGetData_reads_readable_field (R : XmElem) (n t : Int)
    (hwf : wellFormedRecord R = true) (h1 : 1 ≤ t)
    (h2 : t ≤ (((subtree R).filter (carriesTag n)).length : Int)) :
    ∃ F, (R.subelem.filter (carriesTag n))[(t - 1).toNat]? = some F ∧
      (∀ (sub : Char) (snum : Int), ∃ r, mxGetData R n t sub snum = .ok r) ∧
      ((∃ (sub : Char) (snum : Int) (x : String), mxGetData R n t sub snum = .ok (some x)) ↔
        readableField n F = true) := by
  have htot : ∀ (sub : Char) (snum : Int), ∃ r, mxGetData R n t sub snum = .ok r :=
    fun sub snum => mxGetData_total R n t sub snum hwf
  simp only [wellFormedRecord, Bool.and_eq_true, decide_eq_true_eq] at hwf
  obtain ⟨⟨hrec, htags⟩, hcodes⟩ := hwf
  have hdir := fieldsAreDirect_of_tagsAreDirect n R htags
  obtain ⟨F, hF, hFk⟩ := locate_direct (carriesTag n) n "tag" (fun e => findTag_tag e n)
    R hdir t h1 h2
  have hmem : F ∈ R.subelem := mem_of_filter_getElem? _ _ _ _ hFk
  refine ⟨F, hFk, htot, ?_⟩
  by_cases h09 : 0 ≤ n ∧ n ≤ 9
  · have hget : ∀ (sub : Char) (snum : Int), mxGetData R n t sub snum = .ok F.text := by
      intro sub snum
      rw [mxGetData_control_eq R n t sub snum hrec h1 h2 h09, hF]
      rfl
    simp only [readableField, h09, and_self, if_true]
    constructor
    · rintro ⟨sub, snum, x, hx⟩
      rw [hget] at hx
      have : F.text = some x := by injection hx
      simp [this]
    · intro hs
      obtain ⟨x, hx⟩ := Option.isSome_iff_exists.mp hs
      exact ⟨'a', 1, x, by rw [hget, hx]⟩
  · simp only [readableField, h09, if_false, List.any_eq_true, Bool.and_eq_true]
    constructor
    · rintro ⟨sub, snum, x, hx⟩
      obtain ⟨F', hF', -, hout, hin⟩ := mxGetData_of_direct R n t sub snum hrec hdir
        (fun G hG => codesDirect_of_codesAreInFields sub R G hcodes hG) h09 h1 h2
      by_cases hs : snum < 1 ∨ ((((subtree F').filter (carriesCode sub)).length : Nat) : Int) < snum
      · rw [hout hs] at hx
        exact absurd hx (by simp)
      · obtain ⟨S, hS, hSx⟩ := hin (by omega)
        have hFF : F' = F := by
          rw [hFk] at hF'
          exact (Option.some.inj hF').symm
        subst hFF
        rw [hSx] at hx
        have hxt : S.text = some x := by injection hx
        have hSm := List.mem_filter.mp (List.getElem?_mem hS)
        exact ⟨S, hSm.1, hasAttrib_of_carriesCode sub S hSm.2, by simp [hxt]⟩
    · rintro ⟨S, hSmem, hattr, htext⟩
      obtain ⟨sub, hsub⟩ := carriesCode_of_hasAttrib S hattr
      obtain ⟨x, hx⟩ := Option.isSome_iff_exists.mp htext
      have hSf : S ∈ F.subelem.filter (carriesCode sub) := List.mem_filter.mpr ⟨hSmem, hsub⟩
      obtain ⟨k, hk⟩ := List.getElem?_of_mem hSf
      have hklt : k < (F.subelem.filter (carriesCode sub)).length :=
        (List.getElem?_eq_some_iff.mp hk).1
      have hFdir := codesDirect_of_codesAreInFields sub R F hcodes hmem
      obtain ⟨F', hF', -, -, hin⟩ := mxGetData_of_direct R n t sub ((k : Int) + 1) hrec hdir
        (fun G hG => codesDirect_of_codesAreInFields sub R G hcodes hG) h09 h1 h2
      have hFF : F' = F := by
        rw [hFk] at hF'
        exact (Option.some.inj hF').symm
      subst hFF
      rw [filter_subtree_of_direct _ _ hFdir] at hin
      obtain ⟨S', hS', hSx⟩ := hin ⟨by omega, by omega⟩
      have hidx : ((k : Int) + 1 - 1).toNat = k := by omega
      rw [hidx, hk] at hS'
      have hSS : S' = S := (Option.some.inj hS').symm
      subst hSS
      exact ⟨sub, (k : Int) + 1, x, by rw [hSx, hx]⟩

set_option maxRecDepth 8000 in
/-- Witness for C25: occurrence 1 of tag 245 in the "Design Patterns" record
is readable. -/
theorem mxGetData_reads_readable_field_witness :
    ∃ F, (designPatterns.subelem.filter (carriesTag 245))[((1 : Int) - 1).toNat]? = some F ∧
      (∀ (sub : Char) (snum : Int), ∃ r, mxGetData designPatterns 245 1 sub snum = .ok r) ∧
      ((∃ (sub : Char) (snum : Int) (x : String),
          mxGetData designPatterns 245 1 sub snum = .ok (some x)) ↔
        readableField 245 F = true) :=
  mxGetData_reads_readable_field designPatterns 245 1 (by rfl) (by decide)
    (by rw [show ((subtree designPatterns).filter (carriesTag 245)).length = 1 from by rfl]; decide)

/-! ### Building the tree -/

theorem isBlankLoop_eq (cs : List Char) : ∀ (b : Bool),
    isBlankLoop cs b = (b && cs.all isspace) := by
  induction cs with
  | nil => intro b; simp [isBlankLoop]
  | cons c cs ih =>
    intro b
    rw [isBlankLoop, ih]
    cases hc : isspace c <;> simp [hc]

theorem addElemText_fst (children : List xmlNode) :
    (addElemText children).1 = xmlNodeListGetString children := rfl

theorem addElemText_snd (children : List xmlNode) :
    (addElemText children).2 = match xmlNodeListGetString children with
      | none => true
      | some s => s.toList.all isspace := by
  unfold addElemText
  cases h : xmlNodeListGetString children with
  | none => simp
  | some s =>
    simp only [Option.getD_some, isBlankLoop_eq, Bool.true_and]
    split
    · rfl
    · rename_i hlen
      have h0 : s.length = 0 := by omega
      cases s with
      | mk d =>
        have hd : d = [] := List.length_eq_zero.mp h0
        subst hd
        rfl

theorem xmlNodeListGetStringLoop_isSome (l : List xmlNode) : ∀ (ret : Option String),
    (xmlNodeListGetStringLoop l ret).isSome =
      (ret.isSome || l.any fun c =>
        (decide (c.type = .XML_TEXT_NODE) || decide (c.type = .XML_CDATA_SECTION_NODE)) &&
          c.content.isSome) := by
  induction l with
  | nil => intro ret; simp [xmlNodeListGetStringLoop]
  | cons n l ih =>
    intro ret
    rw [xmlNodeListGetStringLoop]
    by_cases ht : n.type = .XML_TEXT_NODE ∨ n.type = .XML_CDATA_SECTION_NODE
    · rw [if_pos ht, ih]
      have hd : (decide (n.type = .XML_TEXT_NODE) ||
          decide (n.type = .XML_CDATA_SECTION_NODE)) = true := by simpa using ht
      simp only [List.any_cons, hd, Bool.true_and]
      cases hc : n.content <;> cases ret <;> simp [xmlStrcat]
    · rw [if_neg ht, ih]
      have hd : (decide (n.type = .XML_TEXT_NODE) ||
          decide (n.type = .XML_CDATA_SECTION_NODE)) = false := by simpa using ht
      simp only [List.any_cons, hd, Bool.false_and, Bool.false_or]

/-- The lookup of `addAttribs` finds a value for every property of the
node. -/
theorem xmlGetProp_isSome (properties : List (String × String)) (a : String × String)
    (h : a ∈ properties) : (xmlGetProp properties a.1).isSome = true := by
  induction properties with
  | nil => simp at h
  | cons b rest ih =>
    rw [xmlGetProp]
    by_cases hb : b.1 = a.1
    · rw [if_pos hb]
      rfl
    · rw [if_neg hb]
      rcases List.mem_cons.mp h with h | h
      · exact absurd (by rw [h]) hb
      · exact ih h

theorem mxMakeSubelems_eq (l : List xmlNode) :
    mxMakeSubelems l =
      (l.filter fun c => decide (c.type = .XML_ELEMENT_NODE)).map mxMakeElemBody := by
  induction l with
  | nil => simp [mxMakeSubelems]
  | cons c l ih =>
    rw [mxMakeSubelems, ih]
    by_cases h : c.type = .XML_ELEMENT_NODE <;> simp [h]

theorem mxMakeElemBody_fields (node : xmlNode) :
    (mxMakeElemBody node).tag = node.name ∧
    (mxMakeElemBody node).text = xmlNodeListGetString node.children ∧
    (mxMakeElemBody node).isBlank = (addElemText node.children).2 ∧
    (mxMakeElemBody node).attrib = addAttribs node.properties ∧
    (mxMakeElemBody node).subelem =
      if node.type = .XML_ELEMENT_NODE then
        (node.children.filter fun c => decide (c.type = .XML_ELEMENT_NODE)).map mxMakeElemBody
      else [] := by
  cases node with
  | mk t n c p ch =>
    simp only [mxMakeElemBody, XmElem.tag, XmElem.text, XmElem.isBlank, XmElem.attrib,
      XmElem.subelem, xmlNode.name, xmlNode.children, xmlNode.properties, xmlNode.type,
      addElemText_fst, mxMakeSubelems_eq]
    exact ⟨trivial, trivial, trivial, trivial, trivial⟩

theorem mxMakeElem_some (next : List xmlNode) : ∀ (node : xmlNode) (e : XmElem),
    mxMakeElem node next = some e →
      ∃ n ∈ node :: next, n.type ≠ .XML_COMMENT_NODE ∧ e = mxMakeElemBody n := by
  induction next with
  | nil =>
    intro node e h
    rw [mxMakeElem] at h
    by_cases hc : node.type = .XML_COMMENT_NODE
    · rw [if_pos hc] at h
      exact absurd h (by simp)
    · rw [if_neg hc] at h
      exact ⟨node, by simp, hc, (Option.some.inj h).symm⟩
  | cons n next ih =>
    intro node e h
    rw [mxMakeElem] at h
    by_cases hc : node.type = .XML_COMMENT_NODE
    · rw [if_pos hc] at h
      obtain ⟨m, hm, hmc, hme⟩ := ih n e h
      exact ⟨m, List.mem_cons_of_mem _ hm, hmc, hme⟩
    · rw [if_neg hc] at h
      exact ⟨node, by simp, hc, (Option.some.inj h).symm⟩

mutual
theorem built_subtree : ∀ (node : xmlNode), ∀ x ∈ subtree (mxMakeElemBody node),
    ∃ n, x = mxMakeElemBody n
  | .mk t n c p ch, x, hx => by
    simp only [subtree, List.mem_cons] at hx
    rcases hx with hx | hx
    · exact ⟨_, hx⟩
    · simp only [mxMakeElemBody, descendants] at hx
      by_cases ht : t = .XML_ELEMENT_NODE
      · rw [if_pos ht] at hx
        exact built_subs ch x hx
      · rw [if_neg ht] at hx
        simp [descendantsSubs] at hx
theorem built_subs : ∀ (l : List xmlNode), ∀ x ∈ descendantsSubs (mxMakeSubelems l),
    ∃ n, x = mxMakeElemBody n
  | [], x, hx => by simp [mxMakeSubelems, descendantsSubs] at hx
  | e :: next, x, hx => by
    rw [mxMakeSubelems] at hx
    by_cases ht : e.type = .XML_ELEMENT_NODE
    · rw [if_pos ht] at hx
      simp only [descendantsSubs, List.mem_append] at hx
      rcases hx with hx | hx
      · exact built_subtree e x hx
      · exact built_subs next x hx
    · rw [if_neg ht] at hx
      exact built_subs next x hx
end

theorem mxMakeElemBody_isBlank (node : xmlNode) :
    (mxMakeElemBody node).isBlank = false ↔
      ∃ s, (mxMakeElemBody node).text = some s ∧ ∃ c ∈ s.toList, isspace c = false := by
  obtain ⟨-, htext, hblank, -, -⟩ := mxMakeElemBody_fields node
  rw [htext, hblank, addElemText_snd]
  cases xmlNodeListGetString node.children with
  | none => simp
  | some s => simp

/-- Counterexample for C23: the element built from the node of
`<controlfield tag="001"/>` has no text, and its `isBlank` is true. -/
theorem mxMakeElem_isBlank_without_text :
    mxMakeElem blankControlNode [] =
      some (.mk "controlfield" none true [("tag", "001")] []) := by
  rfl

/-- C23, amended. For every element of a tree built by `mxMakeElem`,
`isBlank` is false if and only if text is present and contains a character
that is not white space; so `isBlank` is true when text is absent and when
text is present and consists only of white space (the empty text
included). -/
theorem mxMakeElem_isBlank (node : xmlNode) (next : List xmlNode) (e : XmElem)
    (h : mxMakeElem node next = some e) :
    ∀ x ∈ subtree e,
      (x.isBlank = false ↔ ∃ s, x.text = some s ∧ ∃ c ∈ s.toList, isspace c = false) ∧
      (x.text = none → x.isBlank = true) ∧
      (∀ s, x.text = some s → (∀ c ∈ s.toList, isspace c = true) → x.isBlank = true) := by
  intro x hx
  obtain ⟨m, -, -, hm⟩ := mxMakeElem_some next node e h
  subst hm
  obtain ⟨n, hn⟩ := built_subtree m x hx
  subst hn
  have hiff := mxMakeElemBody_isBlank n
  refine ⟨hiff, ?_, ?_⟩
  · intro hnone
    by_contra hb
    have hb' : (mxMakeElemBody n).isBlank = false := by simpa using hb
    obtain ⟨s, hs, -⟩ := hiff.mp hb'
    rw [hnone] at hs
    exact absurd hs (by simp)
  · intro s hs hall
    by_contra hb
    have hb' : (mxMakeElemBody n).isBlank = false := by simpa using hb
    obtain ⟨s', hs', c, hc, hcs⟩ := hiff.mp hb'
    rw [hs] at hs'
    have : s = s' := Option.some.inj hs'
    subst this
    rw [hall c hc] at hcs
    exact absurd hcs (by decide)

set_option maxRecDepth 8000 in
/-- Witness for C23: the tree built from the indented record node. -/
theorem mxMakeElem_isBlank_witness :
    mxMakeElem indentedRecordNode [] =
      some (.mk "record" (some "\n  \n") true [] [.mk "leader" (some "00000nam") false [] []]) ∧
    ∀ x ∈ subtree (.mk "record" (some "\n  \n") true []
        [.mk "leader" (some "00000nam") false [] []]),
      (x.isBlank = false ↔ ∃ s, x.text = some s ∧ ∃ c ∈ s.toList, isspace c = false) ∧
      (x.text = none → x.isBlank = true) ∧
      (∀ s, x.text = some s → (∀ c ∈ s.toList, isspace c = true) → x.isBlank = true) :=
  ⟨by rfl, mxMakeElem_isBlank indentedRecordNode [] _ (by rfl)⟩

set_option maxRecDepth 8000 in
/-- Counterexample for C24: the node of a record written on three lines has a
child element and two text children that hold only white space; the element
built from it has both a text and a child. -/
theorem mxMakeElem_text_with_children :
    hasElementChild indentedRecordNode = true ∧
    mxMakeElem indentedRecordNode [] =
      some (.mk "record" (some "\n  \n") true [] [.mk "leader" (some "00000nam") false [] []]) := by
  refine ⟨by rfl, by rfl⟩

/-- C24, amended. Every element of a tree built by `mxMakeElem` is built from
a node; its text is the concatenation of the contents of the node's text and
CDATA children, present exactly when the node has such a child, whether or
not the node has child elements; its children are the elements built from
the node's child elements, in order.  So the text is absent whenever the node
has a child element and no text child. -/
theorem mxMakeElem_text_iff_text_child (node : xmlNode) (next : List xmlNode) (e : XmElem)
    (h : mxMakeElem node next = some e) :
    ∀ x ∈ subtree e, ∃ n, x = mxMakeElemBody n ∧
      x.text = xmlNodeListGetString n.children ∧
      (x.text.isSome = true ↔ hasTextChild n = true) ∧
      (hasTextChild n = false → x.text = none) ∧
      x.subelem = (if n.type = .XML_ELEMENT_NODE then
        (n.children.filter fun c => decide (c.type = .XML_ELEMENT_NODE)).map mxMakeElemBody
        else []) := by
  intro x hx
  obtain ⟨m, -, -, hm⟩ := mxMakeElem_some next node e h
  subst hm
  obtain ⟨n, hn⟩ := built_subtree m x hx
  subst hn
  obtain ⟨-, htext, -, -, hsub⟩ := mxMakeElemBody_fields n
  have hsome : (mxMakeElemBody n).text.isSome = hasTextChild n := by
    rw [htext, xmlNodeListGetString, xmlNodeListGetStringLoop_isSome]
    simp [hasTextChild]
  refine ⟨n, rfl, htext, by rw [hsome], ?_, hsub⟩
  intro hno
  rw [hno] at hsome
  cases ht : (mxMakeElemBody n).text with
  | none => rfl
  | some s => rw [ht] at hsome; exact absurd hsome (by simp)

set_option maxRecDepth 8000 in
/-- Witness for C24: the tree built from the node of
`<controlfield tag="001"/>`. -/
theorem mxMakeElem_text_iff_text_child_witness :
    mxMakeElem blankControlNode [] = some (mxMakeElemBody blankControlNode) ∧
    ∀ x ∈ subtree (mxMakeElemBody blankControlNode), ∃ n, x = mxMakeElemBody n ∧
      x.text = xmlNodeListGetString n.children ∧
      (x.text.isSome = true ↔ hasTextChild n = true) ∧
      (hasTextChild n = false → x.text = none) ∧
      x.subelem = (if n.type = .XML_ELEMENT_NODE then
        (n.children.filter fun c => decide (c.type = .XML_ELEMENT_NODE)).map mxMakeElemBody
        else []) :=
  ⟨by rfl, mxMakeElem_text_iff_text_child blankControlNode [] _ (by rfl)⟩

/-! ### Releasing the tree -/

theorem mxCleanElem_eq (e : XmElem) (top : List Nat) :
    mxCleanElem e top = mxCleanSubelems e.subelem top 0 ++ ownBlocks e top ++ [.node top] := by
  cases e with
  | mk t x b a subs =>
    simp only [mxCleanElem, ownBlocks, XmElem.subelem, XmElem.text, XmElem.attrib]
    by_cases h : subs.length > 0
    · simp only [if_pos h, List.append_assoc]
    · have hs : subs = [] := List.length_eq_zero.mp (by omega)
      subst hs
      simp [mxCleanSubelems]

theorem mem_cleanAttribs (top : List Nat) (l : List (String × String)) : ∀ (i : Nat) (b : Block),
    b ∈ cleanAttribs top l i →
      ∃ j, i ≤ j ∧ (b = .attribName top j ∨ b = .attribValue top j) := by
  induction l with
  | nil => intro i b h; simp [cleanAttribs] at h
  | cons a l ih =>
    intro i b h
    simp only [cleanAttribs, List.mem_cons] at h
    rcases h with h | h | h
    · exact ⟨i, le_refl _, Or.inl h⟩
    · exact ⟨i, le_refl _, Or.inr h⟩
    · obtain ⟨j, hj, hb⟩ := ih (i + 1) b h
      exact ⟨j, by omega, hb⟩

theorem cleanAttribs_nodup (top : List Nat) (l : List (String × String)) : ∀ (i : Nat),
    (cleanAttribs top l i).Nodup := by
  induction l with
  | nil => intro i; simp [cleanAttribs]
  | cons a l ih =>
    intro i
    simp only [cleanAttribs, List.nodup_cons, List.mem_cons, not_or]
    refine ⟨⟨by simp, ?_⟩, ?_, ih (i + 1)⟩
    · intro h
      obtain ⟨j, hj, hb⟩ := mem_cleanAttribs top l (i + 1) _ h
      rcases hb with hb | hb
      · injection hb with _ hij
        omega
      · exact absurd hb (by simp)
    · intro h
      obtain ⟨j, hj, hb⟩ := mem_cleanAttribs top l (i + 1) _ h
      rcases hb with hb | hb
      · exact absurd hb (by simp)
      · injection hb with _ hij
        omega

theorem ownBlocks_path (e : XmElem) (top : List Nat) (b : Block) (h : b ∈ ownBlocks e top) :
    b.path = top ∧ b ≠ .node top := by
  simp only [ownBlocks, List.mem_append] at h
  rcases h with (((h | h) | h) | h) | h
  · split at h
    · simp only [List.mem_singleton] at h
      subst h
      exact ⟨rfl, by simp⟩
    · simp at h
  · simp only [List.mem_singleton] at h
    subst h
    exact ⟨rfl, by simp⟩
  · split at h
    · simp only [List.mem_singleton] at h
      subst h
      exact ⟨rfl, by simp⟩
    · simp at h
  · obtain ⟨j, -, hb⟩ := mem_cleanAttribs top _ 0 b h
    rcases hb with hb | hb <;> subst hb <;> exact ⟨rfl, by simp⟩
  · split at h
    · simp only [List.mem_singleton] at h
      subst h
      exact ⟨rfl, by simp⟩
    · simp at h

theorem ownBlocks_nodup (e : XmElem) (top : List Nat) : (ownBlocks e top).Nodup := by
  have hA := cleanAttribs_nodup top e.attrib 0
  have hm := mem_cleanAttribs top e.attrib 0
  have h1 : Block.subelemArray top ∉ cleanAttribs top e.attrib 0 := by
    intro h
    obtain ⟨j, -, hb⟩ := hm _ h
    rcases hb with hb | hb <;> exact absurd hb (by simp)
  have h2 : Block.tag top ∉ cleanAttribs top e.attrib 0 := by
    intro h
    obtain ⟨j, -, hb⟩ := hm _ h
    rcases hb with hb | hb <;> exact absurd hb (by simp)
  have h3 : Block.text top ∉ cleanAttribs top e.attrib 0 := by
    intro h
    obtain ⟨j, -, hb⟩ := hm _ h
    rcases hb with hb | hb <;> exact absurd hb (by simp)
  have h4 : Block.attribArray top ∉ cleanAttribs top e.attrib 0 := by
    intro h
    obtain ⟨j, -, hb⟩ := hm _ h
    rcases hb with hb | hb <;> exact absurd hb (by simp)
  unfold ownBlocks
  split_ifs <;>
    simp [List.nodup_append, List.nodup_cons, hA, h1, h2, h3, h4]

mutual
theorem mxCleanElem_prefix : ∀ (e : XmElem) (top : List Nat) (b : Block),
    b ∈ mxCleanElem e top → top <+: b.path
  | .mk t x bl a subs, top, b, h => by
    rw [mxCleanElem_eq] at h
    simp only [XmElem.subelem, List.mem_append, List.mem_singleton] at h
    rcases h with (h | h) | h
    · obtain ⟨j, -, hj⟩ := mxCleanSubelems_prefix subs top 0 b h
      exact List.IsPrefix.trans (List.prefix_append top [j]) hj
    · rw [(ownBlocks_path _ top b h).1]
    · subst h
      exact List.prefix_refl _
theorem mxCleanSubelems_prefix : ∀ (es : List XmElem) (top : List Nat) (i : Nat) (b : Block),
    b ∈ mxCleanSubelems es top i → ∃ j, i ≤ j ∧ (top ++ [j]) <+: b.path
  | [], top, i, b, h => by simp [mxCleanSubelems] at h
  | e :: es, top, i, b, h => by
    simp only [mxCleanSubelems, List.mem_append] at h
    rcases h with h | h
    · exact ⟨i, le_refl _, mxCleanElem_prefix e (top ++ [i]) b h⟩
    · obtain ⟨j, hj, hp⟩ := mxCleanSubelems_prefix es top (i + 1) b h
      exact ⟨j, by omega, hp⟩
end

theorem prefix_snoc_inj (top path : List Nat) (i j : Nat) (h1 : (top ++ [i]) <+: path)
    (h2 : (top ++ [j]) <+: path) : i = j := by
  have h := List.prefix_of_prefix_length_le h1 h2 (by simp)
  have he := h.eq_of_length (by simp)
  simpa using he

theorem not_prefix_snoc (top : List Nat) (j : Nat) : ¬ ((top ++ [j]) <+: top) := by
  intro h
  have := h.length_le
  simp at this

mutual
theorem mxCleanElem_nodup : ∀ (e : XmElem) (top : List Nat), (mxCleanElem e top).Nodup
  | .mk t x bl a subs, top => by
    rw [mxCleanElem_eq]
    simp only [XmElem.subelem]
    have hsub : ∀ b ∈ mxCleanSubelems subs top 0, b.path ≠ top := by
      intro b hb hp
      obtain ⟨j, -, hj⟩ := mxCleanSubelems_prefix subs top 0 b hb
      rw [hp] at hj
      exact not_prefix_snoc top j hj
    rw [List.nodup_append]
    refine ⟨?_, List.nodup_singleton _, ?_⟩
    · rw [List.nodup_append]
      refine ⟨mxCleanSubelems_nodup subs top 0, ownBlocks_nodup _ top, ?_⟩
      intro b hb1 hb2
      exact hsub b hb1 (ownBlocks_path _ top b hb2).1
    · intro b hb1 hb2
      simp only [List.mem_singleton] at hb2
      subst hb2
      simp only [List.mem_append] at hb1
      rcases hb1 with hb1 | hb1
      · exact hsub _ hb1 rfl
      · exact (ownBlocks_path _ top _ hb1).2 rfl
theorem mxCleanSubelems_nodup : ∀ (es : List XmElem) (top : List Nat) (i : Nat),
    (mxCleanSubelems es top i).Nodup
  | [], top, i => by simp [mxCleanSubelems]
  | e :: es, top, i => by
    simp only [mxCleanSubelems]
    rw [List.nodup_append]
    refine ⟨mxCleanElem_nodup e (top ++ [i]), mxCleanSubelems_nodup es top (i + 1), ?_⟩
    intro b hb1 hb2
    have h1 := mxCleanElem_prefix e (top ++ [i]) b hb1
    obtain ⟨j, hj, h2⟩ := mxCleanSubelems_prefix es top (i + 1) b hb2
    have := prefix_snoc_inj top b.path i j h1 h2
    omega
end

mutual
theorem node_mem_mxCleanElem : ∀ (e : XmElem) (top q : List Nat),
    Block.node q ∈ mxCleanElem e top → ∃ p, q = top ++ p ∧ (nodeAt e p).isSome = true
  | .mk t x bl a subs, top, q, h => by
    rw [mxCleanElem_eq] at h
    simp only [XmElem.subelem, List.mem_append, List.mem_singleton] at h
    rcases h with (h | h) | h
    · obtain ⟨j, c, p, hc, hq, hn⟩ := node_mem_mxCleanSubelems subs top 0 q h
      refine ⟨j :: p, by simpa using hq, ?_⟩
      simp only [nodeAt, XmElem.subelem, hc]
      exact hn
    · have hp := ownBlocks_path _ top _ h
      simp only [Block.path] at hp
      exact absurd (congrArg Block.node hp.1) hp.2
    · injection h with h
      exact ⟨[], by simp [h], rfl⟩
theorem node_mem_mxCleanSubelems : ∀ (es : List XmElem) (top : List Nat) (i : Nat)
    (q : List Nat), Block.node q ∈ mxCleanSubelems es top i →
      ∃ j c p, es[j]? = some c ∧ q = top ++ (i + j) :: p ∧ (nodeAt c p).isSome = true
  | [], top, i, q, h => by simp [mxCleanSubelems] at h
  | e :: es, top, i, q, h => by
    simp only [mxCleanSubelems, List.mem_append] at h
    rcases h with h | h
    · obtain ⟨p, hq, hn⟩ := node_mem_mxCleanElem e (top ++ [i]) q h
      exact ⟨0, e, p, by simp, by simpa using hq, hn⟩
    · obtain ⟨j, c, p, hc, hq, hn⟩ := node_mem_mxCleanSubelems es top (i + 1) q h
      refine ⟨j + 1, c, p, by simpa using hc, ?_, hn⟩
      rw [hq]
      congr 2
      omega
end

theorem mxCleanSubelems_infix (es : List XmElem) (top : List Nat) : ∀ (i j : Nat) (c : XmElem),
    es[j]? = some c →
      ∃ l1 l3, mxCleanSubelems es top i = l1 ++ mxCleanElem c (top ++ [i + j]) ++ l3 := by
  induction es with
  | nil => intro i j c h; simp at h
  | cons e es ih =>
    intro i j c h
    cases j with
    | zero =>
      simp only [List.getElem?_cons_zero, Option.some.injEq] at h
      subst h
      exact ⟨[], mxCleanSubelems es top (i + 1), by simp [mxCleanSubelems]⟩
    | succ j =>
      simp only [List.getElem?_cons_succ] at h
      obtain ⟨l1, l3, hl⟩ := ih (i + 1) j c h
      refine ⟨mxCleanElem e (top ++ [i]) ++ l1, l3, ?_⟩
      simp only [mxCleanSubelems, hl, List.append_assoc]
      have : i + 1 + j = i + (j + 1) := by omega
      rw [this]

theorem mxCleanElem_infix (p : List Nat) : ∀ (e : XmElem) (top : List Nat) (x : XmElem),
    nodeAt e p = some x →
      ∃ l1 l3, mxCleanElem e top = l1 ++ mxCleanElem x (top ++ p) ++ l3 := by
  induction p with
  | nil =>
    intro e top x h
    simp only [nodeAt, Option.some.injEq] at h
    subst h
    exact ⟨[], [], by simp⟩
  | cons i p ih =>
    intro e top x h
    simp only [nodeAt] at h
    cases hc : e.subelem[i]? with
    | none => rw [hc] at h; exact absurd h (by simp)
    | some c =>
      rw [hc] at h
      obtain ⟨a, b, hab⟩ := mxCleanSubelems_infix e.subelem top 0 i c hc
      obtain ⟨l1, l3, hl⟩ := ih c (top ++ [i]) x h
      refine ⟨a ++ l1, l3 ++ b ++ ownBlocks e top ++ [.node top], ?_⟩
      rw [mxCleanElem_eq e top, hab]
      simp only [Nat.zero_add, hl, List.append_assoc, List.singleton_append]

theorem nodeAt_append (p : List Nat) : ∀ (e : XmElem) (i : Nat) (c : XmElem),
    nodeAt e (p ++ [i]) = some c → ∃ x, nodeAt e p = some x ∧ x.subelem[i]? = some c := by
  induction p with
  | nil =>
    intro e i c h
    simp only [List.nil_append, nodeAt] at h
    refine ⟨e, rfl, ?_⟩
    cases hc : e.subelem[i]? with
    | none => rw [hc] at h; exact absurd h (by simp)
    | some d => rw [hc] at h; simpa [nodeAt] using h
  | cons j p ih =>
    intro e i c h
    simp only [List.cons_append, nodeAt] at h ⊢
    cases hc : e.subelem[j]? with
    | none => rw [hc] at h; exact absurd h (by simp)
    | some d =>
      rw [hc] at h
      exact ih d i c h

/-- C27. For every tree, and so for every tree built by `mxMakeElem`, with or
without attributes and subelements, the list of blocks that `mxCleanElem`
frees has no block twice; the elements whose structure it frees are exactly
the elements of the tree, each freed exactly once; and each subelement's
structure is freed before its parent's. -/
theorem mxCleanElem_releases_each_once (e : XmElem) :
    (mxCleanElem e []).Nodup ∧
    (∀ p, (nodeAt e p).isSome = true ↔ Block.node p ∈ mxCleanElem e []) ∧
    (∀ p, (nodeAt e p).isSome = true → (mxCleanElem e []).count (Block.node p) = 1) ∧
    (∀ p i, (nodeAt e (p ++ [i])).isSome = true →
      ∃ l1 l2 l3, mxCleanElem e [] = l1 ++ Block.node (p ++ [i]) :: l2 ++ Block.node p :: l3) := by
  have hnd := mxCleanElem_nodup e []
  have hmem : ∀ p, (nodeAt e p).isSome = true → Block.node p ∈ mxCleanElem e [] := by
    intro p hp
    obtain ⟨x, hx⟩ := Option.isSome_iff_exists.mp hp
    obtain ⟨l1, l3, hl⟩ := mxCleanElem_infix p e [] x hx
    rw [hl, mxCleanElem_eq x]
    simp
  refine ⟨hnd, ?_, ?_, ?_⟩
  · intro p
    constructor
    · exact hmem p
    · intro h
      obtain ⟨q, hq, hn⟩ := node_mem_mxCleanElem e [] p h
      simp only [List.nil_append] at hq
      rw [hq]
      exact hn
  · intro p hp
    exact List.count_eq_one_of_mem hnd (hmem p hp)
  · intro p i hp
    obtain ⟨c, hc⟩ := Option.isSome_iff_exists.mp hp
    obtain ⟨x, hx, hxc⟩ := nodeAt_append p e i c hc
    obtain ⟨l1, l3, hl⟩ := mxCleanElem_infix p e [] x hx
    obtain ⟨a, b, hab⟩ := mxCleanSubelems_infix x.subelem p 0 i c hxc
    refine ⟨l1 ++ a ++ (mxCleanSubelems c.subelem (p ++ [i]) 0 ++ ownBlocks c (p ++ [i])),
      b ++ ownBlocks x p, l3, ?_⟩
    rw [hl, List.nil_append, mxCleanElem_eq x, hab, Nat.zero_add, mxCleanElem_eq c]
    simp only [List.append_assoc, List.singleton_append, List.cons_append, List.nil_append]

/-! ### What the written text determines -/

theorem append_stop_inj (p : Char → Bool) : ∀ (l1 l2 : List Char) (c1 c2 : Char)
    (r1 r2 : List Char), (∀ c ∈ l1, p c = false) → (∀ c ∈ l2, p c = false) →
    p c1 = true → p c2 = true → l1 ++ c1 :: r1 = l2 ++ c2 :: r2 →
    l1 = l2 ∧ c1 = c2 ∧ r1 = r2
  | [], [], c1, c2, r1, r2, _, _, _, _, h => by
    simp only [List.nil_append, List.cons.injEq] at h
    exact ⟨rfl, h.1, h.2⟩
  | [], b :: l2, c1, c2, r1, r2, _, h2, hc1, _, h => by
    simp only [List.nil_append, List.cons_append, List.cons.injEq] at h
    have := h2 b (by simp)
    rw [← h.1, hc1] at this
    exact absurd this (by decide)
  | a :: l1, [], c1, c2, r1, r2, h1, _, _, hc2, h => by
    simp only [List.nil_append, List.cons_append, List.cons.injEq] at h
    have := h1 a (by simp)
    rw [h.1, hc2] at this
    exact absurd this (by decide)
  | a :: l1, b :: l2, c1, c2, r1, r2, h1, h2, hc1, hc2, h => by
    simp only [List.cons_append, List.cons.injEq] at h
    obtain ⟨hl, hc, hr⟩ := append_stop_inj p l1 l2 c1 c2 r1 r2
      (fun c hc => h1 c (List.mem_cons_of_mem _ hc))
      (fun c hc => h2 c (List.mem_cons_of_mem _ hc)) hc1 hc2 h.2
    exact ⟨by rw [h.1, hl], hc, hr⟩

theorem encodeSpecialChar_cases (c : Char) :
    (c = '<' ∧ encodeSpecialChar c = ['&', 'l', 't', ';']) ∨
    (c = '>' ∧ encodeSpecialChar c = ['&', 'g', 't', ';']) ∨
    (c = '&' ∧ encodeSpecialChar c = ['&', 'a', 'm', 'p', ';']) ∨
    (c = Char.ofNat 34 ∧ encodeSpecialChar c = ['&', 'q', 'u', 'o', 't', ';']) ∨
    (c = '\r' ∧ encodeSpecialChar c = ['&', '#', '1', '3', ';']) ∨
    (c ≠ '<' ∧ c ≠ '&' ∧ encodeSpecialChar c = [c]) := by
  unfold encodeSpecialChar
  by_cases h1 : c = '<'
  · exact Or.inl ⟨h1, by rw [if_pos h1]⟩
  by_cases h2 : c = '>'
  · exact Or.inr (Or.inl ⟨h2, by rw [if_neg h1, if_pos h2]⟩)
  by_cases h3 : c = '&'
  · exact Or.inr (Or.inr (Or.inl ⟨h3, by rw [if_neg h1, if_neg h2, if_pos h3]⟩))
  by_cases h4 : c = Char.ofNat 34
  · exact Or.inr (Or.inr (Or.inr (Or.inl
      ⟨h4, by rw [if_neg h1, if_neg h2, if_neg h3, if_pos h4]⟩)))
  by_cases h5 : c = '\r'
  · exact Or.inr (Or.inr (Or.inr (Or.inr (Or.inl
      ⟨h5, by rw [if_neg h1, if_neg h2, if_neg h3, if_neg h4, if_pos h5]⟩))))
  · exact Or.inr (Or.inr (Or.inr (Or.inr (Or.inr
      ⟨h1, h3, by rw [if_neg h1, if_neg h2, if_neg h3, if_neg h4, if_neg h5]⟩))))

theorem encodeSpecialChar_no_lt (c : Char) : ∀ x ∈ encodeSpecialChar c, x ≠ '<' := by
  intro x hx
  rcases encodeSpecialChar_cases c with h | h | h | h | h | h
  · rw [h.2] at hx; simp at hx; rcases hx with hx | hx | hx | hx <;> subst hx <;> decide
  · rw [h.2] at hx; simp at hx; rcases hx with hx | hx | hx | hx <;> subst hx <;> decide
  · rw [h.2] at hx; simp at hx; rcases hx with hx | hx | hx | hx | hx <;> subst hx <;> decide
  · rw [h.2] at hx; simp at hx
    rcases hx with hx | hx | hx | hx | hx | hx <;> subst hx <;> decide
  · rw [h.2] at hx; simp at hx; rcases hx with hx | hx | hx | hx | hx <;> subst hx <;> decide
  · rw [h.2.2] at hx
    simp only [List.mem_singleton] at hx
    subst hx
    exact h.1

theorem flatMap_encodeSpecialChar_no_lt (l : List Char) :
    ∀ x ∈ l.flatMap encodeSpecialChar, (decide (x = '<')) = false := by
  intro x hx
  obtain ⟨c, -, hc⟩ := List.mem_flatMap.mp hx
  simpa using encodeSpecialChar_no_lt c x hc

theorem encodeSpecialChar_append_inj (c1 c2 : Char) (r1 r2 : List Char)
    (h : encodeSpecialChar c1 ++ r1 = encodeSpecialChar c2 ++ r2) : c1 = c2 ∧ r1 = r2 := by
  rcases encodeSpecialChar_cases c1 with ⟨e1, h1⟩ | ⟨e1, h1⟩ | ⟨e1, h1⟩ | ⟨e1, h1⟩ | ⟨e1, h1⟩ |
      ⟨n1, a1, h1⟩ <;>
    rcases encodeSpecialChar_cases c2 with ⟨e2, h2⟩ | ⟨e2, h2⟩ | ⟨e2, h2⟩ | ⟨e2, h2⟩ |
      ⟨e2, h2⟩ | ⟨n2, a2, h2⟩ <;>
    rw [h1, h2] at h <;>
    simp only [List.cons_append, List.nil_append, List.cons.injEq] at h <;>
    first
    | exact ⟨e1.trans e2.symm, h.2.2.2.2.2.2⟩
    | exact ⟨e1.trans e2.symm, h.2.2.2.2.2⟩
    | exact ⟨e1.trans e2.symm, h.2.2.2.2⟩
    | exact ⟨h.1, h.2⟩
    | exact absurd h.2.1 (by decide)
    | exact absurd h.1.symm a2
    | exact absurd h.1 a1

theorem flatMap_encodeSpecialChar_inj : ∀ (l1 l2 : List Char),
    l1.flatMap encodeSpecialChar = l2.flatMap encodeSpecialChar → l1 = l2
  | [], [], _ => rfl
  | [], c :: l2, h => by
    simp only [List.flatMap_nil, List.flatMap_cons] at h
    rcases encodeSpecialChar_cases c with h2 | h2 | h2 | h2 | h2 | h2 <;>
      first | (rw [h2.2] at h; simp at h) | (rw [h2.2.2] at h; simp at h)
  | c :: l1, [], h => by
    simp only [List.flatMap_nil, List.flatMap_cons] at h
    rcases encodeSpecialChar_cases c with h2 | h2 | h2 | h2 | h2 | h2 <;>
      first | (rw [h2.2] at h; simp at h) | (rw [h2.2.2] at h; simp at h)
  | c1 :: l1, c2 :: l2, h => by
    simp only [List.flatMap_cons] at h
    obtain ⟨hc, hr⟩ := encodeSpecialChar_append_inj c1 c2 _ _ h
    rw [hc, flatMap_encodeSpecialChar_inj l1 l2 hr]

theorem attribText_data_cons (a : String × String) (rest : List (String × String))
    (r : List Char) :
    (attribText (a :: rest)).data ++ r =
      ' ' :: (a.1.data ++ '=' :: Char.ofNat 34 :: (a.2.data ++
        Char.ofNat 34 :: ((attribText rest).data ++ r))) := by
  simp only [attribText, String.data_append, List.append_assoc]
  rfl

theorem attribText_inj : ∀ (as1 as2 : List (String × String)) (r1 r2 : List Char),
    as1.all plainAttrib = true → as2.all plainAttrib = true →
    (attribText as1).data ++ '>' :: r1 = (attribText as2).data ++ '>' :: r2 →
    as1 = as2 ∧ r1 = r2
  | [], [], r1, r2, _, _, h => by
    simp only [attribText] at h
    exact ⟨rfl, by simpa using h⟩
  | [], b :: as2, r1, r2, _, _, h => by
    rw [attribText_data_cons] at h
    simp only [attribText] at h
    exact absurd (List.cons.inj h).1 (by decide)
  | a :: as1, [], r1, r2, _, _, h => by
    rw [attribText_data_cons] at h
    simp only [attribText] at h
    exact absurd (List.cons.inj h).1 (by decide)
  | a :: as1, b :: as2, r1, r2, h1, h2, h => by
    rw [attribText_data_cons, attribText_data_cons] at h
    simp only [List.all_cons, Bool.and_eq_true] at h1 h2
    obtain ⟨ha, hrest1⟩ := h1
    obtain ⟨hb, hrest2⟩ := h2
    simp only [plainAttrib, Bool.and_eq_true, List.all_eq_true, Bool.not_eq_true',
      decide_eq_false_iff_not] at ha hb
    have h := (List.cons.inj h).2
    obtain ⟨hn, -, h⟩ := append_stop_inj (fun c => decide (c = '=')) _ _ _ _ _ _
      (fun c hc => by simpa using ha.1 c hc) (fun c hc => by simpa using hb.1 c hc)
      (by decide) (by decide) h
    have h := (List.cons.inj h).2
    obtain ⟨hv, -, h⟩ := append_stop_inj (fun c => decide (c = Char.ofNat 34)) _ _ _ _ _ _
      (fun c hc => by simpa using ha.2 c hc) (fun c hc => by simpa using hb.2 c hc)
      (by decide) (by decide) h
    obtain ⟨hrest, hr⟩ := attribText_inj as1 as2 r1 r2 hrest1 hrest2 h
    have hab : a = b := Prod.ext (String.ext hn) (String.ext hv)
    exact ⟨by rw [hab, hrest], hr⟩

theorem attribText_head (attrib : List (String × String)) (r : List Char) :
    ∃ c rest, (decide (c = ' ') || decide (c = '>')) = true ∧
      (attribText attrib).data ++ '>' :: r = c :: rest := by
  cases attrib with
  | nil => exact ⟨'>', r, by decide, by simp [attribText]⟩
  | cons a rest => exact ⟨' ', _, by decide, attribText_data_cons a rest _⟩

theorem printedText_leaf (tag : String) (s : String) (b : Bool)
    (attrib : List (String × String)) (d : Nat) (r : List Char) (htag : tag ≠ "collection") :
    (printedText (.mk tag (some s) b attrib []) d).data ++ r =
      List.replicate d '\t' ++ ('<' :: 'm' :: 'a' :: 'r' :: 'c' :: ':' :: (tag.data ++
        ((attribText attrib).data ++ '>' :: (s.data.flatMap encodeSpecialChar ++
          '<' :: '/' :: 'm' :: 'a' :: 'r' :: 'c' :: ':' :: (tag.data ++ '>' :: '\n' :: r))))) := by
  simp only [printedText, htag, ne_eq, not_false_eq_true, if_true, List.length_nil,
    lt_self_iff_false, if_false, String.data_append, List.append_assoc, tabs, fmtS,
    xmlEncodeSpecialChars]
  rfl

theorem printedText_parent (tag : String) (text : Option String) (b : Bool)
    (attrib : List (String × String)) (c : XmElem) (cs : List XmElem) (d : Nat)
    (r : List Char) (htag : tag ≠ "collection") :
    (printedText (.mk tag text b attrib (c :: cs)) d).data ++ r =
      List.replicate d '\t' ++ ('<' :: 'm' :: 'a' :: 'r' :: 'c' :: ':' :: (tag.data ++
        ((attribText attrib).data ++ '>' :: '\n' :: ((printedTexts (c :: cs) (d + 1)).data ++
          (List.replicate d '\t' ++
            '<' :: '/' :: 'm' :: 'a' :: 'r' :: 'c' :: ':' :: (tag.data ++ '>' :: '\n' :: r)))))) := by
  simp only [printedText, htag, ne_eq, not_false_eq_true, if_true, List.length_cons,
    Nat.zero_lt_succ, String.data_append, List.append_assoc, tabs]
  rfl

theorem printedText_head (e : XmElem) (d : Nat) (r : List Char) (h : plainElem e = true) :
    ∃ rest, (printedText e d).data ++ r = List.replicate d '\t' ++ '<' :: 'm' :: rest := by
  cases e with
  | mk tag text b attrib subs =>
    simp only [plainElem, Bool.and_eq_true, Bool.not_eq_true', decide_eq_false_iff_not,
      Bool.or_eq_true, decide_eq_true_eq] at h
    obtain ⟨⟨⟨⟨htag, -⟩, -⟩, htext⟩, -⟩ := h
    cases subs with
    | nil =>
      have hs : text.isSome = true := by simpa using htext
      obtain ⟨s, hs⟩ := Option.isSome_iff_exists.mp hs
      subst hs
      exact ⟨_, printedText_leaf tag s b attrib d r htag⟩
    | cons c cs => exact ⟨_, printedText_parent tag text b attrib c cs d r htag⟩

theorem opening_inj (tag1 tag2 : String) (attrib1 attrib2 : List (String × String)) (d : Nat)
    (y1 y2 : List Char) (ht1 : plainTag tag1 = true) (ht2 : plainTag tag2 = true)
    (ha1 : attrib1.all plainAttrib = true) (ha2 : attrib2.all plainAttrib = true)
    (h : List.replicate d '\t' ++ ('<' :: 'm' :: 'a' :: 'r' :: 'c' :: ':' :: (tag1.data ++
          ((attribText attrib1).data ++ '>' :: y1))) =
        List.replicate d '\t' ++ ('<' :: 'm' :: 'a' :: 'r' :: 'c' :: ':' :: (tag2.data ++
          ((attribText attrib2).data ++ '>' :: y2)))) :
    tag1 = tag2 ∧ attrib1 = attrib2 ∧ y1 = y2 := by
  have h := List.append_cancel_left h
  simp only [List.cons.injEq, true_and] at h
  obtain ⟨c1, rest1, hc1, e1⟩ := attribText_head attrib1 y1
  obtain ⟨c2, rest2, hc2, e2⟩ := attribText_head attrib2 y2
  simp only [plainTag, List.all_eq_true, Bool.not_eq_true'] at ht1 ht2
  have h' := h
  rw [e1, e2] at h'
  obtain ⟨htag, hc, hrest⟩ := append_stop_inj (fun c => decide (c = ' ') || decide (c = '>'))
    _ _ _ _ _ _ ht1 ht2 hc1 hc2 h'
  have hA : (attribText attrib1).data ++ '>' :: y1 = (attribText attrib2).data ++ '>' :: y2 := by
    rw [e1, e2, hc, hrest]
  obtain ⟨hattr, hy⟩ := attribText_inj attrib1 attrib2 y1 y2 ha1 ha2 hA
  exact ⟨String.ext htag, hattr, hy⟩

theorem printedTexts_data_cons (e : XmElem) (es : List XmElem) (k : Nat) (r : List Char) :
    (printedTexts (e :: es) k).data ++ r =
      (printedText e k).data ++ ((printedTexts es k).data ++ r) := by
  simp only [printedTexts, String.data_append, List.append_assoc]

theorem printedTexts_head (c : XmElem) (cs : List XmElem) (d : Nat) (r : List Char)
    (h : plainElem c = true) :
    ∃ rest, (printedTexts (c :: cs) (d + 1)).data ++ r =
      List.replicate d '\t' ++ '\t' :: '<' :: 'm' :: rest := by
  obtain ⟨rest, hrest⟩ := printedText_head c (d + 1) ((printedTexts cs (d + 1)).data ++ r) h
  refine ⟨rest, ?_⟩
  rw [printedTexts_data_cons, hrest, List.replicate_succ']
  simp only [List.append_assoc, List.singleton_append]

theorem leaf_ne_parent (s : String) (c : XmElem) (cs : List XmElem) (d : Nat)
    (x1 x2 : List Char) (hc : plainElem c = true)
    (h : s.data.flatMap encodeSpecialChar ++ '<' :: '/' :: x1 =
      '\n' :: ((printedTexts (c :: cs) (d + 1)).data ++ x2)) : False := by
  obtain ⟨rest, hrest⟩ := printedTexts_head c cs d x2 hc
  rw [hrest] at h
  have h' : s.data.flatMap encodeSpecialChar ++ '<' :: '/' :: x1 =
      ('\n' :: (List.replicate d '\t' ++ ['\t'])) ++ '<' :: 'm' :: rest := by
    rw [h]
    simp only [List.cons_append, List.append_assoc, List.nil_append]
  obtain ⟨-, -, hx⟩ := append_stop_inj (fun c => decide (c = '<')) _ _ _ _ _ _
    (flatMap_encodeSpecialChar_no_lt s.data)
    (by
      intro c hc
      simp only [List.mem_cons, List.mem_append, List.mem_replicate, List.mem_singleton,
        List.not_mem_nil, or_false] at hc
      rcases hc with hc | ⟨-, hc⟩ | hc <;> subst hc <;> decide)
    (by decide) (by decide) h'
  exact absurd (List.cons.inj hx).1 (by decide)

mutual
theorem printedText_inj : ∀ (e1 e2 : XmElem) (d : Nat) (r1 r2 : List Char),
    plainElem e1 = true → plainElem e2 = true →
    (printedText e1 d).data ++ r1 = (printedText e2 d).data ++ r2 →
    writtenPart e1 = writtenPart e2 ∧ r1 = r2
  | .mk tag1 text1 b1 attrib1 subs1, .mk tag2 text2 b2 attrib2 subs2, d, r1, r2, h1, h2, h => by
    simp only [plainElem, Bool.and_eq_true, Bool.not_eq_true', decide_eq_false_iff_not,
      Bool.or_eq_true, decide_eq_true_eq] at h1 h2
    obtain ⟨⟨⟨⟨htag1, hpt1⟩, hat1⟩, htext1⟩, hsub1⟩ := h1
    obtain ⟨⟨⟨⟨htag2, hpt2⟩, hat2⟩, htext2⟩, hsub2⟩ := h2
    cases subs1 with
    | nil =>
      have hs1 : text1.isSome = true := by simpa using htext1
      obtain ⟨s1, hs1⟩ := Option.isSome_iff_exists.mp hs1
      subst hs1
      rw [printedText_leaf tag1 s1 b1 attrib1 d r1 htag1] at h
      cases subs2 with
      | nil =>
        have hs2 : text2.isSome = true := by simpa using htext2
        obtain ⟨s2, hs2⟩ := Option.isSome_iff_exists.mp hs2
        subst hs2
        rw [printedText_leaf tag2 s2 b2 attrib2 d r2 htag2] at h
        obtain ⟨htag, hattr, hy⟩ := opening_inj tag1 tag2 attrib1 attrib2 d _ _ hpt1 hpt2
          hat1 hat2 h
        obtain ⟨hs, -, hx⟩ := append_stop_inj (fun c => decide (c = '<')) _ _ _ _ _ _
          (flatMap_encodeSpecialChar_no_lt s1.data) (flatMap_encodeSpecialChar_no_lt s2.data)
          (by decide) (by decide) hy
        have hss : s1 = s2 := String.ext (flatMap_encodeSpecialChar_inj _ _ hs)
        subst htag
        subst hattr
        subst hss
        simp only [List.cons.injEq, true_and] at hx
        have hr := List.append_cancel_left hx
        simp only [List.cons.injEq, true_and] at hr
        exact ⟨by simp [writtenPart, writtenParts], hr⟩
      | cons c2 cs2 =>
        rw [printedText_parent tag2 text2 b2 attrib2 c2 cs2 d r2 htag2] at h
        obtain ⟨-, -, hy⟩ := opening_inj tag1 tag2 attrib1 attrib2 d _ _ hpt1 hpt2 hat1 hat2 h
        have hc2 : plainElem c2 = true := by
          simp only [plainElems, Bool.and_eq_true] at hsub2
          exact hsub2.1
        exact absurd (leaf_ne_parent s1 c2 cs2 d _ _ hc2 hy) id
    | cons c1 cs1 =>
      rw [printedText_parent tag1 text1 b1 attrib1 c1 cs1 d r1 htag1] at h
      cases subs2 with
      | nil =>
        have hs2 : text2.isSome = true := by simpa using htext2
        obtain ⟨s2, hs2⟩ := Option.isSome_iff_exists.mp hs2
        subst hs2
        rw [printedText_leaf tag2 s2 b2 attrib2 d r2 htag2] at h
        obtain ⟨-, -, hy⟩ := opening_inj tag1 tag2 attrib1 attrib2 d _ _ hpt1 hpt2 hat1 hat2 h
        have hc1 : plainElem c1 = true := by
          simp only [plainElems, Bool.and_eq_true] at hsub1
          exact hsub1.1
        exact absurd (leaf_ne_parent s2 c1 cs1 d _ _ hc1 hy.symm) id
      | cons c2 cs2 =>
        rw [printedText_parent tag2 text2 b2 attrib2 c2 cs2 d r2 htag2] at h
        obtain ⟨htag, hattr, hy⟩ := opening_inj tag1 tag2 attrib1 attrib2 d _ _ hpt1 hpt2
          hat1 hat2 h
        have hy := (List.cons.inj hy).2
        obtain ⟨hsubs, hx⟩ := printedTexts_inj (c1 :: cs1) (c2 :: cs2) d _ _ hsub1 hsub2 hy
        subst htag
        subst hattr
        simp only [List.cons.injEq, true_and] at hx
        have hr := List.append_cancel_left hx
        simp only [List.cons.injEq, true_and] at hr
        refine ⟨?_, hr⟩
        simp only [writtenPart, List.length_cons, Nat.zero_lt_succ, if_true, hsubs]
theorem printedTexts_inj : ∀ (es1 es2 : List XmElem) (d : Nat) (r1 r2 : List Char),
    plainElems es1 = true → plainElems es2 = true →
    (printedTexts es1 (d + 1)).data ++ (List.replicate d '\t' ++ '<' :: '/' :: r1) =
      (printedTexts es2 (d + 1)).data ++ (List.replicate d '\t' ++ '<' :: '/' :: r2) →
    writtenParts es1 = writtenParts es2 ∧ r1 = r2
  | [], [], d, r1, r2, _, _, h => by
    rw [show (printedTexts [] (d + 1)).data = [] from rfl, List.nil_append] at h
    have h := List.append_cancel_left h
    simp only [List.cons.injEq, true_and] at h
    exact ⟨rfl, h⟩
  | [], e2 :: es2, d, r1, r2, _, h2, h => by
    simp only [plainElems, Bool.and_eq_true] at h2
    obtain ⟨rest, hrest⟩ := printedTexts_head e2 es2 d
      (List.replicate d '\t' ++ '<' :: '/' :: r2) h2.1
    rw [hrest] at h
    rw [show (printedTexts [] (d + 1)).data = [] from rfl, List.nil_append] at h
    have h := List.append_cancel_left h
    exact absurd (List.cons.inj h).1 (by decide)
  | e1 :: es1, [], d, r1, r2, h1, _, h => by
    simp only [plainElems, Bool.and_eq_true] at h1
    obtain ⟨rest, hrest⟩ := printedTexts_head e1 es1 d
      (List.replicate d '\t' ++ '<' :: '/' :: r1) h1.1
    rw [hrest] at h
    rw [show (printedTexts [] (d + 1)).data = [] from rfl, List.nil_append] at h
    have h := List.append_cancel_left h
    exact absurd (List.cons.inj h).1 (by decide)
  | e1 :: es1, e2 :: es2, d, r1, r2, h1, h2, h => by
    simp only [plainElems, Bool.and_eq_true] at h1 h2
    rw [printedTexts_data_cons, printedTexts_data_cons] at h
    obtain ⟨he, hrest⟩ := printedText_inj e1 e2 (d + 1) _ _ h1.1 h2.1 h
    obtain ⟨hes, hr⟩ := printedTexts_inj es1 es2 d r1 r2 h1.2 h2.2 hrest
    exact ⟨by simp only [writtenParts, he, hes], hr⟩
end

theorem writtenParts_length (es : List XmElem) : (writtenParts es).length = es.length := by
  induction es with
  | nil => simp [writtenParts]
  | cons e es ih => simp [writtenParts, ih]

mutual
theorem printedText_writtenPart : ∀ (e : XmElem) (d : Nat),
    printedText (writtenPart e) d = printedText e d
  | .mk tag text b attrib subs, d => by
    have ih := printedTexts_writtenParts subs (d + 1)
    simp only [writtenPart, printedText, writtenParts_length, ih]
    by_cases hs : 0 < subs.length <;> simp [hs]
theorem printedTexts_writtenParts : ∀ (es : List XmElem) (d : Nat),
    printedTexts (writtenParts es) d = printedTexts es d
  | [], d => by simp [writtenParts]
  | e :: es, d => by
    simp only [writtenParts, printedTexts, printedText_writtenPart e d,
      printedTexts_writtenParts es d]
end

theorem mxWriteFile_written (top : XmElem) (htag : top.tag = "collection")
    (hsub : 0 < top.subelem.length) (f : FILE) (hf : f.neverFails) :
    (mxWriteFile (some top) f).2.written =
      f.written ++ headerText top ++ printedTexts top.subelem 1 ++ closingLine := by
  rw [(mxWriteFile_ok top htag f hf).2, printedTexts_eq]
  simp [strayText, hsub, childrenText]

set_option maxRecDepth 20000 in
/-- The text of an element with subelements is not written: the same
collection written on one line and written on five indented lines gives two
trees that differ in the text of the collection and of the record, absent in
the first and white space in the second; `mxWriteFile` writes the same text
for both, so no way of reading the written text back gives the text of both
trees. -/
theorem mxWriteFile_drops_parent_text :
    mxMakeElem compactCollectionNode [] =
      some (.mk "collection" none true []
        [.mk "record" none true [] [.mk "leader" (some "00000nam") false [] []]]) ∧
    mxMakeElem indentedCollectionNode [] =
      some (.mk "collection" (some "\n  \n") true []
        [.mk "record" (some "\n    \n  ") true []
          [.mk "leader" (some "00000nam") false [] []]]) ∧
    (mxWriteFile (some (mxMakeElemBody compactCollectionNode)) okStream).2.written =
      (mxWriteFile (some (mxMakeElemBody indentedCollectionNode)) okStream).2.written ∧
    ∀ rebuild : String → Option XmElem,
      ¬ ((∃ t, rebuild (mxWriteFile (some (mxMakeElemBody compactCollectionNode))
            okStream).2.written = some t ∧
          t.text = (mxMakeElemBody compactCollectionNode).text) ∧
        (∃ t, rebuild (mxWriteFile (some (mxMakeElemBody indentedCollectionNode))
            okStream).2.written = some t ∧
          t.text = (mxMakeElemBody indentedCollectionNode).text)) := by
  have hout : (mxWriteFile (some (mxMakeElemBody compactCollectionNode)) okStream).2.written =
      (mxWriteFile (some (mxMakeElemBody indentedCollectionNode)) okStream).2.written := by
    rfl
  refine ⟨by rfl, by rfl, hout, ?_⟩
  rintro rebuild ⟨⟨t1, h1, ht1⟩, ⟨t2, h2, ht2⟩⟩
  rw [hout, h2] at h1
  have ht : t2 = t1 := Option.some.inj h1
  subst ht
  rw [ht2] at ht1
  exact absurd ht1 (by
    rw [show (mxMakeElemBody indentedCollectionNode).text = some "\n  \n" from by rfl,
      show (mxMakeElemBody compactCollectionNode).text = none from by rfl]
    simp)

/-- What the written text tells apart.  For two trees tagged "collection"
that have subelements, all of them plain (no element below the root tagged
"collection", tags and attributes without delimiter characters, a text at
every element without subelements), `mxWriteFile` writes the same text on a
stream where every write succeeds exactly when the subelements of the two
roots have the same written parts: the same tags, the same attributes in the
same order, the same subelements in the same order, and the same text at
every element without subelements.  The attributes and the text of the root
and the text of every element with subelements are not written. -/
theorem mxWriteFile_determines_written_parts (top1 top2 : XmElem) (f : FILE)
    (hf : f.neverFails)
    (htag1 : top1.tag = "collection") (htag2 : top2.tag = "collection")
    (hsub1 : 0 < top1.subelem.length) (hsub2 : 0 < top2.subelem.length)
    (hp1 : plainElems top1.subelem = true) (hp2 : plainElems top2.subelem = true) :
    (mxWriteFile (some top1) f).2.written = (mxWriteFile (some top2) f).2.written ↔
      writtenParts top1.subelem = writtenParts top2.subelem := by
  rw [mxWriteFile_written top1 htag1 hsub1 f hf, mxWriteFile_written top2 htag2 hsub2 f hf]
  have hhead : headerText top1 = headerText top2 := by
    simp only [headerText, htag1, htag2]
  constructor
  · intro h
    rw [hhead] at h
    have hd := congrArg String.data h
    simp only [String.data_append, List.append_assoc] at hd
    have hd := List.append_cancel_left (List.append_cancel_left hd)
    have hcl : closingLine.data =
        List.replicate 0 '\t' ++ '<' :: '/' :: "marc:collection>\n".data := rfl
    rw [hcl] at hd
    exact (printedTexts_inj top1.subelem top2.subelem 0 _ _ hp1 hp2 hd).1
  · intro h
    rw [hhead, ← printedTexts_writtenParts top1.subelem 1, h,
      printedTexts_writtenParts top2.subelem 1]

set_option maxRecDepth 20000 in
/-- Example: the trees built from the collection written on one line and from
the same collection written on five lines. -/
theorem mxWriteFile_determines_written_parts_witness :
    (mxWriteFile (some (mxMakeElemBody compactCollectionNode)) okStream).2.written =
        (mxWriteFile (some (mxMakeElemBody indentedCollectionNode)) okStream).2.written ↔
      writtenParts (mxMakeElemBody compactCollectionNode).subelem =
        writtenParts (mxMakeElemBody indentedCollectionNode).subelem :=
  mxWriteFile_determines_written_parts (mxMakeElemBody compactCollectionNode)
    (mxMakeElemBody indentedCollectionNode) okStream okStream_neverFails (by rfl) (by rfl)
    (by decide) (by decide) (by rfl) (by rfl)

/-! ### The root of the written file -/

theorem mxWriteFile_calls (e : XmElem) (htag : e.tag = "collection") (mxfile : FILE) :
    mxfile.calls < (mxWriteFile (some e) mxfile).2.calls := by
  simp only [mxWriteFile, htag, if_true]
  split_ifs
  · rw [fprintf_calls]
    exact Nat.lt_succ_self _
  · rw [fprintf_calls]
    refine Nat.lt_succ_of_le (le_trans ?_ (printElement_calls _ _ _))
    rw [fprintf_calls, fprintf_calls, fprintf_calls, fprintf_calls]
    omega

/-- C31. The function `mxWriteFile` rejects an invalid root: when `top` is
`NULL`, has a `NULL` tag, or has a tag other than "collection", it returns -1
and leaves the output file as it was, with nothing written and no write
attempted.  When `top` is tagged "collection" it does not take this path: it
starts with a write on the output file, so the file it leaves has at least
one call more.  Returning -1 with the file untouched happens exactly for an
invalid root. -/
theorem mxWriteFile_rejects_invalid_root (top : TopPtr) (mxfile : FILE) :
    (validRoot top = false →
      mxWriteFileTop top mxfile = (-1, mxfile) ∧
      (mxWriteFileTop top mxfile).2.written = mxfile.written) ∧
    (validRoot top = true → mxfile.calls < (mxWriteFileTop top mxfile).2.calls) ∧
    (mxWriteFileTop top mxfile = (-1, mxfile) ↔ validRoot top = false) ∧
    mxWriteFile none mxfile = (-1, mxfile) ∧
    (∀ e : XmElem, e.tag ≠ "collection" → mxWriteFile (some e) mxfile = (-1, mxfile)) := by
  have hbad : ∀ e : XmElem, e.tag ≠ "collection" →
      mxWriteFile (some e) mxfile = (-1, mxfile) := by
    intro e he
    simp only [mxWriteFile, he, if_false]
  have h1 : validRoot top = false → mxWriteFileTop top mxfile = (-1, mxfile) := by
    intro hv
    cases top with
    | null => rfl
    | untagged => rfl
    | tagged e =>
      simp only [validRoot, decide_eq_false_iff_not] at hv
      exact hbad e hv
  have h2 : validRoot top = true → mxfile.calls < (mxWriteFileTop top mxfile).2.calls := by
    intro hv
    cases top with
    | null => exact absurd hv (by simp [validRoot])
    | untagged => exact absurd hv (by simp [validRoot])
    | tagged e =>
      simp only [validRoot, decide_eq_true_eq] at hv
      exact mxWriteFile_calls e hv mxfile
  refine ⟨fun hv => ⟨h1 hv, by rw [h1 hv]⟩, h2, ⟨?_, h1⟩, rfl, hbad⟩
  intro h
  by_contra hv
  have hv' : validRoot top = true := by simpa using hv
  have := h2 hv'
  rw [h] at this
  exact absurd this (lt_irrefl _)

set_option maxRecDepth 20000 in
/-- Witness for C31: a root tagged "record" is rejected with the file
untouched, and a collection is written; a `NULL` root and a root without tag
give -1 and an untouched file as well. -/
theorem mxWriteFile_rejects_invalid_root_witness :
    (mxWriteFileTop (.tagged designPatterns) okStream = (-1, okStream) ∧
      (mxWriteFileTop (.tagged designPatterns) okStream).2.written = okStream.written) ∧
    okStream.calls < (mxWriteFileTop (.tagged designCollection) okStream).2.calls ∧
    mxWriteFileTop .null okStream = (-1, okStream) ∧
    mxWriteFileTop .untagged okStream = (-1, okStream) ∧
    (mxWriteFileTop (.tagged designCollection) okStream).1 = 3 ∧
    (mxWriteFileTop (.tagged designCollection) okStream).2.calls = 27 :=
  ⟨(mxWriteFile_rejects_invalid_root (.tagged designPatterns) okStream).1 (by rfl),
    (mxWriteFile_rejects_invalid_root (.tagged designCollection) okStream).2.1 (by rfl),
    by rfl, by rfl, by rfl, by rfl⟩

set_option maxRecDepth 20000 in
/-- Evaluation for C26: the tree built from a collection whose subfield is
written `<subfield code="a"/>` has no text at the subfield; `mxWriteFile`
writes the subfield as `<marc:subfield code="a">(null)</marc:subfield>`, the
same text it writes for the tree built from the collection whose subfield has
the text `(null)`, so no way of reading the written text back gives both
trees.  For a subfield whose code and text are the character `&`, the text is
written as `&amp;` and the attribute value is written as it is, `code="&"`. -/
theorem mxWriteFile_round_trip_fails :
    mxMakeElem emptySubfieldCollectionNode [] =
      some (.mk "collection" none true []
        [.mk "record" none true []
          [.mk "datafield" none true [("tag", "245")]
            [.mk "subfield" none true [("code", "a")] []]]]) ∧
    mxMakeElem nullTextCollectionNode [] =
      some (.mk "collection" none true []
        [.mk "record" none true []
          [.mk "datafield" none true [("tag", "245")]
            [.mk "subfield" (some "(null)") false [("code", "a")] []]]]) ∧
    (mxWriteFile (some (mxMakeElemBody emptySubfieldCollectionNode)) okStream).2.written =
      xmlDeclLine ++ commentLine ++ "<marc:collection" ++ namespaceDecls ++
        "\t<marc:record>\n" ++
        "\t\t<marc:datafield tag=\"245\">\n" ++
        "\t\t\t<marc:subfield code=\"a\">(null)</marc:subfield>\n" ++
        "\t\t</marc:datafield>\n" ++
        "\t</marc:record>\n" ++
        "</marc:collection>\n" ∧
    (mxWriteFile (some (mxMakeElemBody nullTextCollectionNode)) okStream).2.written =
      (mxWriteFile (some (mxMakeElemBody emptySubfieldCollectionNode)) okStream).2.written ∧
    (∀ rebuild : String → Option XmElem,
      ¬ (rebuild (mxWriteFile (some (mxMakeElemBody emptySubfieldCollectionNode))
            okStream).2.written = some (mxMakeElemBody emptySubfieldCollectionNode) ∧
        rebuild (mxWriteFile (some (mxMakeElemBody nullTextCollectionNode))
            okStream).2.written = some (mxMakeElemBody nullTextCollectionNode))) ∧
    mxMakeElem ampersandCollectionNode [] =
      some (.mk "collection" none true []
        [.mk "record" none true []
          [.mk "datafield" none true [("tag", "245")]
            [.mk "subfield" (some "&") false [("code", "&")] []]]]) ∧
    (mxWriteFile (some (mxMakeElemBody ampersandCollectionNode)) okStream).2.written =
      xmlDeclLine ++ commentLine ++ "<marc:collection" ++ namespaceDecls ++
        "\t<marc:record>\n" ++
        "\t\t<marc:datafield tag=\"245\">\n" ++
        "\t\t\t<marc:subfield code=\"&\">&amp;</marc:subfield>\n" ++
        "\t\t</marc:datafield>\n" ++
        "\t</marc:record>\n" ++
        "</marc:collection>\n" := by
  have hout : (mxWriteFile (some (mxMakeElemBody nullTextCollectionNode)) okStream).2.written =
      (mxWriteFile (some (mxMakeElemBody emptySubfieldCollectionNode)) okStream).2.written := by
    rfl
  refine ⟨by rfl, by rfl, by rfl, hout, ?_, by rfl, by rfl⟩
  rintro rebuild ⟨h1, h2⟩
  rw [hout, h1] at h2
  have hne : mxMakeElemBody emptySubfieldCollectionNode ≠
      mxMakeElemBody nullTextCollectionNode := by
    intro h
    have h3 := congrArg (fun e => e.subelem.map fun r => r.subelem.map fun d =>
      d.subelem.map fun s => s.text) h
    exact absurd h3 (by
      rw [show (fun e : XmElem => e.subelem.map fun r => r.subelem.map fun d =>
          d.subelem.map fun s => s.text) (mxMakeElemBody emptySubfieldCollectionNode) =
            [[[none]]] from by rfl,
        show (fun e : XmElem => e.subelem.map fun r => r.subelem.map fun d =>
          d.subelem.map fun s => s.text) (mxMakeElemBody nullTextCollectionNode) =
            [[[some "(null)"]]] from by rfl]
      simp)
  exact hne (Option.some.inj h2)

end MxUtil
